import Mathlib

/-!
# libc8asm: label resolution, backpatching and validated encoding

A shallow embedding of `c8asm.c` / `c8asm.h`.

Modelling conventions.

* The process-wide variables of `c8asm.c` (`number_of_labels`,
  `number_of_undefined_labels`, `labels`, `machine_code`,
  `instruction_pointer`) are the fields of `AsmState`; every function takes the
  state and returns the new one next to its C return value.
* `uint_fast16_t` values are natural numbers.  Every value the code computes
  with them stays far below `2 ^ 16` (the cursor never exceeds
  `BUFFER_SIZE + 1`), and an instruction word is only ever read through
  `(word >> 8) & 0xff` and `word & 0xff`, so the platform's width is immaterial.
* `uint_fast32_t` has a platform-defined width; the hash is computed modulo
  `2 ^ w` for a parameter `w`, and every theorem holds for every `w`.
* `machine_code` and `labels` are total maps from offsets/slots; the C arrays
  are the parts below `BUFFER_SIZE` and `TABLE_OF_LABELS_SIZE`.  An access at an
  offset outside that range is outside the C array: in the program it hits
  whatever object follows the array, and the behaviour from then on is
  undefined.  Two public calls can make such an access: `asm_emit_data` at
  cursor `BUFFER_SIZE`, and `asm_emit_label` when the walk visits an offset
  `i` with `BUFFER_SIZE ≤ i + 1`.  For such a call the functions below only
  record where the access goes (the total map keeps the byte at that offset);
  the state they return says nothing about the program.  `exec_within` tells
  whether a call stays inside the arrays, and the runs of `Steps`, `Quiet` and
  `CleanSteps` consist of such calls only.
* A slot of `labels` whose `label` pointer is `NULL` is `none`.
* The two loops that the C code leaves without a bound take fuel: the probe
  loop is given `TABLE_OF_LABELS_SIZE` steps (after that many steps it has seen
  every slot and, the table being unchanged, can only go round again), the
  chain walk of `asm_emit_label` is given the caller's fuel.  `none` stands for
  a call that does not return within the fuel.
-/

namespace C8asm

/-- Return codes, `enum AsmError` of `c8asm.h`. -/
inductive AsmError where
  | ASM_OK
  | ASM_TOO_MANY_LABELS
  | ASM_SECOND_DEFINITION
  | ASM_TOO_BIG_ARGUMENT
  | ASM_TOO_MANY_INSTRUCTIONS
  deriving DecidableEq, Repr

open AsmError

/-- Machine code starts at this address. -/
def ASM_MIN_ADDRESS : Nat := 0x200

/-- Size of the address space. -/
def ASM_MAX_ADDRESS : Nat := 0x1000

/-- Maximum number of labels that can be used. -/
def ASM_MAX_LABELS : Nat := 4096

/-- Size of the internal buffer. -/
def ASM_BUFFER_SIZE : Nat := ASM_MAX_ADDRESS - ASM_MIN_ADDRESS

/-- Modelled from the spec: `c8asm.c` uses `MIN_ADDRESS`, whose `#define` is not
among the sources; it is the base address, `ASM_MIN_ADDRESS` of the header. -/
def MIN_ADDRESS : Nat := ASM_MIN_ADDRESS

/-- Modelled from the spec: `c8asm.c` uses `MAX_LABELS`, whose `#define` is not
among the sources; it is the configured maximum label count, `ASM_MAX_LABELS`
of the header. -/
def MAX_LABELS : Nat := ASM_MAX_LABELS

/-- Modelled from the spec: `c8asm.c` uses `BUFFER_SIZE`, whose `#define` is not
among the sources; it is the capacity of the code buffer, `ASM_BUFFER_SIZE` of
the header. -/
def BUFFER_SIZE : Nat := ASM_BUFFER_SIZE

/-- Number of slots of the label table. -/
def TABLE_OF_LABELS_SIZE : Nat := MAX_LABELS * 5 / 4 + 1

/-- The djb2 hash of `string_hash`, in `w`-bit unsigned arithmetic.  A C string
is the list of its characters before the terminating NUL; a character stands
for its code. -/
def string_hash (w : Nat) (str : String) : Nat :=
  str.toList.foldl (fun hash c => (((hash <<< 5) + hash) + c.toNat) % 2 ^ w) 5381

/-- One slot of the table, `struct LabelAddress`. -/
structure LabelAddress where
  hash : Nat
  label : String
  address : Nat
  undefined : Bool
  deriving DecidableEq, Repr

/-- The static variables of `c8asm.c`. -/
structure AsmState where
  number_of_labels : Nat
  number_of_undefined_labels : Nat
  labels : Nat → Option LabelAddress
  machine_code : Nat → Nat
  instruction_pointer : Nat

/-- `asm_get_number_of_undefined_labels`. -/
def asm_get_number_of_undefined_labels (s : AsmState) : Nat :=
  s.number_of_undefined_labels

/-- `asm_get_machine_code`. -/
def asm_get_machine_code (s : AsmState) : Nat → Nat :=
  s.machine_code

/-- `asm_get_instruction_pointer`. -/
def asm_get_instruction_pointer (s : AsmState) : Nat :=
  s.instruction_pointer

/-- How the probe loop shared by `lookup_label` and `add_label` ends: at a slot
holding the name, at an empty slot, or not at all. -/
inductive Probe where
  | found (i : Nat) (la : LabelAddress)
  | vacant (i : Nat)
  | spin
  deriving DecidableEq, Repr

/-- The loop `for (i = ...; labels[i].label; i = (i + 1) % n)` with the test
`hash == labels[i].hash && !strcmp(label, labels[i].label)` in its body, started
at slot `i`. -/
def probe (labels : Nat → Option LabelAddress) (label : String) (hash : Nat) :
    Nat → Nat → Probe
  | 0, _ => Probe.spin
  | fuel + 1, i =>
    match labels i with
    | none => Probe.vacant i
    | some la =>
      if hash = la.hash ∧ label = la.label then Probe.found i la
      else probe labels label hash fuel ((i + 1) % TABLE_OF_LABELS_SIZE)

/-- The probe of the whole table for `label`, from slot `hash % n`. -/
def probe_label (w : Nat) (s : AsmState) (label : String) : Probe :=
  probe s.labels label (string_hash w label) TABLE_OF_LABELS_SIZE
    (string_hash w label % TABLE_OF_LABELS_SIZE)

/-- `lookup_label`: the slot and entry of `label`, or `NULL`.  The outer `none`
is a probe that never ends. -/
def lookup_label (w : Nat) (s : AsmState) (label : String) :
    Option (Option (Nat × LabelAddress)) :=
  match probe_label w s label with
  | Probe.found i la => some (some (i, la))
  | Probe.vacant _ => some none
  | Probe.spin => none

/-- `add_label`. -/
def add_label (w : Nat) (s : AsmState) (new_label_address : LabelAddress) :
    Option (AsmError × AsmState) :=
  if s.number_of_labels ≥ MAX_LABELS then some (ASM_TOO_MANY_LABELS, s)
  else
    let label := new_label_address.label
    let hash := string_hash w label
    match probe_label w s label with
    | Probe.found _ _ => some (ASM_SECOND_DEFINITION, s)
    | Probe.vacant i =>
      some (ASM_OK,
        { s with
          number_of_labels := s.number_of_labels + 1
          labels := Function.update s.labels i (some { new_label_address with hash := hash }) })
    | Probe.spin => none

/-- `asm_init`.  The code buffer is not cleared. -/
def asm_init (s : AsmState) : AsmState :=
  { s with
    instruction_pointer := 0
    number_of_labels := 0
    number_of_undefined_labels := 0
    labels := fun _ => none }

/-- The `do ... while (j)` loop of `asm_emit_label`, entered with `j = i`.  Each
round reads and writes `machine_code[i]` and `machine_code[i + 1]`; these are
inside the array only when `i + 1 < BUFFER_SIZE` (see `walk_within`). -/
def backpatch (address : Nat) : Nat → (Nat → Nat) → Nat → Option (Nat → Nat)
  | 0, _, _ => none
  | fuel + 1, machine_code, i =>
    let j := ((machine_code i &&& 0x0f) <<< 8) ||| machine_code (i + 1)
    let m1 := Function.update machine_code i
      ((machine_code i &&& 0xf0) ||| ((address >>> 8) &&& 0x0f))
    let m2 := Function.update m1 (i + 1) (address &&& 0xff)
    if j ≠ 0 then backpatch address fuel m2 j else some m2

/-- `asm_emit_label`. -/
def asm_emit_label (w fuel : Nat) (s : AsmState) (label : String) :
    Option (AsmError × AsmState) :=
  match lookup_label w s label with
  | none => none
  | some (some (slot, la)) =>
    if !la.undefined then some (ASM_SECOND_DEFINITION, s)
    else
      let address := MIN_ADDRESS + s.instruction_pointer
      match backpatch address fuel s.machine_code la.address with
      | none => none
      | some machine_code =>
        some (ASM_OK,
          { s with
            machine_code := machine_code
            labels := Function.update s.labels slot
              (some { la with undefined := false, address := address })
            number_of_undefined_labels := s.number_of_undefined_labels - 1 })
  | some none =>
    match add_label w s
        { hash := 0, label := label,
          address := MIN_ADDRESS + s.instruction_pointer, undefined := false } with
    | none => none
    | some (e, s1) => if ASM_OK ≠ e then some (e, s1) else some (ASM_OK, s1)

/-- `emit`. -/
def emit (s : AsmState) (instruction : Nat) : AsmError × AsmState :=
  if BUFFER_SIZE ≤ s.instruction_pointer + 1 then (ASM_TOO_MANY_INSTRUCTIONS, s)
  else
    (ASM_OK,
      { s with
        machine_code :=
          Function.update
            (Function.update s.machine_code s.instruction_pointer
              ((instruction >>> 8) &&& 0xff))
            (s.instruction_pointer + 1) (instruction &&& 0xff)
        instruction_pointer := s.instruction_pointer + 2 })

/-- The test of the macro `CHECK_ARGUMENT_SIZE`: true when the macro returns
`ASM_TOO_BIG_ARGUMENT`.  For the sizes in use (4, 8, 12) the cast to
`uint_fast16_t` leaves `1 << size` as it is. -/
def CHECK_ARGUMENT_SIZE (argument size : Nat) : Bool :=
  decide ((1 <<< size) < argument)

/-- `emit_hnnni`. -/
def emit_hnnni (s : AsmState) (h nnn : Nat) : AsmError × AsmState :=
  if CHECK_ARGUMENT_SIZE h 4 then (ASM_TOO_BIG_ARGUMENT, s)
  else if CHECK_ARGUMENT_SIZE nnn 12 then (ASM_TOO_BIG_ARGUMENT, s)
  else emit s ((h <<< 12) ||| nnn)

/-- `emit_hnnnl`. -/
def emit_hnnnl (w : Nat) (s : AsmState) (h : Nat) (label : String) :
    Option (AsmError × AsmState) :=
  match lookup_label w s label with
  | none => none
  | some none =>
    match add_label w s
        { hash := 0, label := label,
          address := s.instruction_pointer, undefined := true } with
    | none => none
    | some (e, s1) =>
      if ASM_OK ≠ e then some (e, s1)
      else
        let r := emit_hnnni s1 h 0
        some (r.1,
          { r.2 with number_of_undefined_labels := r.2.number_of_undefined_labels + 1 })
  | some (some (slot, la)) =>
    if la.undefined then
      let previous_usage := la.address
      let s1 : AsmState :=
        { s with
          labels := Function.update s.labels slot
            (some { la with address := s.instruction_pointer }) }
      some (emit_hnnni s1 h previous_usage)
    else some (emit_hnnni s h la.address)

/-- `emit_hxkk`. -/
def emit_hxkk (s : AsmState) (h x kk : Nat) : AsmError × AsmState :=
  if CHECK_ARGUMENT_SIZE h 4 then (ASM_TOO_BIG_ARGUMENT, s)
  else if CHECK_ARGUMENT_SIZE x 4 then (ASM_TOO_BIG_ARGUMENT, s)
  else if CHECK_ARGUMENT_SIZE kk 8 then (ASM_TOO_BIG_ARGUMENT, s)
  else emit s (((h <<< 12) ||| (x <<< 8)) ||| kk)

/-- `emit_hxyn`. -/
def emit_hxyn (s : AsmState) (h x y n : Nat) : AsmError × AsmState :=
  if CHECK_ARGUMENT_SIZE h 4 then (ASM_TOO_BIG_ARGUMENT, s)
  else if CHECK_ARGUMENT_SIZE x 4 then (ASM_TOO_BIG_ARGUMENT, s)
  else if CHECK_ARGUMENT_SIZE y 4 then (ASM_TOO_BIG_ARGUMENT, s)
  else if CHECK_ARGUMENT_SIZE n 4 then (ASM_TOO_BIG_ARGUMENT, s)
  else emit s ((((h <<< 12) ||| (x <<< 8)) ||| (y <<< 4)) ||| n)

/-- `asm_emit_data`.  At cursor `BUFFER_SIZE` the guard lets the call through and
the store goes to `machine_code[BUFFER_SIZE]`, outside the array (see
`exec_within`). -/
def asm_emit_data (s : AsmState) (data : Nat) : AsmError × AsmState :=
  if BUFFER_SIZE < s.instruction_pointer then (ASM_TOO_MANY_INSTRUCTIONS, s)
  else
    (ASM_OK,
      { s with
        machine_code := Function.update s.machine_code s.instruction_pointer (data &&& 0xff)
        instruction_pointer := s.instruction_pointer + 1 })

def asm_emit_cls (s : AsmState) : AsmError × AsmState := emit s 0x00e0
def asm_emit_ret (s : AsmState) : AsmError × AsmState := emit s 0x00ee
def asm_emit_jp_addr (s : AsmState) (addr : Nat) : AsmError × AsmState := emit_hnnni s 0x1 addr
def asm_emit_jp_label (w : Nat) (s : AsmState) (label : String) :
    Option (AsmError × AsmState) := emit_hnnnl w s 0x1 label
def asm_emit_call_addr (s : AsmState) (addr : Nat) : AsmError × AsmState := emit_hnnni s 0x2 addr
def asm_emit_call_label (w : Nat) (s : AsmState) (label : String) :
    Option (AsmError × AsmState) := emit_hnnnl w s 0x2 label
def asm_emit_se_vx_byte (s : AsmState) (x byte : Nat) : AsmError × AsmState := emit_hxkk s 0x3 x byte
def asm_emit_sne_vx_byte (s : AsmState) (x byte : Nat) : AsmError × AsmState := emit_hxkk s 0x4 x byte
def asm_emit_se_vx_vy (s : AsmState) (x y : Nat) : AsmError × AsmState := emit_hxyn s 0x5 x y 0
def asm_emit_ld_vx_byte (s : AsmState) (x byte : Nat) : AsmError × AsmState := emit_hxkk s 0x6 x byte
def asm_emit_add_vx_byte (s : AsmState) (x byte : Nat) : AsmError × AsmState := emit_hxkk s 0x7 x byte
def asm_emit_ld_vx_vy (s : AsmState) (x y : Nat) : AsmError × AsmState := emit_hxyn s 0x8 x y 0
def asm_emit_or_vx_vy (s : AsmState) (x y : Nat) : AsmError × AsmState := emit_hxyn s 0x8 x y 1
def asm_emit_and_vx_vy (s : AsmState) (x y : Nat) : AsmError × AsmState := emit_hxyn s 0x8 x y 2
def asm_emit_xor_vx_vy (s : AsmState) (x y : Nat) : AsmError × AsmState := emit_hxyn s 0x8 x y 3
def asm_emit_add_vx_vy (s : AsmState) (x y : Nat) : AsmError × AsmState := emit_hxyn s 0x8 x y 4
def asm_emit_sub_vx_vy (s : AsmState) (x y : Nat) : AsmError × AsmState := emit_hxyn s 0x8 x y 5
def asm_emit_shr_vx (s : AsmState) (x : Nat) : AsmError × AsmState := emit_hxkk s 0x8 x 0x06
def asm_emit_subn_vx_vy (s : AsmState) (x y : Nat) : AsmError × AsmState := emit_hxyn s 0x8 x y 7
def asm_emit_shl_vx (s : AsmState) (x : Nat) : AsmError × AsmState := emit_hxkk s 0x8 x 0x0E
def asm_emit_sne_vx_vy (s : AsmState) (x y : Nat) : AsmError × AsmState := emit_hxyn s 0x9 x y 0
def asm_emit_ld_i_addr (s : AsmState) (addr : Nat) : AsmError × AsmState := emit_hnnni s 0xA addr
def asm_emit_ld_i_label (w : Nat) (s : AsmState) (label : String) :
    Option (AsmError × AsmState) := emit_hnnnl w s 0xA label
def asm_emit_jp_v0_addr (s : AsmState) (addr : Nat) : AsmError × AsmState := emit_hnnni s 0xB addr
def asm_emit_jp_v0_label (w : Nat) (s : AsmState) (label : String) :
    Option (AsmError × AsmState) := emit_hnnnl w s 0xB label
def asm_emit_rnd_vx_byte (s : AsmState) (x byte : Nat) : AsmError × AsmState := emit_hxkk s 0xC x byte
def asm_emit_drw_vx_vy_nibble (s : AsmState) (x y nibble : Nat) : AsmError × AsmState :=
  emit_hxyn s 0xD x y nibble
def asm_emit_skp_vx (s : AsmState) (x : Nat) : AsmError × AsmState := emit_hxkk s 0xE x 0x9E
def asm_emit_sknp_vx (s : AsmState) (x : Nat) : AsmError × AsmState := emit_hxkk s 0xE x 0xA1
def asm_emit_ld_vx_dt (s : AsmState) (x : Nat) : AsmError × AsmState := emit_hxkk s 0xF x 0x07
def asm_emit_ld_vx_k (s : AsmState) (x : Nat) : AsmError × AsmState := emit_hxkk s 0xF x 0x0A
def asm_emit_ld_dt_vx (s : AsmState) (x : Nat) : AsmError × AsmState := emit_hxkk s 0xF x 0x15
def asm_emit_ld_st_vx (s : AsmState) (x : Nat) : AsmError × AsmState := emit_hxkk s 0xF x 0x18
def asm_emit_add_i_vx (s : AsmState) (x : Nat) : AsmError × AsmState := emit_hxkk s 0xF x 0x1E
def asm_emit_ld_f_vx (s : AsmState) (x : Nat) : AsmError × AsmState := emit_hxkk s 0xF x 0x29
def asm_emit_ld_b_vx (s : AsmState) (x : Nat) : AsmError × AsmState := emit_hxkk s 0xF x 0x33
def asm_emit_ld_ii_vx (s : AsmState) (x : Nat) : AsmError × AsmState := emit_hxkk s 0xF x 0x55
def asm_emit_ld_vx_ii (s : AsmState) (x : Nat) : AsmError × AsmState := emit_hxkk s 0xF x 0x65

/-- The state of a freshly loaded program: all static storage is zero. -/
def zero_state : AsmState :=
  { number_of_labels := 0
    number_of_undefined_labels := 0
    labels := fun _ => none
    machine_code := fun _ => 0
    instruction_pointer := 0 }

/-- The public operations of `c8asm.h` that act on the state (all but
`asm_init`, the three getters and `asm_error_string`). -/
inductive Op where
  | emit_label (label : String)
  | emit_data (data : Nat)
  | cls
  | ret
  | jp_addr (addr : Nat)
  | jp_label (label : String)
  | call_addr (addr : Nat)
  | call_label (label : String)
  | se_vx_byte (x byte : Nat)
  | sne_vx_byte (x byte : Nat)
  | se_vx_vy (x y : Nat)
  | ld_vx_byte (x byte : Nat)
  | add_vx_byte (x byte : Nat)
  | ld_vx_vy (x y : Nat)
  | or_vx_vy (x y : Nat)
  | and_vx_vy (x y : Nat)
  | xor_vx_vy (x y : Nat)
  | add_vx_vy (x y : Nat)
  | sub_vx_vy (x y : Nat)
  | shr_vx (x : Nat)
  | subn_vx_vy (x y : Nat)
  | shl_vx (x : Nat)
  | sne_vx_vy (x y : Nat)
  | ld_i_addr (addr : Nat)
  | ld_i_label (label : String)
  | jp_v0_addr (addr : Nat)
  | jp_v0_label (label : String)
  | rnd_vx_byte (x byte : Nat)
  | drw_vx_vy_nibble (x y nibble : Nat)
  | skp_vx (x : Nat)
  | sknp_vx (x : Nat)
  | ld_vx_dt (x : Nat)
  | ld_vx_k (x : Nat)
  | ld_dt_vx (x : Nat)
  | ld_st_vx (x : Nat)
  | add_i_vx (x : Nat)
  | ld_f_vx (x : Nat)
  | ld_b_vx (x : Nat)
  | ld_ii_vx (x : Nat)
  | ld_vx_ii (x : Nat)
  deriving DecidableEq, Repr

/-- One call of a public operation. -/
def exec (w fuel : Nat) (s : AsmState) : Op → Option (AsmError × AsmState)
  | Op.emit_label label => asm_emit_label w fuel s label
  | Op.emit_data data => some (asm_emit_data s data)
  | Op.cls => some (asm_emit_cls s)
  | Op.ret => some (asm_emit_ret s)
  | Op.jp_addr addr => some (asm_emit_jp_addr s addr)
  | Op.jp_label label => asm_emit_jp_label w s label
  | Op.call_addr addr => some (asm_emit_call_addr s addr)
  | Op.call_label label => asm_emit_call_label w s label
  | Op.se_vx_byte x byte => some (asm_emit_se_vx_byte s x byte)
  | Op.sne_vx_byte x byte => some (asm_emit_sne_vx_byte s x byte)
  | Op.se_vx_vy x y => some (asm_emit_se_vx_vy s x y)
  | Op.ld_vx_byte x byte => some (asm_emit_ld_vx_byte s x byte)
  | Op.add_vx_byte x byte => some (asm_emit_add_vx_byte s x byte)
  | Op.ld_vx_vy x y => some (asm_emit_ld_vx_vy s x y)
  | Op.or_vx_vy x y => some (asm_emit_or_vx_vy s x y)
  | Op.and_vx_vy x y => some (asm_emit_and_vx_vy s x y)
  | Op.xor_vx_vy x y => some (asm_emit_xor_vx_vy s x y)
  | Op.add_vx_vy x y => some (asm_emit_add_vx_vy s x y)
  | Op.sub_vx_vy x y => some (asm_emit_sub_vx_vy s x y)
  | Op.shr_vx x => some (asm_emit_shr_vx s x)
  | Op.subn_vx_vy x y => some (asm_emit_subn_vx_vy s x y)
  | Op.shl_vx x => some (asm_emit_shl_vx s x)
  | Op.sne_vx_vy x y => some (asm_emit_sne_vx_vy s x y)
  | Op.ld_i_addr addr => some (asm_emit_ld_i_addr s addr)
  | Op.ld_i_label label => asm_emit_ld_i_label w s label
  | Op.jp_v0_addr addr => some (asm_emit_jp_v0_addr s addr)
  | Op.jp_v0_label label => asm_emit_jp_v0_label w s label
  | Op.rnd_vx_byte x byte => some (asm_emit_rnd_vx_byte s x byte)
  | Op.drw_vx_vy_nibble x y nibble => some (asm_emit_drw_vx_vy_nibble s x y nibble)
  | Op.skp_vx x => some (asm_emit_skp_vx s x)
  | Op.sknp_vx x => some (asm_emit_sknp_vx s x)
  | Op.ld_vx_dt x => some (asm_emit_ld_vx_dt s x)
  | Op.ld_vx_k x => some (asm_emit_ld_vx_k s x)
  | Op.ld_dt_vx x => some (asm_emit_ld_dt_vx s x)
  | Op.ld_st_vx x => some (asm_emit_ld_st_vx s x)
  | Op.add_i_vx x => some (asm_emit_add_i_vx s x)
  | Op.ld_f_vx x => some (asm_emit_ld_f_vx s x)
  | Op.ld_b_vx x => some (asm_emit_ld_b_vx s x)
  | Op.ld_ii_vx x => some (asm_emit_ld_ii_vx s x)
  | Op.ld_vx_ii x => some (asm_emit_ld_vx_ii s x)

/-- The label an operation names, if it takes one. -/
def Op.label_arg : Op → Option String
  | Op.emit_label label => some label
  | Op.jp_label label => some label
  | Op.call_label label => some label
  | Op.ld_i_label label => some label
  | Op.jp_v0_label label => some label
  | _ => none

/-- The operations that emit one two-byte instruction: all but `asm_emit_label`
and `asm_emit_data`. -/
def Op.two_byte : Op → Bool
  | Op.emit_label _ => false
  | Op.emit_data _ => false
  | _ => true

/-- Whether the `do ... while (j)` loop of `asm_emit_label`, entered with
`j = i`, stays inside `machine_code`: every round accesses `machine_code[i]` and
`machine_code[i + 1]`.  `false` also when the fuel runs out. -/
def walk_within (address : Nat) : Nat → (Nat → Nat) → Nat → Bool
  | 0, _, _ => false
  | fuel + 1, machine_code, i =>
    let j := ((machine_code i &&& 0x0f) <<< 8) ||| machine_code (i + 1)
    let m1 := Function.update machine_code i
      ((machine_code i &&& 0xf0) ||| ((address >>> 8) &&& 0x0f))
    let m2 := Function.update m1 (i + 1) (address &&& 0xff)
    decide (i + 1 < BUFFER_SIZE) && (if j ≠ 0 then walk_within address fuel m2 j else true)

/-- Whether a public call keeps every access to `machine_code` inside the
array.  `emit` stores at the cursor and the offset after it only when
`cursor + 1 < BUFFER_SIZE`, so the two-byte emitters always do; `asm_emit_data`
stores at the cursor unless `BUFFER_SIZE < cursor`, so it does unless the
cursor is `BUFFER_SIZE`; `asm_emit_label` accesses the buffer only in the walk
it makes for an Undefined entry.  (The table is only ever accessed at a slot
`% TABLE_OF_LABELS_SIZE`, inside `labels`.) -/
def exec_within (w fuel : Nat) (s : AsmState) : Op → Bool
  | Op.emit_label label =>
    match probe_label w s label with
    | Probe.found _ la =>
      if la.undefined then
        walk_within (MIN_ADDRESS + s.instruction_pointer) fuel s.machine_code la.address
      else true
    | _ => true
  | Op.emit_data _ =>
    decide (BUFFER_SIZE < s.instruction_pointer ∨ s.instruction_pointer < BUFFER_SIZE)
  | _ => true

/-- A run of public calls, each of which returns and stays inside the arrays,
leads from `s` to `t`. -/
inductive Steps (w : Nat) : AsmState → AsmState → Prop where
  | refl (s : AsmState) : Steps w s s
  | tail {s t u : AsmState} (fuel : Nat) (op : Op) (e : AsmError) :
      Steps w s t → exec w fuel t op = some (e, u) → exec_within w fuel t op = true →
      Steps w s u

/-- The states a program can be in after `asm_init`: the buffer holds bytes left
from whatever ran before, and any run of public calls that stay inside the
arrays has followed. -/
def Reachable (w : Nat) (s : AsmState) : Prop :=
  ∃ s0 : AsmState, (∀ i, s0.machine_code i < 256) ∧ Steps w (asm_init s0) s

/-- The four label-taking emitters, each with its opcode class and its
literal-address twin. -/
def label_emitters (w : Nat) :
    List (Nat × (AsmState → String → Option (AsmError × AsmState)) ×
      (AsmState → Nat → AsmError × AsmState)) :=
  [(0x1, asm_emit_jp_label w, asm_emit_jp_addr),
   (0x2, asm_emit_call_label w, asm_emit_call_addr),
   (0xA, asm_emit_ld_i_label w, asm_emit_ld_i_addr),
   (0xB, asm_emit_jp_v0_label w, asm_emit_jp_v0_addr)]

/-- The state after `k` further calls of `asm_emit_cls`. -/
def repeat_cls : Nat → AsmState → AsmState
  | 0, s => s
  | k + 1, s => (asm_emit_cls (repeat_cls k s)).2

/-- The state after `k` further calls of `asm_emit_data 0`. -/
def repeat_data : Nat → AsmState → AsmState
  | 0, s => s
  | k + 1, s => (asm_emit_data (repeat_data k s) 0).2

/-- The big-endian 16-bit word stored at `offset`. -/
def word_at (s : AsmState) (offset : Nat) : Nat :=
  s.machine_code offset * 256 + s.machine_code (offset + 1)

/-- A sequence of public calls made one after the other, with the list of their
return codes.  `none` when one of them does not return. -/
def run (w fuel : Nat) : AsmState → List Op → Option (List AsmError × AsmState)
  | s, [] => some ([], s)
  | s, op :: ops =>
    match exec w fuel s op with
    | none => none
    | some (e, s1) =>
      match run w fuel s1 ops with
      | none => none
      | some (es, s2) => some (e :: es, s2)

/-- The first `k` bytes of the code buffer. -/
def bytes_upto (s : AsmState) (k : Nat) : List Nat :=
  (List.range k).map s.machine_code

/-- The table entry of `label` is Defined with address `a`. -/
def DefinedAt (w : Nat) (s : AsmState) (label : String) (a : Nat) : Prop :=
  ∃ slot la, probe_label w s label = Probe.found slot la ∧ la.undefined = false ∧ la.address = a

/-- What one public call can do to the label table and its two counters:
nothing, fill the empty slot at which the probe for a new name ended, or rewrite
the address and state of an Undefined entry. -/
inductive TableStep (w : Nat) (s t : AsmState) : Prop where
  | same : t.labels = s.labels → t.number_of_labels = s.number_of_labels →
      t.number_of_undefined_labels = s.number_of_undefined_labels → TableStep w s t
  | insert (i : Nat) (e : LabelAddress) :
      probe_label w s e.label = Probe.vacant i → e.hash = string_hash w e.label →
      t.labels = Function.update s.labels i (some e) →
      s.number_of_labels < MAX_LABELS → t.number_of_labels = s.number_of_labels + 1 →
      t.number_of_undefined_labels = s.number_of_undefined_labels + (if e.undefined then 1 else 0) →
      TableStep w s t
  | modify (slot : Nat) (la la2 : LabelAddress) :
      probe_label w s la.label = Probe.found slot la → la.undefined = true →
      la2.hash = la.hash → la2.label = la.label →
      t.labels = Function.update s.labels slot (some la2) →
      t.number_of_labels = s.number_of_labels →
      t.number_of_undefined_labels =
        s.number_of_undefined_labels - (if la2.undefined then 0 else 1) →
      TableStep w s t

/-- The state `add_label` leaves when it enters `label` at the empty slot `i`. -/
def entered (w : Nat) (s : AsmState) (i : Nat) (label : String) (address : Nat)
    (undefined : Bool) : AsmState :=
  { s with
    number_of_labels := s.number_of_labels + 1
    labels := Function.update s.labels i
      (some { hash := string_hash w label, label := label,
              address := address, undefined := undefined }) }

/-- The state after a sequence of public calls (the starting state if one of
them does not return). -/
def after (w fuel : Nat) (s : AsmState) (ops : List Op) : AsmState :=
  match run w fuel s ops with
  | some r => r.2
  | none => s

/-- What the capacity rule allows a two-byte emission from `s` to return (`e`)
and to leave (`t`): `ASM_TOO_MANY_INSTRUCTIONS` exactly when fewer than two
bytes are left, then with buffer and cursor untouched; otherwise `ASM_OK`, the
cursor two further, and no byte changed but those at the old cursor and the one
after it, both inside the buffer. -/
def TwoByteOutcome (s : AsmState) (e : AsmError) (t : AsmState) : Prop :=
  (e = ASM_TOO_MANY_INSTRUCTIONS ↔ s.instruction_pointer + 2 > ASM_BUFFER_SIZE) ∧
  (e = ASM_TOO_MANY_INSTRUCTIONS →
    t.machine_code = s.machine_code ∧ t.instruction_pointer = s.instruction_pointer) ∧
  (e ≠ ASM_TOO_MANY_INSTRUCTIONS →
    e = ASM_OK ∧ s.instruction_pointer < ASM_BUFFER_SIZE ∧
    s.instruction_pointer + 1 < ASM_BUFFER_SIZE ∧
    t.instruction_pointer = s.instruction_pointer + 2 ∧
    ∀ k, k ≠ s.instruction_pointer → k ≠ s.instruction_pointer + 1 →
      t.machine_code k = s.machine_code k)

/-- The occupied slots of the table. -/
def occupied (s : AsmState) : Finset Nat :=
  (Finset.range TABLE_OF_LABELS_SIZE).filter (fun i => (s.labels i).isSome)

/-- The name stored in slot `i` (the empty string for an empty slot). -/
def name_at (s : AsmState) (i : Nat) : String :=
  match s.labels i with
  | some la => la.label
  | none => ""

/-- The names that have an entry in the table. -/
def table_names (s : AsmState) : Finset String :=
  (occupied s).image (name_at s)

/-- The invariant of the label table: every entry is where the probe for its
name ends, the label count is the number of occupied slots, and it is at most
`MAX_LABELS`. -/
structure TableInv (w : Nat) (s : AsmState) : Prop where
  found : ∀ i la, s.labels i = some la → probe_label w s la.label = Probe.found i la
  count : s.number_of_labels = (occupied s).card
  bound : s.number_of_labels ≤ MAX_LABELS

/-- The static function of `c8asm.c` that a public operation passes its
arguments to, with the constants it adds. -/
inductive Layout where
  | plain (instruction : Nat)
  | hnnni (h nnn : Nat)
  | hnnnl (h : Nat) (label : String)
  | hxkk (h x kk : Nat)
  | hxyn (h x y n : Nat)
  | data (byte : Nat)
  | define (label : String)

/-- The body of each public operation. -/
def Op.layout : Op → Layout
  | Op.emit_label label => Layout.define label
  | Op.emit_data data => Layout.data data
  | Op.cls => Layout.plain 0x00e0
  | Op.ret => Layout.plain 0x00ee
  | Op.jp_addr addr => Layout.hnnni 0x1 addr
  | Op.jp_label label => Layout.hnnnl 0x1 label
  | Op.call_addr addr => Layout.hnnni 0x2 addr
  | Op.call_label label => Layout.hnnnl 0x2 label
  | Op.se_vx_byte x byte => Layout.hxkk 0x3 x byte
  | Op.sne_vx_byte x byte => Layout.hxkk 0x4 x byte
  | Op.se_vx_vy x y => Layout.hxyn 0x5 x y 0
  | Op.ld_vx_byte x byte => Layout.hxkk 0x6 x byte
  | Op.add_vx_byte x byte => Layout.hxkk 0x7 x byte
  | Op.ld_vx_vy x y => Layout.hxyn 0x8 x y 0
  | Op.or_vx_vy x y => Layout.hxyn 0x8 x y 1
  | Op.and_vx_vy x y => Layout.hxyn 0x8 x y 2
  | Op.xor_vx_vy x y => Layout.hxyn 0x8 x y 3
  | Op.add_vx_vy x y => Layout.hxyn 0x8 x y 4
  | Op.sub_vx_vy x y => Layout.hxyn 0x8 x y 5
  | Op.shr_vx x => Layout.hxkk 0x8 x 0x06
  | Op.subn_vx_vy x y => Layout.hxyn 0x8 x y 7
  | Op.shl_vx x => Layout.hxkk 0x8 x 0x0E
  | Op.sne_vx_vy x y => Layout.hxyn 0x9 x y 0
  | Op.ld_i_addr addr => Layout.hnnni 0xA addr
  | Op.ld_i_label label => Layout.hnnnl 0xA label
  | Op.jp_v0_addr addr => Layout.hnnni 0xB addr
  | Op.jp_v0_label label => Layout.hnnnl 0xB label
  | Op.rnd_vx_byte x byte => Layout.hxkk 0xC x byte
  | Op.drw_vx_vy_nibble x y nibble => Layout.hxyn 0xD x y nibble
  | Op.skp_vx x => Layout.hxkk 0xE x 0x9E
  | Op.sknp_vx x => Layout.hxkk 0xE x 0xA1
  | Op.ld_vx_dt x => Layout.hxkk 0xF x 0x07
  | Op.ld_vx_k x => Layout.hxkk 0xF x 0x0A
  | Op.ld_dt_vx x => Layout.hxkk 0xF x 0x15
  | Op.ld_st_vx x => Layout.hxkk 0xF x 0x18
  | Op.add_i_vx x => Layout.hxkk 0xF x 0x1E
  | Op.ld_f_vx x => Layout.hxkk 0xF x 0x29
  | Op.ld_b_vx x => Layout.hxkk 0xF x 0x33
  | Op.ld_ii_vx x => Layout.hxkk 0xF x 0x55
  | Op.ld_vx_ii x => Layout.hxkk 0xF x 0x65

/-- The call a layout stands for. -/
def Layout.exec (w fuel : Nat) (s : AsmState) : Layout → Option (AsmError × AsmState)
  | Layout.plain instruction => some (emit s instruction)
  | Layout.hnnni h nnn => some (emit_hnnni s h nnn)
  | Layout.hnnnl h label => emit_hnnnl w s h label
  | Layout.hxkk h x kk => some (emit_hxkk s h x kk)
  | Layout.hxyn h x y n => some (emit_hxyn s h x y n)
  | Layout.data byte => some (asm_emit_data s byte)
  | Layout.define label => asm_emit_label w fuel s label

/-- The label a layout names. -/
def Layout.label_arg : Layout → Option String
  | Layout.hnnnl _ label => some label
  | Layout.define label => some label
  | _ => none

/-- The layouts that append one two-byte instruction. -/
def Layout.two_byte : Layout → Bool
  | Layout.data _ => false
  | Layout.define _ => false
  | _ => true

/-- Whether slot `i` holds an entry in the Undefined state. -/
def slot_undefined (s : AsmState) (i : Nat) : Bool :=
  match s.labels i with
  | some la => la.undefined
  | none => false

/-- The slots of the table that hold an Undefined entry. -/
def pending (s : AsmState) : Finset Nat :=
  (Finset.range TABLE_OF_LABELS_SIZE).filter (fun i => slot_undefined s i = true)

/-- What an emitter does to the cursor and to the bytes already emitted: `n`
further when it returns `ASM_OK`, no move otherwise, and in either case no
change of a byte below the old cursor. -/
def Advance (n : Nat) (s : AsmState) (e : AsmError) (t : AsmState) : Prop :=
  (e = ASM_OK → t.instruction_pointer = s.instruction_pointer + n) ∧
  (e ≠ ASM_OK → t.instruction_pointer = s.instruction_pointer) ∧
  ∀ k, k < s.instruction_pointer → t.machine_code k = s.machine_code k

/-- The table entry of `label` is Undefined. -/
def PendingAt (w : Nat) (s : AsmState) (label : String) : Prop :=
  ∃ slot la, probe_label w s label = Probe.found slot la ∧ la.undefined = true

/-- A run of calls between the first reference to `name` and its definition:
each call stays inside the arrays and is a label-taking emitter naming `name`,
or names no label, or names a label that is Defined. -/
inductive Quiet (w : Nat) (name : String) : AsmState → AsmState → Prop where
  | refl (s : AsmState) : Quiet w name s s
  | tail {s t u : AsmState} (fuel : Nat) (op : Op) (e : AsmError) :
      Quiet w name s t → exec w fuel t op = some (e, u) →
      ((op.two_byte = true ∧ op.label_arg = some name) ∨ op.label_arg = none ∨
        (∃ other a, op.label_arg = some other ∧ DefinedAt w t other a)) →
      exec_within w fuel t op = true →
      Quiet w name s u

/-- The 12-bit address field of the instruction at offset `i`, as the walk of
`asm_emit_label` reads it. -/
def link_at (mc : Nat → Nat) (i : Nat) : Nat :=
  ((mc i &&& 0x0f) <<< 8) ||| mc (i + 1)

/-- The offsets the walk of `asm_emit_label` visits when it starts at `head`:
`head` itself and, from every visited offset whose link is not 0, the link. -/
inductive OnChain (mc : Nat → Nat) (head : Nat) : Nat → Prop where
  | first : OnChain mc head head
  | next {i : Nat} : OnChain mc head i → link_at mc i ≠ 0 → OnChain mc head (link_at mc i)

/-- Every instruction on the chain from `head` lies below the cursor `c`, and
its link is 0 or the offset of an instruction that ends before it starts. -/
def ValidFrom (mc : Nat → Nat) (c head : Nat) : Prop :=
  ∀ i, OnChain mc head i → i + 1 < c ∧ (link_at mc i = 0 ∨ link_at mc i + 1 < i)

/-- The instructions of the chains from `h1` and from `h2` do not overlap. -/
def Apart (mc : Nat → Nat) (h1 h2 : Nat) : Prop :=
  ∀ i j, OnChain mc h1 i → OnChain mc h2 j → i + 1 < j ∨ j + 1 < i

/-- The buffers `mc2` and `mc` hold the same bytes in every instruction of the
chain from `head`. -/
def AgreeOn (mc2 mc : Nat → Nat) (head : Nat) : Prop :=
  ∀ i, OnChain mc head i → mc2 i = mc i ∧ mc2 (i + 1) = mc (i + 1)

/-- The buffer after the body of the walk's loop has run once at offset `i`. -/
def patch (address : Nat) (mc : Nat → Nat) (i : Nat) : Nat → Nat :=
  Function.update
    (Function.update mc i ((mc i &&& 0xf0) ||| ((address >>> 8) &&& 0x0f)))
    (i + 1) (address &&& 0xff)

/-- Slot `slot` holds an Undefined entry whose chain head is `h`. -/
def Head (s : AsmState) (slot h : Nat) : Prop :=
  ∃ la, s.labels slot = some la ∧ la.undefined = true ∧ la.address = h

/-- The invariant of the chains: the chain of every Undefined entry is valid
below the cursor, and the chains of two entries do not overlap. -/
structure ChainInv (s : AsmState) : Prop where
  valid : ∀ slot h, Head s slot h → ValidFrom s.machine_code s.instruction_pointer h
  apart : ∀ slot1 h1 slot2 h2, slot1 ≠ slot2 → Head s slot1 h1 → Head s slot2 h2 →
    Apart s.machine_code h1 h2

/-- A run of public calls that stay inside the arrays and in which every
label-taking emitter returned `ASM_OK`. -/
inductive CleanSteps (w : Nat) : AsmState → AsmState → Prop where
  | refl (s : AsmState) : CleanSteps w s s
  | tail {s t u : AsmState} (fuel : Nat) (op : Op) (e : AsmError) :
      CleanSteps w s t → exec w fuel t op = some (e, u) →
      (op.two_byte = true → op.label_arg ≠ none → e = ASM_OK) →
      exec_within w fuel t op = true → CleanSteps w s u

/-- The states reached after `asm_init` by such a run. -/
def CleanReachable (w : Nat) (s : AsmState) : Prop :=
  ∃ s0 : AsmState, (∀ i, s0.machine_code i < 256) ∧ CleanSteps w (asm_init s0) s

/-- The state after `asm_init` on a fresh process, `asm_emit_label name` and `k`
calls of `asm_emit_data 0`. -/
def defined_then_data (w : Nat) (name : String) (k : Nat) : AsmState :=
  repeat_data k (after w 0 (asm_init zero_state) [Op.emit_label name])

/-- The state after `asm_init` on a fresh process, `asm_emit_jp_label name` and
`k` calls of `asm_emit_data 0`. -/
def referred_then_data (w : Nat) (name : String) (k : Nat) : AsmState :=
  repeat_data k (after w 0 (asm_init zero_state) [Op.jp_label name])

/-- The state after `asm_init` on a fresh process, `asm_emit_jp_label name` and
`k` calls of `asm_emit_cls`. -/
def referred_then_cls (w : Nat) (name : String) (k : Nat) : AsmState :=
  repeat_cls k (after w 0 (asm_init zero_state) [Op.jp_label name])

/-! ## Constants -/

theorem BUFFER_SIZE_eq : BUFFER_SIZE = 3584 := rfl
theorem MIN_ADDRESS_eq : MIN_ADDRESS = 512 := rfl
theorem MAX_LABELS_eq : MAX_LABELS = 4096 := rfl
theorem TABLE_OF_LABELS_SIZE_eq : TABLE_OF_LABELS_SIZE = 5121 := rfl

/-! ## Operations and layouts -/

theorem exec_layout (w fuel : Nat) (s : AsmState) (op : Op) :
    exec w fuel s op = op.layout.exec w fuel s := by
  cases op <;> rfl

theorem layout_label_arg (op : Op) : op.layout.label_arg = op.label_arg := by
  cases op <;> rfl

theorem layout_two_byte (op : Op) : op.layout.two_byte = op.two_byte := by
  cases op <;> rfl

/-! ## The two-byte append -/

theorem emit_full (s : AsmState) (instruction : Nat)
    (h : BUFFER_SIZE ≤ s.instruction_pointer + 1) :
    emit s instruction = (ASM_TOO_MANY_INSTRUCTIONS, s) := by
  simp [emit, h]

theorem emit_room (s : AsmState) (instruction : Nat)
    (h : s.instruction_pointer + 1 < BUFFER_SIZE) :
    emit s instruction =
      (ASM_OK,
        { s with
          machine_code :=
            Function.update
              (Function.update s.machine_code s.instruction_pointer
                ((instruction >>> 8) &&& 0xff))
              (s.instruction_pointer + 1) (instruction &&& 0xff)
          instruction_pointer := s.instruction_pointer + 2 }) := by
  have h2 : ¬ BUFFER_SIZE ≤ s.instruction_pointer + 1 := by omega
  simp [emit, h2]

theorem emit_labels (s : AsmState) (instruction : Nat) :
    (emit s instruction).2.labels = s.labels ∧
    (emit s instruction).2.number_of_labels = s.number_of_labels ∧
    (emit s instruction).2.number_of_undefined_labels = s.number_of_undefined_labels := by
  unfold emit; split <;> simp

theorem emit_hnnni_labels (s : AsmState) (h nnn : Nat) :
    (emit_hnnni s h nnn).2.labels = s.labels ∧
    (emit_hnnni s h nnn).2.number_of_labels = s.number_of_labels ∧
    (emit_hnnni s h nnn).2.number_of_undefined_labels = s.number_of_undefined_labels := by
  unfold emit_hnnni; split_ifs <;> first | exact emit_labels _ _ | simp

theorem emit_hxkk_labels (s : AsmState) (h x kk : Nat) :
    (emit_hxkk s h x kk).2.labels = s.labels ∧
    (emit_hxkk s h x kk).2.number_of_labels = s.number_of_labels ∧
    (emit_hxkk s h x kk).2.number_of_undefined_labels = s.number_of_undefined_labels := by
  unfold emit_hxkk; split_ifs <;> first | exact emit_labels _ _ | simp

theorem emit_hxyn_labels (s : AsmState) (h x y n : Nat) :
    (emit_hxyn s h x y n).2.labels = s.labels ∧
    (emit_hxyn s h x y n).2.number_of_labels = s.number_of_labels ∧
    (emit_hxyn s h x y n).2.number_of_undefined_labels = s.number_of_undefined_labels := by
  unfold emit_hxyn; split_ifs <;> first | exact emit_labels _ _ | simp

theorem asm_emit_data_labels (s : AsmState) (data : Nat) :
    (asm_emit_data s data).2.labels = s.labels ∧
    (asm_emit_data s data).2.number_of_labels = s.number_of_labels ∧
    (asm_emit_data s data).2.number_of_undefined_labels = s.number_of_undefined_labels := by
  unfold asm_emit_data; split <;> simp

/-! ## The probe loop -/

theorem probe_found {labels : Nat → Option LabelAddress} {label : String} {hash : Nat} :
    ∀ (fuel i k : Nat) (la : LabelAddress), probe labels label hash fuel i = Probe.found k la →
      labels k = some la ∧ hash = la.hash ∧ label = la.label := by
  intro fuel
  induction fuel with
  | zero => intro i k la h; simp [probe] at h
  | succ fuel ih =>
    intro i k la h
    unfold probe at h
    split at h
    · simp at h
    · rename_i e he
      split_ifs at h with hm
      · simp only [Probe.found.injEq] at h
        obtain ⟨rfl, rfl⟩ := h
        exact ⟨he, hm.1, hm.2⟩
      · exact ih _ _ _ h

theorem probe_vacant {labels : Nat → Option LabelAddress} {label : String} {hash : Nat} :
    ∀ (fuel i k : Nat), probe labels label hash fuel i = Probe.vacant k → labels k = none := by
  intro fuel
  induction fuel with
  | zero => intro i k h; simp [probe] at h
  | succ fuel ih =>
    intro i k h
    unfold probe at h
    split at h
    · rename_i he
      simp only [Probe.vacant.injEq] at h
      subst h; exact he
    · split_ifs at h
      exact ih _ _ h

theorem probe_found_lt {labels : Nat → Option LabelAddress} {label : String} {hash : Nat} :
    ∀ (fuel i k : Nat) (la : LabelAddress), i < TABLE_OF_LABELS_SIZE →
      probe labels label hash fuel i = Probe.found k la → k < TABLE_OF_LABELS_SIZE := by
  intro fuel
  induction fuel with
  | zero => intro i k la _ h; simp [probe] at h
  | succ fuel ih =>
    intro i k la hi h
    unfold probe at h
    split at h
    · simp at h
    · split_ifs at h with hm
      · simp only [Probe.found.injEq] at h
        omega
      · exact ih _ _ _ (Nat.mod_lt _ (by decide)) h

theorem probe_vacant_lt {labels : Nat → Option LabelAddress} {label : String} {hash : Nat} :
    ∀ (fuel i k : Nat), i < TABLE_OF_LABELS_SIZE →
      probe labels label hash fuel i = Probe.vacant k → k < TABLE_OF_LABELS_SIZE := by
  intro fuel
  induction fuel with
  | zero => intro i k _ h; simp [probe] at h
  | succ fuel ih =>
    intro i k hi h
    unfold probe at h
    split at h
    · simp only [Probe.vacant.injEq] at h
      omega
    · split_ifs at h
      exact ih _ _ (Nat.mod_lt _ (by decide)) h

/-- Filling an empty slot does not disturb a probe that ended at an entry. -/
theorem probe_insert_found {labels : Nat → Option LabelAddress} {label : String} {hash : Nat}
    {k : Nat} (e : LabelAddress) (hk : labels k = none) :
    ∀ (fuel i m : Nat) (la : LabelAddress), probe labels label hash fuel i = Probe.found m la →
      probe (Function.update labels k (some e)) label hash fuel i = Probe.found m la := by
  intro fuel
  induction fuel with
  | zero => intro i m la h; simp [probe] at h
  | succ fuel ih =>
    intro i m la h
    have hik : i ≠ k := by
      rintro rfl
      simp [probe, hk] at h
    cases hli : labels i with
    | none => simp [probe, hli] at h
    | some e2 =>
      simp only [probe, hli, Function.update_noteq hik] at h ⊢
      split_ifs at h ⊢ with hm
      · exact h
      · exact ih _ _ _ h

/-- Filling the empty slot at which the probe for a name ended makes the probe
for that name end there, at the new entry. -/
theorem probe_insert_vacant {labels : Nat → Option LabelAddress} {label : String} {hash : Nat}
    {k : Nat} (e : LabelAddress) (he : hash = e.hash ∧ label = e.label) :
    ∀ (fuel i : Nat), probe labels label hash fuel i = Probe.vacant k →
      probe (Function.update labels k (some e)) label hash fuel i = Probe.found k e := by
  intro fuel
  induction fuel with
  | zero => intro i h; simp [probe] at h
  | succ fuel ih =>
    intro i h
    cases hli : labels i with
    | none =>
      simp only [probe, hli, Probe.vacant.injEq] at h
      subst h
      simp [probe, he.1.symm, he.2.symm]
    | some e2 =>
      have hik : i ≠ k := by
        rintro rfl
        have := probe_vacant _ _ _ h
        rw [this] at hli; simp at hli
      simp only [probe, hli, Function.update_noteq hik] at h ⊢
      split_ifs at h ⊢ with hm
      exact ih _ h

/-- Rewriting the address or the state of an entry, its name and hash kept,
does not change where any probe ends. -/
theorem probe_modify {labels : Nat → Option LabelAddress} {label : String} {hash : Nat}
    {slot : Nat} {la : LabelAddress} (la2 : LabelAddress) (hslot : labels slot = some la)
    (hh : la2.hash = la.hash) (hl : la2.label = la.label) :
    ∀ (fuel i : Nat), probe (Function.update labels slot (some la2)) label hash fuel i =
      match probe labels label hash fuel i with
      | Probe.found m e => if m = slot then Probe.found m la2 else Probe.found m e
      | r => r := by
  intro fuel
  induction fuel with
  | zero => intro i; simp [probe]
  | succ fuel ih =>
    intro i
    unfold probe
    by_cases his : i = slot
    · subst his
      simp only [Function.update_same, hslot, hh, hl]
      split_ifs with hm
      · simp
      · exact ih _
    · rw [Function.update_noteq his]
      cases hli : labels i with
      | none => simp
      | some e2 =>
        simp only
        split_ifs with hm
        · simp [his]
        · exact ih _

/-! ## The label operations, case by case -/

theorem add_label_full {w : Nat} {s : AsmState} (new : LabelAddress)
    (hfull : MAX_LABELS ≤ s.number_of_labels) :
    add_label w s new = some (ASM_TOO_MANY_LABELS, s) := by
  simp [add_label, hfull]

theorem add_label_vacant {w : Nat} {s : AsmState} {i : Nat} (new : LabelAddress)
    (hp : probe_label w s new.label = Probe.vacant i) (hroom : s.number_of_labels < MAX_LABELS) :
    add_label w s new =
      some (ASM_OK,
        { s with
          number_of_labels := s.number_of_labels + 1
          labels := Function.update s.labels i
            (some { new with hash := string_hash w new.label }) }) := by
  have : ¬ s.number_of_labels ≥ MAX_LABELS := by omega
  simp [add_label, this, hp]

theorem emit_hnnnl_spin {w : Nat} {s : AsmState} {label : String} (h : Nat)
    (hp : probe_label w s label = Probe.spin) : emit_hnnnl w s h label = none := by
  simp [emit_hnnnl, lookup_label, hp]

theorem emit_hnnnl_full {w : Nat} {s : AsmState} {label : String} {i : Nat} (h : Nat)
    (hp : probe_label w s label = Probe.vacant i) (hfull : MAX_LABELS ≤ s.number_of_labels) :
    emit_hnnnl w s h label = some (ASM_TOO_MANY_LABELS, s) := by
  simp [emit_hnnnl, lookup_label, hp, add_label_full _ hfull]

theorem emit_hnnnl_fresh {w : Nat} {s : AsmState} {label : String} {i : Nat} (h : Nat)
    (hp : probe_label w s label = Probe.vacant i) (hroom : s.number_of_labels < MAX_LABELS) :
    emit_hnnnl w s h label =
      some ((emit_hnnni (entered w s i label s.instruction_pointer true) h 0).1,
        { (emit_hnnni (entered w s i label s.instruction_pointer true) h 0).2 with
          number_of_undefined_labels :=
            (emit_hnnni (entered w s i label s.instruction_pointer true) h 0).2.number_of_undefined_labels
              + 1 }) := by
  have hp2 : probe_label w s
      (LabelAddress.mk 0 label s.instruction_pointer true).label = Probe.vacant i := hp
  simp [emit_hnnnl, lookup_label, hp, add_label_vacant _ hp2 hroom, entered]

theorem emit_hnnnl_pending {w : Nat} {s : AsmState} {label : String} {slot : Nat}
    {la : LabelAddress} (h : Nat)
    (hp : probe_label w s label = Probe.found slot la) (hu : la.undefined = true) :
    emit_hnnnl w s h label =
      some (emit_hnnni
        { s with
          labels := Function.update s.labels slot
            (some { la with address := s.instruction_pointer }) } h la.address) := by
  simp [emit_hnnnl, lookup_label, hp, hu]

theorem emit_hnnnl_defined {w : Nat} {s : AsmState} {label : String} {slot : Nat}
    {la : LabelAddress} (h : Nat)
    (hp : probe_label w s label = Probe.found slot la) (hu : la.undefined = false) :
    emit_hnnnl w s h label = some (emit_hnnni s h la.address) := by
  simp [emit_hnnnl, lookup_label, hp, hu]

theorem asm_emit_label_spin {w fuel : Nat} {s : AsmState} {label : String}
    (hp : probe_label w s label = Probe.spin) : asm_emit_label w fuel s label = none := by
  simp [asm_emit_label, lookup_label, hp]

theorem asm_emit_label_full {w fuel : Nat} {s : AsmState} {label : String} {i : Nat}
    (hp : probe_label w s label = Probe.vacant i) (hfull : MAX_LABELS ≤ s.number_of_labels) :
    asm_emit_label w fuel s label = some (ASM_TOO_MANY_LABELS, s) := by
  simp [asm_emit_label, lookup_label, hp, add_label_full _ hfull]

theorem asm_emit_label_fresh {w fuel : Nat} {s : AsmState} {label : String} {i : Nat}
    (hp : probe_label w s label = Probe.vacant i) (hroom : s.number_of_labels < MAX_LABELS) :
    asm_emit_label w fuel s label =
      some (ASM_OK, entered w s i label (MIN_ADDRESS + s.instruction_pointer) false) := by
  have hp2 : probe_label w s
      (LabelAddress.mk 0 label (MIN_ADDRESS + s.instruction_pointer) false).label =
        Probe.vacant i := hp
  simp [asm_emit_label, lookup_label, hp, add_label_vacant _ hp2 hroom, entered]

theorem asm_emit_label_defined {w fuel : Nat} {s : AsmState} {label : String} {slot : Nat}
    {la : LabelAddress}
    (hp : probe_label w s label = Probe.found slot la) (hu : la.undefined = false) :
    asm_emit_label w fuel s label = some (ASM_SECOND_DEFINITION, s) := by
  simp [asm_emit_label, lookup_label, hp, hu]

theorem asm_emit_label_pending {w fuel : Nat} {s : AsmState} {label : String} {slot : Nat}
    {la : LabelAddress}
    (hp : probe_label w s label = Probe.found slot la) (hu : la.undefined = true) :
    asm_emit_label w fuel s label =
      (backpatch (MIN_ADDRESS + s.instruction_pointer) fuel s.machine_code la.address).map
        (fun machine_code =>
          (ASM_OK,
            { s with
              machine_code := machine_code
              labels := Function.update s.labels slot
                (some { la with undefined := false,
                                address := MIN_ADDRESS + s.instruction_pointer })
              number_of_undefined_labels := s.number_of_undefined_labels - 1 })) := by
  simp only [asm_emit_label, lookup_label, hp, hu]
  cases backpatch (MIN_ADDRESS + s.instruction_pointer) fuel s.machine_code la.address <;> simp

theorem probe_label_label {w : Nat} {s : AsmState} {label : String} {slot : Nat}
    {la : LabelAddress} (hp : probe_label w s label = Probe.found slot la) :
    s.labels slot = some la ∧ la.hash = string_hash w label ∧ la.label = label := by
  have := probe_found _ _ _ _ hp
  exact ⟨this.1, this.2.1.symm, this.2.2.symm⟩

theorem emit_hnnnl_table {w : Nat} {s t : AsmState} {h : Nat} {label : String} {e : AsmError}
    (hr : emit_hnnnl w s h label = some (e, t)) : TableStep w s t := by
  cases hp : probe_label w s label with
  | spin => rw [emit_hnnnl_spin h hp] at hr; simp at hr
  | vacant i =>
    by_cases hfull : MAX_LABELS ≤ s.number_of_labels
    · rw [emit_hnnnl_full h hp hfull] at hr
      simp only [Option.some.injEq, Prod.mk.injEq] at hr
      rw [← hr.2]
      exact TableStep.same rfl rfl rfl
    · have hroom : s.number_of_labels < MAX_LABELS := by omega
      rw [emit_hnnnl_fresh h hp hroom] at hr
      simp only [Option.some.injEq, Prod.mk.injEq] at hr
      obtain ⟨l1, l2, l3⟩ := emit_hnnni_labels (entered w s i label s.instruction_pointer true) h 0
      rw [← hr.2]
      refine TableStep.insert i
        { hash := string_hash w label, label := label,
          address := s.instruction_pointer, undefined := true } hp rfl ?_ hroom ?_ ?_
      · simp only [l1]; rfl
      · simp only [l2]; rfl
      · simp only [l3]; rfl
  | found slot la =>
    obtain ⟨hs, hh, hl⟩ := probe_label_label hp
    cases hu : la.undefined with
    | false =>
      rw [emit_hnnnl_defined h hp hu] at hr
      simp only [Option.some.injEq] at hr
      obtain ⟨l1, l2, l3⟩ := emit_hnnni_labels s h la.address
      rw [hr] at l1 l2 l3
      exact TableStep.same l1 l2 l3
    | true =>
      rw [emit_hnnnl_pending h hp hu] at hr
      simp only [Option.some.injEq] at hr
      obtain ⟨l1, l2, l3⟩ := emit_hnnni_labels
        { s with labels := Function.update s.labels slot
                  (some { la with address := s.instruction_pointer }) } h la.address
      rw [hr] at l1 l2 l3
      refine TableStep.modify slot la { la with address := s.instruction_pointer }
        (by rw [hl]; exact hp) hu rfl rfl l1 l2 ?_
      simp only [hu, if_true, Nat.sub_zero]
      exact l3

theorem asm_emit_label_table {w fuel : Nat} {s t : AsmState} {label : String} {e : AsmError}
    (hr : asm_emit_label w fuel s label = some (e, t)) : TableStep w s t := by
  cases hp : probe_label w s label with
  | spin => rw [asm_emit_label_spin hp] at hr; simp at hr
  | vacant i =>
    by_cases hfull : MAX_LABELS ≤ s.number_of_labels
    · rw [asm_emit_label_full hp hfull] at hr
      simp only [Option.some.injEq, Prod.mk.injEq] at hr
      rw [← hr.2]
      exact TableStep.same rfl rfl rfl
    · have hroom : s.number_of_labels < MAX_LABELS := by omega
      rw [asm_emit_label_fresh hp hroom] at hr
      simp only [Option.some.injEq, Prod.mk.injEq] at hr
      rw [← hr.2]
      exact TableStep.insert i
        { hash := string_hash w label, label := label,
          address := MIN_ADDRESS + s.instruction_pointer, undefined := false }
        hp rfl rfl hroom rfl rfl
  | found slot la =>
    obtain ⟨hs, hh, hl⟩ := probe_label_label hp
    cases hu : la.undefined with
    | false =>
      rw [asm_emit_label_defined hp hu] at hr
      simp only [Option.some.injEq, Prod.mk.injEq] at hr
      rw [← hr.2]
      exact TableStep.same rfl rfl rfl
    | true =>
      rw [asm_emit_label_pending hp hu] at hr
      cases hb : backpatch (MIN_ADDRESS + s.instruction_pointer) fuel s.machine_code la.address with
      | none => simp [hb] at hr
      | some mc =>
        simp only [hb, Option.map_some', Option.some.injEq, Prod.mk.injEq] at hr
        rw [← hr.2]
        exact TableStep.modify slot la
          { la with undefined := false, address := MIN_ADDRESS + s.instruction_pointer }
          (by rw [hl]; exact hp) hu rfl rfl rfl rfl (by simp)

theorem exec_table {w fuel : Nat} {s t : AsmState} {op : Op} {e : AsmError}
    (hr : exec w fuel s op = some (e, t)) : TableStep w s t := by
  rw [exec_layout] at hr
  cases hlay : op.layout with
  | define label => rw [hlay] at hr; exact asm_emit_label_table hr
  | hnnnl h label => rw [hlay] at hr; exact emit_hnnnl_table hr
  | plain instruction =>
    rw [hlay] at hr
    simp only [Layout.exec, Option.some.injEq] at hr
    obtain ⟨l1, l2, l3⟩ := emit_labels s instruction
    rw [hr] at l1 l2 l3
    exact TableStep.same l1 l2 l3
  | hnnni h nnn =>
    rw [hlay] at hr
    simp only [Layout.exec, Option.some.injEq] at hr
    obtain ⟨l1, l2, l3⟩ := emit_hnnni_labels s h nnn
    rw [hr] at l1 l2 l3
    exact TableStep.same l1 l2 l3
  | hxkk h x kk =>
    rw [hlay] at hr
    simp only [Layout.exec, Option.some.injEq] at hr
    obtain ⟨l1, l2, l3⟩ := emit_hxkk_labels s h x kk
    rw [hr] at l1 l2 l3
    exact TableStep.same l1 l2 l3
  | hxyn h x y n =>
    rw [hlay] at hr
    simp only [Layout.exec, Option.some.injEq] at hr
    obtain ⟨l1, l2, l3⟩ := emit_hxyn_labels s h x y n
    rw [hr] at l1 l2 l3
    exact TableStep.same l1 l2 l3
  | data byte =>
    rw [hlay] at hr
    simp only [Layout.exec, Option.some.injEq] at hr
    obtain ⟨l1, l2, l3⟩ := asm_emit_data_labels s byte
    rw [hr] at l1 l2 l3
    exact TableStep.same l1 l2 l3

/-! ## A Defined entry stays as it is -/

theorem probe_label_congr {w : Nat} {s t : AsmState} (h : t.labels = s.labels) (label : String) :
    probe_label w t label = probe_label w s label := by
  simp only [probe_label, h]

theorem defined_at_table_step {w : Nat} {s t : AsmState} {label : String} {a : Nat}
    (hd : DefinedAt w s label a) (ht : TableStep w s t) : DefinedAt w t label a := by
  obtain ⟨slot, la, hp, hu, ha⟩ := hd
  cases ht with
  | same hl _ _ => exact ⟨slot, la, by rw [probe_label_congr hl]; exact hp, hu, ha⟩
  | insert i e hpe _ hl _ _ _ =>
    refine ⟨slot, la, ?_, hu, ha⟩
    have hi : s.labels i = none := probe_vacant _ _ _ hpe
    simp only [probe_label, hl]
    exact probe_insert_found e hi _ _ _ _ hp
  | modify slot2 la1 la2 hp1 hu1 hh hl2 hlab _ _ =>
    refine ⟨slot, la, ?_, hu, ha⟩
    have hs1 := (probe_label_label hp1).1
    have hs := (probe_label_label hp).1
    have hne : slot ≠ slot2 := by
      rintro rfl
      rw [hs] at hs1
      simp only [Option.some.injEq] at hs1
      rw [hs1, hu1] at hu
      simp at hu
    simp only [probe_label, hlab]
    rw [probe_modify la2 hs1 hh hl2]
    simp only [probe_label] at hp
    simp [hp, hne]

theorem defined_at_steps {w : Nat} {s t : AsmState} {label : String} {a : Nat}
    (hd : DefinedAt w s label a) (hs : Steps w s t) : DefinedAt w t label a := by
  induction hs with
  | refl => exact hd
  | tail fuel op e _ hx _ ih => exact defined_at_table_step ih (exec_table hx)

theorem asm_emit_label_ok_defined {w fuel : Nat} {s t : AsmState} {label : String}
    (hr : asm_emit_label w fuel s label = some (ASM_OK, t)) :
    DefinedAt w t label (MIN_ADDRESS + s.instruction_pointer) := by
  cases hp : probe_label w s label with
  | spin => rw [asm_emit_label_spin hp] at hr; simp at hr
  | vacant i =>
    by_cases hfull : MAX_LABELS ≤ s.number_of_labels
    · rw [asm_emit_label_full hp hfull] at hr
      simp at hr
    · have hroom : s.number_of_labels < MAX_LABELS := by omega
      rw [asm_emit_label_fresh hp hroom] at hr
      simp only [Option.some.injEq, Prod.mk.injEq, true_and] at hr
      refine ⟨i, { hash := string_hash w label, label := label,
                   address := MIN_ADDRESS + s.instruction_pointer, undefined := false },
        ?_, rfl, rfl⟩
      rw [← hr]
      simp only [probe_label, entered]
      exact probe_insert_vacant _ ⟨rfl, rfl⟩ _ _ hp
  | found slot la =>
    obtain ⟨hs, hh, hl⟩ := probe_label_label hp
    cases hu : la.undefined with
    | false =>
      rw [asm_emit_label_defined hp hu] at hr
      simp at hr
    | true =>
      rw [asm_emit_label_pending hp hu] at hr
      cases hb : backpatch (MIN_ADDRESS + s.instruction_pointer) fuel s.machine_code la.address with
      | none => simp [hb] at hr
      | some mc =>
        simp only [hb, Option.map_some', Option.some.injEq, Prod.mk.injEq, true_and] at hr
        refine ⟨slot, { la with undefined := false,
                                address := MIN_ADDRESS + s.instruction_pointer }, ?_, rfl, rfl⟩
        rw [← hr]
        simp only [probe_label]
        rw [probe_modify { la with undefined := false,
                                   address := MIN_ADDRESS + s.instruction_pointer } hs rfl rfl]
        simp only [probe_label] at hp
        simp [hp]

/-- A Defined label acts as its address, as long as the calls stay inside the
arrays: once `asm_emit_label` has returned `ASM_OK` for a name, at cursor `c`,
in a call that stays inside the buffer, then after any further public calls that
stay inside the arrays each label-taking emitter called with that name does
exactly what its literal-address twin does with the address `MIN_ADDRESS + c`
(same return code, same bytes, same cursor), and the label table and both label
counters are left as they were. -/
theorem defined_label_acts_as_literal (w fuel : Nat) (s s1 s2 : AsmState) (label : String)
    (hdef : exec_within w fuel s (Op.emit_label label) = true ∧
      asm_emit_label w fuel s label = some (ASM_OK, s1)) (hrun : Steps w s1 s2) :
    ∀ p ∈ label_emitters w,
      p.2.1 s2 label = some (p.2.2 s2 (MIN_ADDRESS + s.instruction_pointer)) ∧
      (p.2.2 s2 (MIN_ADDRESS + s.instruction_pointer)).2.labels = s2.labels ∧
      (p.2.2 s2 (MIN_ADDRESS + s.instruction_pointer)).2.number_of_labels =
        s2.number_of_labels ∧
      (p.2.2 s2 (MIN_ADDRESS + s.instruction_pointer)).2.number_of_undefined_labels =
        s2.number_of_undefined_labels := by
  obtain ⟨slot, la, hp, hu, ha⟩ := defined_at_steps (asm_emit_label_ok_defined hdef.2) hrun
  intro p hmem
  simp only [label_emitters, List.mem_cons, List.mem_singleton, List.not_mem_nil, or_false] at hmem
  rcases hmem with rfl | rfl | rfl | rfl
  · exact ⟨by simp only [asm_emit_jp_label, asm_emit_jp_addr, emit_hnnnl_defined _ hp hu, ha],
      emit_hnnni_labels _ _ _⟩
  · exact ⟨by simp only [asm_emit_call_label, asm_emit_call_addr, emit_hnnnl_defined _ hp hu, ha],
      emit_hnnni_labels _ _ _⟩
  · exact ⟨by simp only [asm_emit_ld_i_label, asm_emit_ld_i_addr, emit_hnnnl_defined _ hp hu, ha],
      emit_hnnni_labels _ _ _⟩
  · exact ⟨by simp only [asm_emit_jp_v0_label, asm_emit_jp_v0_addr, emit_hnnnl_defined _ hp hu, ha],
      emit_hnnni_labels _ _ _⟩

/-- The same at a concrete run: `asm_init`, `asm_emit_label("a")`,
`asm_emit_cls`, then `asm_emit_jp_label("a")` against `asm_emit_jp_addr(0x200)`. -/
theorem defined_label_acts_as_literal_witness :
    asm_emit_jp_label 32 (after 32 1 (asm_init zero_state) [Op.emit_label "a", Op.cls]) "a" =
      some (asm_emit_jp_addr (after 32 1 (asm_init zero_state) [Op.emit_label "a", Op.cls])
        (MIN_ADDRESS + (asm_init zero_state).instruction_pointer)) ∧
    (asm_emit_jp_addr (after 32 1 (asm_init zero_state) [Op.emit_label "a", Op.cls])
        (MIN_ADDRESS + (asm_init zero_state).instruction_pointer)).2.labels =
      (after 32 1 (asm_init zero_state) [Op.emit_label "a", Op.cls]).labels ∧
    (asm_emit_jp_addr (after 32 1 (asm_init zero_state) [Op.emit_label "a", Op.cls])
        (MIN_ADDRESS + (asm_init zero_state).instruction_pointer)).2.number_of_labels =
      (after 32 1 (asm_init zero_state) [Op.emit_label "a", Op.cls]).number_of_labels ∧
    (asm_emit_jp_addr (after 32 1 (asm_init zero_state) [Op.emit_label "a", Op.cls])
        (MIN_ADDRESS + (asm_init zero_state).instruction_pointer)).2.number_of_undefined_labels =
      (after 32 1 (asm_init zero_state) [Op.emit_label "a", Op.cls]).number_of_undefined_labels :=
  defined_label_acts_as_literal 32 1 (asm_init zero_state)
    (after 32 1 (asm_init zero_state) [Op.emit_label "a"])
    (after 32 1 (asm_init zero_state) [Op.emit_label "a", Op.cls]) "a" ⟨by rfl, by rfl⟩
    (Steps.tail 0 Op.cls ASM_OK (Steps.refl _) (by rfl) (by rfl))
    (0x1, asm_emit_jp_label 32, asm_emit_jp_addr) (by simp [label_emitters])

/-- A second definition is refused, as long as the calls stay inside the
arrays: once `asm_emit_label` has returned `ASM_OK` for a name (new, or with
pending references) in a call that stays inside the buffer, then after any
further public calls that stay inside the arrays another `asm_emit_label` of
that name returns `ASM_SECOND_DEFINITION` and leaves the whole state (buffer,
cursor, label table, counters) as it was; the name is still Defined with the
address recorded at its definition. -/
theorem second_definition_has_no_effect (w fuel fuel2 : Nat) (s s1 s2 : AsmState)
    (label : String)
    (hdef : exec_within w fuel s (Op.emit_label label) = true ∧
      asm_emit_label w fuel s label = some (ASM_OK, s1)) (hrun : Steps w s1 s2) :
    asm_emit_label w fuel2 s2 label = some (ASM_SECOND_DEFINITION, s2) ∧
    DefinedAt w s2 label (MIN_ADDRESS + s.instruction_pointer) := by
  have hd := defined_at_steps (asm_emit_label_ok_defined hdef.2) hrun
  obtain ⟨slot, la, hp, hu, ha⟩ := hd
  exact ⟨asm_emit_label_defined hp hu, slot, la, hp, hu, ha⟩

/-- The same at a concrete run: `asm_init`, `asm_emit_jp_label("a")`,
`asm_emit_label("a")`, `asm_emit_cls`, then `asm_emit_label("a")` again. -/
theorem second_definition_has_no_effect_witness :
    asm_emit_label 32 1 (after 32 1 (asm_init zero_state) [Op.jp_label "a", Op.emit_label "a", Op.cls]) "a" =
      some (ASM_SECOND_DEFINITION,
        after 32 1 (asm_init zero_state) [Op.jp_label "a", Op.emit_label "a", Op.cls]) ∧
    DefinedAt 32 (after 32 1 (asm_init zero_state) [Op.jp_label "a", Op.emit_label "a", Op.cls]) "a"
      (MIN_ADDRESS + (after 32 1 (asm_init zero_state) [Op.jp_label "a"]).instruction_pointer) :=
  second_definition_has_no_effect 32 1 1 (after 32 1 (asm_init zero_state) [Op.jp_label "a"])
    (after 32 1 (asm_init zero_state) [Op.jp_label "a", Op.emit_label "a"])
    (after 32 1 (asm_init zero_state) [Op.jp_label "a", Op.emit_label "a", Op.cls]) "a"
    ⟨by rfl, by rfl⟩
    (Steps.tail 0 Op.cls ASM_OK (Steps.refl _) (by rfl) (by rfl))

/-! ## Capacity of the two-byte append -/

theorem two_byte_outcome_congr {s s2 t t2 : AsmState} {e : AsmError}
    (h : TwoByteOutcome s e t) (hm : s2.machine_code = s.machine_code)
    (hi : s2.instruction_pointer = s.instruction_pointer)
    (hm2 : t2.machine_code = t.machine_code)
    (hi2 : t2.instruction_pointer = t.instruction_pointer) : TwoByteOutcome s2 e t2 := by
  unfold TwoByteOutcome at h ⊢
  rw [hm, hi, hm2, hi2]
  exact h

theorem emit_outcome (s : AsmState) (instruction : Nat) :
    TwoByteOutcome s (emit s instruction).1 (emit s instruction).2 := by
  by_cases hfull : BUFFER_SIZE ≤ s.instruction_pointer + 1
  · rw [emit_full s instruction hfull]
    have hb := BUFFER_SIZE_eq
    have hb2 : ASM_BUFFER_SIZE = 3584 := rfl
    refine ⟨⟨fun _ => by omega, fun _ => rfl⟩, fun _ => ⟨rfl, rfl⟩, fun h => absurd rfl h⟩
  · have hroom : s.instruction_pointer + 1 < BUFFER_SIZE := by omega
    rw [emit_room s instruction hroom]
    have hb := BUFFER_SIZE_eq
    have hb2 : ASM_BUFFER_SIZE = 3584 := rfl
    refine ⟨⟨fun h => by simp at h, fun h => by omega⟩, fun h => by simp at h, fun _ => ?_⟩
    refine ⟨rfl, by omega, by omega, rfl, ?_⟩
    intro k hk1 hk2
    simp only [Function.update_noteq hk2, Function.update_noteq hk1]

theorem emit_hnnni_outcome (s : AsmState) (h nnn : Nat)
    (hc : (emit_hnnni s h nnn).1 ≠ ASM_TOO_BIG_ARGUMENT) :
    TwoByteOutcome s (emit_hnnni s h nnn).1 (emit_hnnni s h nnn).2 := by
  unfold emit_hnnni at hc ⊢
  split_ifs at hc ⊢ <;> first | exact emit_outcome _ _ | exact absurd rfl hc

theorem emit_hxkk_outcome (s : AsmState) (h x kk : Nat)
    (hc : (emit_hxkk s h x kk).1 ≠ ASM_TOO_BIG_ARGUMENT) :
    TwoByteOutcome s (emit_hxkk s h x kk).1 (emit_hxkk s h x kk).2 := by
  unfold emit_hxkk at hc ⊢
  split_ifs at hc ⊢ <;> first | exact emit_outcome _ _ | exact absurd rfl hc

theorem emit_hxyn_outcome (s : AsmState) (h x y n : Nat)
    (hc : (emit_hxyn s h x y n).1 ≠ ASM_TOO_BIG_ARGUMENT) :
    TwoByteOutcome s (emit_hxyn s h x y n).1 (emit_hxyn s h x y n).2 := by
  unfold emit_hxyn at hc ⊢
  split_ifs at hc ⊢ <;> first | exact emit_outcome _ _ | exact absurd rfl hc

theorem emit_hnnnl_outcome {w : Nat} {s t : AsmState} {h : Nat} {label : String} {e : AsmError}
    (hr : emit_hnnnl w s h label = some (e, t))
    (hc : e ≠ ASM_TOO_BIG_ARGUMENT) (hl : e ≠ ASM_TOO_MANY_LABELS) : TwoByteOutcome s e t := by
  cases hp : probe_label w s label with
  | spin => rw [emit_hnnnl_spin h hp] at hr; simp at hr
  | vacant i =>
    by_cases hfull : MAX_LABELS ≤ s.number_of_labels
    · rw [emit_hnnnl_full h hp hfull] at hr
      simp only [Option.some.injEq, Prod.mk.injEq] at hr
      exact absurd hr.1.symm hl
    · have hroom : s.number_of_labels < MAX_LABELS := by omega
      rw [emit_hnnnl_fresh h hp hroom] at hr
      simp only [Option.some.injEq, Prod.mk.injEq] at hr
      obtain ⟨he, ht⟩ := hr
      rw [← he] at hc ⊢
      rw [← ht]
      exact two_byte_outcome_congr (emit_hnnni_outcome _ h 0 hc) rfl rfl rfl rfl
  | found slot la =>
    cases hu : la.undefined with
    | false =>
      rw [emit_hnnnl_defined h hp hu] at hr
      simp only [Option.some.injEq] at hr
      have := emit_hnnni_outcome s h la.address
      rw [hr] at this
      exact this hc
    | true =>
      rw [emit_hnnnl_pending h hp hu] at hr
      simp only [Option.some.injEq] at hr
      have := emit_hnnni_outcome
        { s with labels := Function.update s.labels slot
                  (some { la with address := s.instruction_pointer }) } h la.address
      rw [hr] at this
      exact two_byte_outcome_congr (this hc) rfl rfl rfl rfl

theorem exec_two_byte_outcome {w fuel : Nat} {s t : AsmState} {op : Op} {e : AsmError}
    (h2 : op.two_byte = true) (hr : exec w fuel s op = some (e, t))
    (hc : e ≠ ASM_TOO_BIG_ARGUMENT) (hl : e ≠ ASM_TOO_MANY_LABELS) : TwoByteOutcome s e t := by
  rw [exec_layout] at hr
  rw [← layout_two_byte] at h2
  cases hlay : op.layout with
  | define label => simp [hlay, Layout.two_byte] at h2
  | data byte => simp [hlay, Layout.two_byte] at h2
  | hnnnl h label => rw [hlay] at hr; exact emit_hnnnl_outcome hr hc hl
  | plain instruction =>
    rw [hlay] at hr
    simp only [Layout.exec, Option.some.injEq] at hr
    have h3 := emit_outcome s instruction
    rw [hr] at h3
    exact h3
  | hnnni h nnn =>
    rw [hlay] at hr
    simp only [Layout.exec, Option.some.injEq] at hr
    have h3 := emit_hnnni_outcome s h nnn
    rw [hr] at h3
    exact h3 hc
  | hxkk h x kk =>
    rw [hlay] at hr
    simp only [Layout.exec, Option.some.injEq] at hr
    have h3 := emit_hxkk_outcome s h x kk
    rw [hr] at h3
    exact h3 hc
  | hxyn h x y n =>
    rw [hlay] at hr
    simp only [Layout.exec, Option.some.injEq] at hr
    have h3 := emit_hxyn_outcome s h x y n
    rw [hr] at h3
    exact h3 hc

/-- C6: a call of `emit` returns `ASM_TOO_MANY_INSTRUCTIONS` exactly when fewer
than two bytes are left (`cursor + 2 > ASM_BUFFER_SIZE`), then writing nothing
and keeping the cursor; otherwise it returns `ASM_OK`, writes the two bytes at
`cursor` and `cursor + 1`, both inside the buffer, and moves the cursor by two.
The same holds of every public two-byte emitter whose call gets as far as
`emit`, i.e. returns neither `ASM_TOO_BIG_ARGUMENT` nor `ASM_TOO_MANY_LABELS`. -/
theorem two_byte_emission_capacity (w fuel : Nat) (s : AsmState) :
    (∀ instruction, TwoByteOutcome s (emit s instruction).1 (emit s instruction).2 ∧
      ((emit s instruction).1 = ASM_TOO_MANY_INSTRUCTIONS → (emit s instruction).2 = s) ∧
      ((emit s instruction).1 = ASM_OK →
        (emit s instruction).2.machine_code s.instruction_pointer = (instruction >>> 8) &&& 0xff ∧
        (emit s instruction).2.machine_code (s.instruction_pointer + 1) = instruction &&& 0xff)) ∧
    (∀ (op : Op) (e : AsmError) (t : AsmState), op.two_byte = true →
      exec w fuel s op = some (e, t) → e ≠ ASM_TOO_BIG_ARGUMENT → e ≠ ASM_TOO_MANY_LABELS →
      TwoByteOutcome s e t) := by
  refine ⟨fun instruction => ⟨emit_outcome s instruction, ?_, ?_⟩, ?_⟩
  · intro h
    by_cases hfull : BUFFER_SIZE ≤ s.instruction_pointer + 1
    · rw [emit_full s instruction hfull]
    · rw [emit_room s instruction (by omega)] at h
      simp at h
  · intro h
    by_cases hfull : BUFFER_SIZE ≤ s.instruction_pointer + 1
    · rw [emit_full s instruction hfull] at h
      simp at h
    · rw [emit_room s instruction (by omega)]
      simp
  · intro op e t h2 hr hc hl
    exact exec_two_byte_outcome h2 hr hc hl

/-! ## Filling the buffer -/

theorem repeat_cls_spec (s : AsmState) :
    ∀ k, s.instruction_pointer + 2 * k ≤ BUFFER_SIZE →
      (repeat_cls k s).instruction_pointer = s.instruction_pointer + 2 * k ∧
      (repeat_cls k s).labels = s.labels ∧
      (repeat_cls k s).number_of_labels = s.number_of_labels ∧
      (repeat_cls k s).number_of_undefined_labels = s.number_of_undefined_labels ∧
      ∀ w, Steps w s (repeat_cls k s) := by
  intro k
  induction k with
  | zero => intro _; exact ⟨rfl, rfl, rfl, rfl, fun w => Steps.refl s⟩
  | succ k ih =>
    intro hk
    obtain ⟨h1, h2, h3, h4, h5⟩ := ih (by omega)
    have hroom : (repeat_cls k s).instruction_pointer + 1 < BUFFER_SIZE := by omega
    have he := emit_room (repeat_cls k s) 0x00e0 hroom
    simp only [repeat_cls, asm_emit_cls, he]
    refine ⟨by simp only [h1]; omega, h2, h3, h4, fun w => ?_⟩
    exact Steps.tail 0 Op.cls ASM_OK (h5 w) (by simp only [exec, asm_emit_cls, he]) rfl

theorem repeat_data_spec (s : AsmState) :
    ∀ k, s.instruction_pointer + k ≤ BUFFER_SIZE →
      (repeat_data k s).instruction_pointer = s.instruction_pointer + k ∧
      (repeat_data k s).labels = s.labels ∧
      (repeat_data k s).number_of_labels = s.number_of_labels ∧
      (repeat_data k s).number_of_undefined_labels = s.number_of_undefined_labels ∧
      ∀ w, Steps w s (repeat_data k s) := by
  intro k
  induction k with
  | zero => intro _; exact ⟨rfl, rfl, rfl, rfl, fun w => Steps.refl s⟩
  | succ k ih =>
    intro hk
    obtain ⟨h1, h2, h3, h4, h5⟩ := ih (by omega)
    have hroom : ¬ BUFFER_SIZE < (repeat_data k s).instruction_pointer := by omega
    have he : asm_emit_data (repeat_data k s) 0 =
        (ASM_OK,
          { repeat_data k s with
            machine_code := Function.update (repeat_data k s).machine_code
              (repeat_data k s).instruction_pointer (0 &&& 0xff)
            instruction_pointer := (repeat_data k s).instruction_pointer + 1 }) := by
      simp [asm_emit_data, hroom]
    simp only [repeat_data, he]
    refine ⟨by simp only [h1]; omega, h2, h3, h4, fun w => ?_⟩
    exact Steps.tail 0 (Op.emit_data 0) ASM_OK (h5 w) (by simp only [exec, he])
      (by simp only [exec_within, decide_eq_true_eq]; omega)

theorem zero_state_reachable (w : Nat) : Reachable w (asm_init zero_state) :=
  ⟨zero_state, fun _ => by simp [zero_state], Steps.refl _⟩

theorem reachable_steps {w : Nat} {s t : AsmState} (hs : Reachable w s) (ht : Steps w s t) :
    Reachable w t := by
  obtain ⟨s0, hb, h0⟩ := hs
  refine ⟨s0, hb, ?_⟩
  clear hb
  induction ht with
  | refl => exact h0
  | tail fuel op e _ hx hin ih => exact Steps.tail fuel op e ih hx hin

theorem probe_label_empty (w : Nat) {s : AsmState} (label : String)
    (h : s.labels = fun _ => none) :
    probe_label w s label = Probe.vacant (string_hash w label % TABLE_OF_LABELS_SIZE) := by
  simp [probe_label, TABLE_OF_LABELS_SIZE_eq, probe, h]

theorem asm_emit_data_at_capacity (t : AsmState) (data : Nat)
    (hip : t.instruction_pointer = ASM_BUFFER_SIZE) :
    (asm_emit_data t data).1 = ASM_OK ∧
    (asm_emit_data t data).2.instruction_pointer = ASM_BUFFER_SIZE + 1 ∧
    (asm_emit_data t data).2.machine_code ASM_BUFFER_SIZE = data &&& 0xff ∧
    (emit t 0x00e0).1 = ASM_TOO_MANY_INSTRUCTIONS := by
  have hb : ASM_BUFFER_SIZE = 3584 := rfl
  have hnot : ¬ BUFFER_SIZE < t.instruction_pointer := by rw [hip, BUFFER_SIZE_eq, hb]; omega
  have he : asm_emit_data t data =
      (ASM_OK,
        { t with
          machine_code := Function.update t.machine_code t.instruction_pointer (data &&& 0xff)
          instruction_pointer := t.instruction_pointer + 1 }) := by
    unfold asm_emit_data
    rw [if_neg hnot]
  rw [he, emit_full _ _ (by rw [hip, BUFFER_SIZE_eq, hb]; omega)]
  refine ⟨rfl, ?_, ?_, rfl⟩
  · show t.instruction_pointer + 1 = ASM_BUFFER_SIZE + 1
    rw [hip]
  · show Function.update t.machine_code t.instruction_pointer (data &&& 0xff) ASM_BUFFER_SIZE = _
    rw [hip, Function.update_same]

theorem repeat_data_full :
    (repeat_data ASM_BUFFER_SIZE (asm_init zero_state)).instruction_pointer = ASM_BUFFER_SIZE ∧
    ∀ w, Reachable w (repeat_data ASM_BUFFER_SIZE (asm_init zero_state)) := by
  have h := repeat_data_spec (asm_init zero_state) ASM_BUFFER_SIZE (by decide)
  exact ⟨h.1.trans (Nat.zero_add _), fun w => reachable_steps (zero_state_reachable w) (h.2.2.2.2 w)⟩

/-- C7: with the buffer full (cursor = `ASM_BUFFER_SIZE`, reached by
`ASM_BUFFER_SIZE` calls of `asm_emit_data` after `asm_init`), `asm_emit_data`
does not return `ASM_TOO_MANY_INSTRUCTIONS`: it returns `ASM_OK`, stores its
byte at offset `ASM_BUFFER_SIZE`, one past the last cell of the buffer, and
moves the cursor to `ASM_BUFFER_SIZE + 1`; `emit` in the same state returns
`ASM_TOO_MANY_INSTRUCTIONS`. -/
theorem asm_emit_data_writes_past_capacity :
    (∀ w, Reachable w (repeat_data ASM_BUFFER_SIZE (asm_init zero_state))) ∧
    (repeat_data ASM_BUFFER_SIZE (asm_init zero_state)).instruction_pointer = ASM_BUFFER_SIZE ∧
    (asm_emit_data (repeat_data ASM_BUFFER_SIZE (asm_init zero_state)) 0xAB).1 = ASM_OK ∧
    (asm_emit_data (repeat_data ASM_BUFFER_SIZE (asm_init zero_state)) 0xAB).2.instruction_pointer
      = ASM_BUFFER_SIZE + 1 ∧
    (asm_emit_data (repeat_data ASM_BUFFER_SIZE (asm_init zero_state)) 0xAB).2.machine_code
      ASM_BUFFER_SIZE = 0xAB ∧
    (emit (repeat_data ASM_BUFFER_SIZE (asm_init zero_state)) 0x00e0).1
      = ASM_TOO_MANY_INSTRUCTIONS :=
  have h := asm_emit_data_at_capacity _ 0xAB repeat_data_full.1
  ⟨repeat_data_full.2, repeat_data_full.1, h.1, h.2.1, h.2.2.1.trans (by decide), h.2.2.2⟩

/-- C4: an operand equal to `2 ^ width` is not rejected.  After `asm_init`,
`asm_emit_se_vx_byte(16, 0)` (4-bit field), `asm_emit_ld_vx_byte(1, 256)`
(8-bit field) and `asm_emit_jp_addr(4096)` (12-bit field) each return `ASM_OK`,
append two bytes and move the cursor to 2; the excess bit is ORed into the
neighbouring field.  One more (17, 257, 4097) is rejected. -/
theorem operand_at_field_limit_is_accepted :
    (fun r : AsmError × AsmState => (r.1, r.2.instruction_pointer, bytes_upto r.2 2))
        (asm_emit_se_vx_byte (asm_init zero_state) 16 0) = (ASM_OK, 2, [0x30, 0x00]) ∧
    (fun r : AsmError × AsmState => (r.1, r.2.instruction_pointer, bytes_upto r.2 2))
        (asm_emit_ld_vx_byte (asm_init zero_state) 1 256) = (ASM_OK, 2, [0x61, 0x00]) ∧
    (fun r : AsmError × AsmState => (r.1, r.2.instruction_pointer, bytes_upto r.2 2))
        (asm_emit_jp_addr (asm_init zero_state) 4096) = (ASM_OK, 2, [0x10, 0x00]) ∧
    (asm_emit_se_vx_byte (asm_init zero_state) 17 0).1 = ASM_TOO_BIG_ARGUMENT ∧
    (asm_emit_ld_vx_byte (asm_init zero_state) 1 257).1 = ASM_TOO_BIG_ARGUMENT ∧
    (asm_emit_jp_addr (asm_init zero_state) 4097).1 = ASM_TOO_BIG_ARGUMENT := by
  decide

/-- C5: the round trip fails at an accepted out-of-range operand.  After
`asm_init`, `asm_emit_ld_i_addr(4096)` returns `ASM_OK` and stores the word
`0xB000`: its top nibble is `0xB`, not the opcode class `0xA` of the emitter,
and its low 12 bits are 0, not the address supplied. -/
theorem round_trip_fails_at_field_limit :
    (asm_emit_ld_i_addr (asm_init zero_state) 4096).1 = ASM_OK ∧
    word_at (asm_emit_ld_i_addr (asm_init zero_state) 4096).2 0 = 0xB000 ∧
    word_at (asm_emit_ld_i_addr (asm_init zero_state) 4096).2 0 / 4096 ≠ 0xA ∧
    word_at (asm_emit_ld_i_addr (asm_init zero_state) 4096).2 0 % 4096 ≠ 4096 := by
  decide

/-- C1: a second reference hides the first one when the first sits at offset 0.
After `asm_init`, two `asm_emit_jp_label("a")` and `asm_emit_label("a")` all
return `ASM_OK`; the definition is at cursor 4, the second jump (offset 2) is
patched to `0x204 = ASM_MIN_ADDRESS + 4`, the first jump (offset 0) still has
the address field 0.  Evaluated with a 32-bit and with a 64-bit hash. -/
theorem reference_at_offset_zero_is_not_patched :
    (run 32 1 (asm_init zero_state)
        [Op.jp_label "a", Op.jp_label "a", Op.emit_label "a"]).map
      (fun r => (r.1, r.2.instruction_pointer, bytes_upto r.2 4, word_at r.2 0 % 4096,
        word_at r.2 2 % 4096, ASM_MIN_ADDRESS + r.2.instruction_pointer)) =
      some ([ASM_OK, ASM_OK, ASM_OK], 4, [0x10, 0x00, 0x12, 0x04], 0, 0x204, 0x204) ∧
    (run 64 1 (asm_init zero_state)
        [Op.jp_label "a", Op.jp_label "a", Op.emit_label "a"]).map
      (fun r => (r.1, r.2.instruction_pointer, bytes_upto r.2 4, word_at r.2 0 % 4096,
        word_at r.2 2 % 4096, ASM_MIN_ADDRESS + r.2.instruction_pointer)) =
      some ([ASM_OK, ASM_OK, ASM_OK], 4, [0x10, 0x00, 0x12, 0x04], 0, 0x204, 0x204) :=
  ⟨by decide, by decide⟩

theorem emit_hnnni_full (s : AsmState) (h nnn : Nat) (hh : h ≤ 16) (hn : nnn ≤ 4096)
    (hfull : BUFFER_SIZE ≤ s.instruction_pointer + 1) :
    emit_hnnni s h nnn = (ASM_TOO_MANY_INSTRUCTIONS, s) := by
  have h1 : ¬ (16 < h) := by omega
  have h2 : ¬ (4096 < nnn) := by omega
  simp [emit_hnnni, CHECK_ARGUMENT_SIZE, h1, h2, emit_full s _ hfull]

theorem emit_hnnni_room (s : AsmState) (h nnn : Nat) (hh : h ≤ 16) (hn : nnn ≤ 4096)
    (hroom : s.instruction_pointer + 1 < BUFFER_SIZE) :
    emit_hnnni s h nnn =
      (ASM_OK,
        { s with
          machine_code :=
            Function.update
              (Function.update s.machine_code s.instruction_pointer
                ((((h <<< 12) ||| nnn) >>> 8) &&& 0xff))
              (s.instruction_pointer + 1) (((h <<< 12) ||| nnn) &&& 0xff)
          instruction_pointer := s.instruction_pointer + 2 }) := by
  have h1 : ¬ (16 < h) := by omega
  have h2 : ¬ (4096 < nnn) := by omega
  simp [emit_hnnni, CHECK_ARGUMENT_SIZE, h1, h2, emit_room s _ hroom]

/-- A label-taking emitter called with a new name when the buffer is full. -/
theorem emit_hnnnl_fresh_full {w : Nat} {s : AsmState} {label : String} {i : Nat} (h : Nat)
    (hh : h ≤ 16) (hp : probe_label w s label = Probe.vacant i)
    (hroom : s.number_of_labels < MAX_LABELS)
    (hfull : BUFFER_SIZE ≤ s.instruction_pointer + 1) :
    emit_hnnnl w s h label =
      some (ASM_TOO_MANY_INSTRUCTIONS,
        { entered w s i label s.instruction_pointer true with
          number_of_undefined_labels := s.number_of_undefined_labels + 1 }) := by
  rw [emit_hnnnl_fresh h hp hroom,
    emit_hnnni_full (entered w s i label s.instruction_pointer true) h 0 hh (by omega) hfull]
  rfl

/-- A label-taking emitter called with a pending name when the buffer is full. -/
theorem emit_hnnnl_pending_full {w : Nat} {s : AsmState} {label : String} {slot : Nat}
    {la : LabelAddress} (h : Nat) (hh : h ≤ 16)
    (hp : probe_label w s label = Probe.found slot la) (hu : la.undefined = true)
    (ha : la.address ≤ 4096) (hfull : BUFFER_SIZE ≤ s.instruction_pointer + 1) :
    emit_hnnnl w s h label =
      some (ASM_TOO_MANY_INSTRUCTIONS,
        { s with
          labels := Function.update s.labels slot
            (some { la with address := s.instruction_pointer }) }) := by
  rw [emit_hnnnl_pending h hp hu,
    emit_hnnni_full
      { s with labels := Function.update s.labels slot
                (some { la with address := s.instruction_pointer }) } h la.address hh ha hfull]

theorem repeat_cls_full :
    (repeat_cls 1792 (asm_init zero_state)).instruction_pointer = ASM_BUFFER_SIZE ∧
    (repeat_cls 1792 (asm_init zero_state)).labels = (fun _ => none) ∧
    (repeat_cls 1792 (asm_init zero_state)).number_of_labels = 0 ∧
    (repeat_cls 1792 (asm_init zero_state)).number_of_undefined_labels = 0 ∧
    ∀ w, Reachable w (repeat_cls 1792 (asm_init zero_state)) := by
  have h := repeat_cls_spec (asm_init zero_state) 1792 (by decide)
  exact ⟨h.1.trans (by decide), h.2.1, h.2.2.1, h.2.2.2.1,
    fun w => reachable_steps (zero_state_reachable w) (h.2.2.2.2 w)⟩

theorem jp_label_fresh_full (w : Nat) (s : AsmState) (label : String)
    (hip : s.instruction_pointer = ASM_BUFFER_SIZE) (hlab : s.labels = fun _ => none)
    (hnol : s.number_of_labels = 0) (hnul : s.number_of_undefined_labels = 0) :
    ∃ t, asm_emit_jp_label w s label = some (ASM_TOO_MANY_INSTRUCTIONS, t) ∧
      t.instruction_pointer = ASM_BUFFER_SIZE ∧
      t.number_of_labels = 1 ∧
      t.number_of_undefined_labels = 1 ∧
      t.labels (string_hash w label % TABLE_OF_LABELS_SIZE) =
        some { hash := string_hash w label, label := label,
               address := ASM_BUFFER_SIZE, undefined := true } := by
  have hp := probe_label_empty w label hlab
  have hb : ASM_BUFFER_SIZE = 3584 := rfl
  refine ⟨_, emit_hnnnl_fresh_full 1 (by omega) hp (by rw [hnol, MAX_LABELS_eq]; omega)
    (by rw [hip, BUFFER_SIZE_eq, hb]; omega), ?_, ?_, ?_, ?_⟩
  · exact hip
  · show s.number_of_labels + 1 = 1
    rw [hnol]
  · show s.number_of_undefined_labels + 1 = 1
    rw [hnul]
  · show Function.update s.labels _ _ _ = _
    rw [Function.update_same, hip]

/-- C8: a failing label-taking emitter does change the table.  With the buffer
full (1792 `asm_emit_cls` after `asm_init`), `asm_emit_jp_label("a")` returns
`ASM_TOO_MANY_INSTRUCTIONS`, yet an entry for `"a"` has been created (Undefined,
chain head = the cursor, where no instruction is), and the label count and the
undefined-label count have both gone from 0 to 1. -/
theorem failed_label_emission_changes_table (w : Nat) :
    Reachable w (repeat_cls 1792 (asm_init zero_state)) ∧
    (repeat_cls 1792 (asm_init zero_state)).instruction_pointer = ASM_BUFFER_SIZE ∧
    (repeat_cls 1792 (asm_init zero_state)).number_of_labels = 0 ∧
    (repeat_cls 1792 (asm_init zero_state)).number_of_undefined_labels = 0 ∧
    (repeat_cls 1792 (asm_init zero_state)).labels = (fun _ => none) ∧
    ∃ t, asm_emit_jp_label w (repeat_cls 1792 (asm_init zero_state)) "a" =
        some (ASM_TOO_MANY_INSTRUCTIONS, t) ∧
      t.instruction_pointer = ASM_BUFFER_SIZE ∧
      t.number_of_labels = 1 ∧
      t.number_of_undefined_labels = 1 ∧
      t.labels (string_hash w "a" % TABLE_OF_LABELS_SIZE) =
        some { hash := string_hash w "a", label := "a",
               address := ASM_BUFFER_SIZE, undefined := true } :=
  ⟨repeat_cls_full.2.2.2.2 w, repeat_cls_full.1, repeat_cls_full.2.2.1, repeat_cls_full.2.2.2.1,
    repeat_cls_full.2.1,
    jp_label_fresh_full w _ "a" repeat_cls_full.1 repeat_cls_full.2.1 repeat_cls_full.2.2.1
      repeat_cls_full.2.2.2.1⟩

/-! ## The invariant of the label table -/

theorem probe_label_found_lt {w : Nat} {s : AsmState} {label : String} {i : Nat}
    {la : LabelAddress} (hp : probe_label w s label = Probe.found i la) :
    i < TABLE_OF_LABELS_SIZE :=
  probe_found_lt _ _ _ _ (Nat.mod_lt _ (by decide)) hp

theorem probe_label_vacant_lt {w : Nat} {s : AsmState} {label : String} {i : Nat}
    (hp : probe_label w s label = Probe.vacant i) : i < TABLE_OF_LABELS_SIZE :=
  probe_vacant_lt _ _ _ (Nat.mod_lt _ (by decide)) hp

theorem occupied_congr {s t : AsmState}
    (h : ∀ i, (t.labels i).isSome = (s.labels i).isSome) : occupied t = occupied s := by
  unfold occupied
  exact Finset.filter_congr (fun i _ => by rw [h i])

theorem occupied_insert {s t : AsmState} {i : Nat} {e : LabelAddress}
    (hi : i < TABLE_OF_LABELS_SIZE) (hl : t.labels = Function.update s.labels i (some e)) :
    occupied t = insert i (occupied s) := by
  ext j
  simp only [occupied, Finset.mem_filter, Finset.mem_range, Finset.mem_insert, hl]
  by_cases hji : j = i
  · subst hji
    simp [hi]
  · simp [Function.update_noteq hji, hji]

theorem table_inv_init (w : Nat) (s0 : AsmState) : TableInv w (asm_init s0) where
  found := by intro i la h; simp [asm_init] at h
  count := by simp [asm_init, occupied]
  bound := by simp [asm_init]

theorem table_inv_table_step {w : Nat} {s t : AsmState} (hi : TableInv w s)
    (ht : TableStep w s t) : TableInv w t := by
  cases ht with
  | same hl hn _ =>
    refine ⟨?_, ?_, ?_⟩
    · intro i la h
      rw [probe_label_congr hl]
      exact hi.found i la (by rw [← hl]; exact h)
    · rw [hn, hi.count, occupied_congr (fun i => by rw [hl])]
    · rw [hn]; exact hi.bound
  | insert i e hpe hhash hl hroom hn _ =>
    have hlt := probe_label_vacant_lt hpe
    have hnone : s.labels i = none := probe_vacant _ _ _ hpe
    refine ⟨?_, ?_, ?_⟩
    · intro j la h
      rw [hl] at h
      simp only [probe_label, hl]
      by_cases hji : j = i
      · subst hji
        rw [Function.update_same] at h
        simp only [Option.some.injEq] at h
        subst h
        exact probe_insert_vacant e ⟨hhash.symm, rfl⟩ _ _ hpe
      · rw [Function.update_noteq hji] at h
        exact probe_insert_found e hnone _ _ _ _ (hi.found j la h)
    · rw [hn, hi.count, occupied_insert hlt hl, Finset.card_insert_of_not_mem]
      simp [occupied, hnone]
    · omega
  | modify slot la la2 hp hu hh hlab hl hn _ =>
    have hs := (probe_label_label hp).1
    refine ⟨?_, ?_, ?_⟩
    · intro j x h
      rw [hl] at h
      simp only [probe_label, hl]
      rw [probe_modify la2 hs hh hlab]
      by_cases hjs : j = slot
      · subst hjs
        rw [Function.update_same] at h
        simp only [Option.some.injEq] at h
        subst h
        have := hp
        simp only [probe_label] at this
        rw [hlab, this]
        simp
      · rw [Function.update_noteq hjs] at h
        have := hi.found j x h
        simp only [probe_label] at this
        rw [this]
        simp [hjs]
    · rw [hn, hi.count]
      have hocc : occupied t = occupied s := occupied_congr (fun i => by
        rw [hl]
        by_cases his : i = slot
        · subst his; simp [hs]
        · rw [Function.update_noteq his])
      rw [hocc]
    · rw [hn]; exact hi.bound

theorem table_inv_steps {w : Nat} {s t : AsmState} (hi : TableInv w s) (hs : Steps w s t) :
    TableInv w t := by
  induction hs with
  | refl => exact hi
  | tail fuel op e _ hx _ ih => exact table_inv_table_step ih (exec_table hx)

theorem reachable_table_inv {w : Nat} {s : AsmState} (hs : Reachable w s) : TableInv w s := by
  obtain ⟨s0, _, h0⟩ := hs
  exact table_inv_steps (table_inv_init w s0) h0

/-! ## The probe ends when a slot is empty -/

theorem probe_spin_occupied {labels : Nat → Option LabelAddress} {label : String} {hash : Nat} :
    ∀ (fuel i : Nat), i < TABLE_OF_LABELS_SIZE → probe labels label hash fuel i = Probe.spin →
      ∀ t, t < fuel → (labels ((i + t) % TABLE_OF_LABELS_SIZE)).isSome = true := by
  intro fuel
  induction fuel with
  | zero => intro i _ _ t ht; omega
  | succ fuel ih =>
    intro i hi h t ht
    cases hli : labels i with
    | none => simp [probe, hli] at h
    | some la =>
      simp only [probe, hli] at h
      split_ifs at h with hm
      cases t with
      | zero => simp [Nat.mod_eq_of_lt hi, hli]
      | succ t =>
        have := ih _ (Nat.mod_lt _ (by decide)) h t (by omega)
        have e : ((i + 1) % TABLE_OF_LABELS_SIZE + t) % TABLE_OF_LABELS_SIZE =
            (i + (t + 1)) % TABLE_OF_LABELS_SIZE := by
          rw [TABLE_OF_LABELS_SIZE_eq]; omega
        rw [e] at this
        exact this

theorem probe_label_spin_full {w : Nat} {s : AsmState} {label : String}
    (hp : probe_label w s label = Probe.spin) :
    occupied s = Finset.range TABLE_OF_LABELS_SIZE := by
  unfold occupied
  refine Finset.filter_true_of_mem (fun m hm => ?_)
  rw [Finset.mem_range] at hm
  have hlt : string_hash w label % TABLE_OF_LABELS_SIZE < TABLE_OF_LABELS_SIZE :=
    Nat.mod_lt _ (by decide)
  have := probe_spin_occupied _ _ hlt hp
    ((m + TABLE_OF_LABELS_SIZE - string_hash w label % TABLE_OF_LABELS_SIZE)
      % TABLE_OF_LABELS_SIZE) (Nat.mod_lt _ (by decide))
  have e : (string_hash w label % TABLE_OF_LABELS_SIZE +
      (m + TABLE_OF_LABELS_SIZE - string_hash w label % TABLE_OF_LABELS_SIZE)
        % TABLE_OF_LABELS_SIZE) % TABLE_OF_LABELS_SIZE = m := by
    rw [TABLE_OF_LABELS_SIZE_eq] at hlt hm ⊢; omega
  rw [e] at this
  exact this

theorem table_inv_no_spin {w : Nat} {s : AsmState} (hi : TableInv w s) (label : String) :
    probe_label w s label ≠ Probe.spin := by
  intro hp
  have h1 := hi.count
  have h2 := hi.bound
  rw [probe_label_spin_full hp, Finset.card_range, TABLE_OF_LABELS_SIZE_eq] at h1
  rw [MAX_LABELS_eq] at h2
  omega

theorem mem_table_names {s : AsmState} {name : String} :
    name ∈ table_names s ↔
      ∃ i la, i < TABLE_OF_LABELS_SIZE ∧ s.labels i = some la ∧ la.label = name := by
  simp only [table_names, occupied, Finset.mem_image, Finset.mem_filter, Finset.mem_range]
  constructor
  · rintro ⟨i, ⟨hi, hsome⟩, hn⟩
    cases hl : s.labels i with
    | none => simp [hl] at hsome
    | some la => exact ⟨i, la, hi, hl, by simpa [name_at, hl] using hn⟩
  · rintro ⟨i, la, hi, hl, hn⟩
    exact ⟨i, ⟨hi, by simp [hl]⟩, by simp [name_at, hl, hn]⟩

theorem table_inv_card_names {w : Nat} {s : AsmState} (hi : TableInv w s) :
    (table_names s).card = s.number_of_labels := by
  rw [hi.count, table_names]
  refine Finset.card_image_of_injOn (fun i hi1 j hj1 hij => ?_)
  simp only [occupied, Finset.coe_filter, Finset.mem_range, Set.mem_setOf_eq] at hi1 hj1
  cases hli : s.labels i with
  | none => simp [hli] at hi1
  | some la =>
    cases hlj : s.labels j with
    | none => simp [hlj] at hj1
    | some lb =>
      simp only [name_at, hli, hlj] at hij
      have h1 := hi.found i la hli
      have h2 := hi.found j lb hlj
      rw [hij, h2] at h1
      simp only [Probe.found.injEq] at h1
      exact h1.1.symm

/-- The probe for a name without an entry ends at an empty slot. -/
theorem table_inv_vacant {w : Nat} {s : AsmState} (hi : TableInv w s) {label : String}
    (hnew : label ∉ table_names s) : ∃ i, probe_label w s label = Probe.vacant i := by
  cases hp : probe_label w s label with
  | spin => exact absurd hp (table_inv_no_spin hi label)
  | vacant i => exact ⟨i, rfl⟩
  | found i la =>
    exfalso
    apply hnew
    obtain ⟨h1, _, h3⟩ := probe_label_label hp
    exact mem_table_names.mpr ⟨i, la, probe_label_found_lt hp, h1, h3⟩

theorem emit_hnnni_ne_labels (s : AsmState) (h nnn : Nat) :
    (emit_hnnni s h nnn).1 ≠ ASM_TOO_MANY_LABELS := by
  unfold emit_hnnni emit
  split_ifs <;> simp

theorem asm_emit_label_new {w fuel : Nat} {s : AsmState} {label : String}
    (hi : TableInv w s) (hnew : label ∉ table_names s) :
    ∃ e t, asm_emit_label w fuel s label = some (e, t) ∧
      (e = ASM_TOO_MANY_LABELS ↔ (table_names s).card = ASM_MAX_LABELS) ∧
      (e = ASM_TOO_MANY_LABELS → t = s) := by
  obtain ⟨i, hp⟩ := table_inv_vacant hi hnew
  have hb := hi.bound
  rw [table_inv_card_names hi]
  by_cases hfull : MAX_LABELS ≤ s.number_of_labels
  · exact ⟨_, _, asm_emit_label_full hp hfull, ⟨fun _ => Nat.le_antisymm hb hfull, fun _ => rfl⟩,
      fun _ => rfl⟩
  · have hroom : s.number_of_labels < MAX_LABELS := by omega
    refine ⟨_, _, asm_emit_label_fresh hp hroom, ⟨fun h => by simp at h, fun h => ?_⟩,
      fun h => by simp at h⟩
    exact absurd (show s.number_of_labels = MAX_LABELS from h) (by omega)

theorem emit_hnnnl_new {w : Nat} {s : AsmState} {label : String} (h : Nat)
    (hi : TableInv w s) (hnew : label ∉ table_names s) :
    ∃ e t, emit_hnnnl w s h label = some (e, t) ∧
      (e = ASM_TOO_MANY_LABELS ↔ (table_names s).card = ASM_MAX_LABELS) ∧
      (e = ASM_TOO_MANY_LABELS → t = s) := by
  obtain ⟨i, hp⟩ := table_inv_vacant hi hnew
  have hb := hi.bound
  rw [table_inv_card_names hi]
  by_cases hfull : MAX_LABELS ≤ s.number_of_labels
  · exact ⟨_, _, emit_hnnnl_full h hp hfull, ⟨fun _ => Nat.le_antisymm hb hfull, fun _ => rfl⟩,
      fun _ => rfl⟩
  · have hroom : s.number_of_labels < MAX_LABELS := by omega
    have hne := emit_hnnni_ne_labels (entered w s i label s.instruction_pointer true) h 0
    refine ⟨_, _, emit_hnnnl_fresh h hp hroom, ⟨fun h => absurd h hne, fun h => ?_⟩,
      fun h => absurd h hne⟩
    exact absurd (show s.number_of_labels = MAX_LABELS from h) (by omega)

/-- The full-table rule, in the states reached by calls that stay inside the
arrays: in such a state, for a name that has no table entry,
`asm_emit_label` and each label-taking emitter return, and the code they return
is `ASM_TOO_MANY_LABELS` exactly when the table holds `ASM_MAX_LABELS` distinct
names; in that case the state is left exactly as it was (no entry created,
nothing emitted, cursor and both counters unchanged). -/
theorem too_many_labels_iff_table_full (w fuel : Nat) (s : AsmState) (label : String)
    (hs : Reachable w s) (hnew : label ∉ table_names s) :
    (∃ e t, asm_emit_label w fuel s label = some (e, t) ∧
      (e = ASM_TOO_MANY_LABELS ↔ (table_names s).card = ASM_MAX_LABELS) ∧
      (e = ASM_TOO_MANY_LABELS → t = s)) ∧
    ∀ p ∈ label_emitters w,
      ∃ e t, p.2.1 s label = some (e, t) ∧
        (e = ASM_TOO_MANY_LABELS ↔ (table_names s).card = ASM_MAX_LABELS) ∧
        (e = ASM_TOO_MANY_LABELS → t = s) := by
  have hi := reachable_table_inv hs
  refine ⟨asm_emit_label_new hi hnew, ?_⟩
  intro p hmem
  simp only [label_emitters, List.mem_cons, List.mem_singleton, List.not_mem_nil, or_false] at hmem
  rcases hmem with rfl | rfl | rfl | rfl
  · exact emit_hnnnl_new 0x1 hi hnew
  · exact emit_hnnnl_new 0x2 hi hnew
  · exact emit_hnnnl_new 0xA hi hnew
  · exact emit_hnnnl_new 0xB hi hnew

theorem table_names_init (s0 : AsmState) : table_names (asm_init s0) = ∅ := by
  simp [table_names, occupied, asm_init]

/-- The same in the state right after `asm_init`, for the name `"a"`. -/
theorem too_many_labels_iff_table_full_witness :
    (∃ e t, asm_emit_label 32 0 (asm_init zero_state) "a" = some (e, t) ∧
      (e = ASM_TOO_MANY_LABELS ↔ (table_names (asm_init zero_state)).card = ASM_MAX_LABELS) ∧
      (e = ASM_TOO_MANY_LABELS → t = asm_init zero_state)) ∧
    ∀ p ∈ label_emitters 32,
      ∃ e t, p.2.1 (asm_init zero_state) "a" = some (e, t) ∧
        (e = ASM_TOO_MANY_LABELS ↔ (table_names (asm_init zero_state)).card = ASM_MAX_LABELS) ∧
        (e = ASM_TOO_MANY_LABELS → t = asm_init zero_state) :=
  too_many_labels_iff_table_full 32 0 (asm_init zero_state) "a" (zero_state_reachable 32)
    (by simp [table_names_init])

/-! ## Entries that a call does not name -/

/-- A step of the table keeps the probe of a name at its entry when that entry
itself is kept. -/
theorem table_step_keeps {w : Nat} {s t : AsmState} {label : String} {i : Nat}
    {la : LabelAddress} (ht : TableStep w s t)
    (hp : probe_label w s label = Probe.found i la) (hk : t.labels i = some la) :
    probe_label w t label = Probe.found i la := by
  cases ht with
  | same hl _ _ => rw [probe_label_congr hl]; exact hp
  | insert i2 e hpe _ hl _ _ _ =>
    simp only [probe_label, hl]
    exact probe_insert_found e (probe_vacant _ _ _ hpe) _ _ _ _ hp
  | modify slot la1 la2 hp1 _ hh hl2 hlab _ _ =>
    have hs1 := (probe_label_label hp1).1
    simp only [probe_label, hlab]
    rw [probe_modify la2 hs1 hh hl2]
    simp only [probe_label] at hp
    rw [hp]
    by_cases his : i = slot
    · subst his
      rw [hlab, Function.update_same] at hk
      simp only [Option.some.injEq] at hk
      simp [hk]
    · simp [his]

theorem emit_hnnnl_other {w : Nat} {s t : AsmState} {h : Nat} {label other : String}
    {e : AsmError} {i : Nat} {la : LabelAddress}
    (hr : emit_hnnnl w s h other = some (e, t)) (hne : other ≠ label)
    (hp : probe_label w s label = Probe.found i la) : t.labels i = some la := by
  obtain ⟨hsi, _, hlab⟩ := probe_label_label hp
  cases hq : probe_label w s other with
  | spin => rw [emit_hnnnl_spin h hq] at hr; simp at hr
  | vacant k =>
    have hk : s.labels k = none := probe_vacant _ _ _ hq
    have hik : i ≠ k := by rintro rfl; rw [hk] at hsi; simp at hsi
    by_cases hfull : MAX_LABELS ≤ s.number_of_labels
    · rw [emit_hnnnl_full h hq hfull] at hr
      simp only [Option.some.injEq, Prod.mk.injEq] at hr
      rw [← hr.2]; exact hsi
    · rw [emit_hnnnl_fresh h hq (by omega)] at hr
      simp only [Option.some.injEq, Prod.mk.injEq] at hr
      rw [← hr.2]
      show (emit_hnnni (entered w s k other s.instruction_pointer true) h 0).2.labels i = some la
      rw [(emit_hnnni_labels _ _ _).1]
      simp only [entered, Function.update_noteq hik]
      exact hsi
  | found k lb =>
    obtain ⟨hsk, _, hlb⟩ := probe_label_label hq
    have hik : i ≠ k := by
      rintro rfl
      rw [hsk] at hsi
      simp only [Option.some.injEq] at hsi
      rw [hsi, hlab] at hlb
      exact hne hlb.symm
    cases hu : lb.undefined with
    | false =>
      rw [emit_hnnnl_defined h hq hu] at hr
      simp only [Option.some.injEq] at hr
      have := (emit_hnnni_labels s h lb.address).1
      rw [hr] at this
      show t.labels i = some la
      rw [this]; exact hsi
    | true =>
      rw [emit_hnnnl_pending h hq hu] at hr
      simp only [Option.some.injEq] at hr
      have := (emit_hnnni_labels
        { s with labels := Function.update s.labels k
                  (some { lb with address := s.instruction_pointer }) } h lb.address).1
      rw [hr] at this
      show t.labels i = some la
      rw [this]
      simp only [Function.update_noteq hik]
      exact hsi

theorem asm_emit_label_other {w fuel : Nat} {s t : AsmState} {label other : String}
    {e : AsmError} {i : Nat} {la : LabelAddress}
    (hr : asm_emit_label w fuel s other = some (e, t)) (hne : other ≠ label)
    (hp : probe_label w s label = Probe.found i la) : t.labels i = some la := by
  obtain ⟨hsi, _, hlab⟩ := probe_label_label hp
  cases hq : probe_label w s other with
  | spin => rw [asm_emit_label_spin hq] at hr; simp at hr
  | vacant k =>
    have hk : s.labels k = none := probe_vacant _ _ _ hq
    have hik : i ≠ k := by rintro rfl; rw [hk] at hsi; simp at hsi
    by_cases hfull : MAX_LABELS ≤ s.number_of_labels
    · rw [asm_emit_label_full hq hfull] at hr
      simp only [Option.some.injEq, Prod.mk.injEq] at hr
      rw [← hr.2]; exact hsi
    · rw [asm_emit_label_fresh hq (by omega)] at hr
      simp only [Option.some.injEq, Prod.mk.injEq] at hr
      rw [← hr.2]
      simp only [entered, Function.update_noteq hik]
      exact hsi
  | found k lb =>
    obtain ⟨hsk, _, hlb⟩ := probe_label_label hq
    have hik : i ≠ k := by
      rintro rfl
      rw [hsk] at hsi
      simp only [Option.some.injEq] at hsi
      rw [hsi, hlab] at hlb
      exact hne hlb.symm
    cases hu : lb.undefined with
    | false =>
      rw [asm_emit_label_defined hq hu] at hr
      simp only [Option.some.injEq, Prod.mk.injEq] at hr
      rw [← hr.2]; exact hsi
    | true =>
      rw [asm_emit_label_pending hq hu] at hr
      cases hb : backpatch (MIN_ADDRESS + s.instruction_pointer) fuel s.machine_code lb.address with
      | none => simp [hb] at hr
      | some mc =>
        simp only [hb, Option.map_some', Option.some.injEq, Prod.mk.injEq] at hr
        rw [← hr.2]
        simp only [Function.update_noteq hik]
        exact hsi

/-- A call that does not name `label` leaves the entry of `label` as it is. -/
theorem exec_other {w fuel : Nat} {s t : AsmState} {op : Op} {label : String}
    {e : AsmError} {i : Nat} {la : LabelAddress}
    (hr : exec w fuel s op = some (e, t)) (hne : op.label_arg ≠ some label)
    (hp : probe_label w s label = Probe.found i la) :
    probe_label w t label = Probe.found i la := by
  refine table_step_keeps (exec_table hr) hp ?_
  have hsi := (probe_label_label hp).1
  rw [exec_layout] at hr
  rw [← layout_label_arg] at hne
  cases hlay : op.layout with
  | define other =>
    rw [hlay] at hr hne
    exact asm_emit_label_other hr (fun h => hne (by rw [h]; rfl)) hp
  | hnnnl h other =>
    rw [hlay] at hr hne
    exact emit_hnnnl_other hr (fun h => hne (by rw [h]; rfl)) hp
  | plain instruction =>
    rw [hlay] at hr
    simp only [Layout.exec, Option.some.injEq] at hr
    have h3 := (emit_labels s instruction).1
    rw [hr] at h3
    exact (congrFun h3 i).trans hsi
  | hnnni h nnn =>
    rw [hlay] at hr
    simp only [Layout.exec, Option.some.injEq] at hr
    have h3 := (emit_hnnni_labels s h nnn).1
    rw [hr] at h3
    exact (congrFun h3 i).trans hsi
  | hxkk h x kk =>
    rw [hlay] at hr
    simp only [Layout.exec, Option.some.injEq] at hr
    have h3 := (emit_hxkk_labels s h x kk).1
    rw [hr] at h3
    exact (congrFun h3 i).trans hsi
  | hxyn h x y n =>
    rw [hlay] at hr
    simp only [Layout.exec, Option.some.injEq] at hr
    have h3 := (emit_hxyn_labels s h x y n).1
    rw [hr] at h3
    exact (congrFun h3 i).trans hsi
  | data byte =>
    rw [hlay] at hr
    simp only [Layout.exec, Option.some.injEq] at hr
    have h3 := (asm_emit_data_labels s byte).1
    rw [hr] at h3
    exact (congrFun h3 i).trans hsi

/-! ## The forward-jump scenario -/

/-- The first reference to a name, made right after `asm_init`. -/
theorem jp_label_first (w : Nat) (s0 : AsmState) (label : String) :
    ∃ s1, asm_emit_jp_label w (asm_init s0) label = some (ASM_OK, s1) ∧
      s1.instruction_pointer = 2 ∧ s1.machine_code 0 = 0x10 ∧ s1.machine_code 1 = 0x00 ∧
      s1.number_of_undefined_labels = 1 ∧
      probe_label w s1 label =
        Probe.found (string_hash w label % TABLE_OF_LABELS_SIZE)
          { hash := string_hash w label, label := label, address := 0, undefined := true } := by
  have hp0 : probe_label w (asm_init s0) label =
      Probe.vacant (string_hash w label % TABLE_OF_LABELS_SIZE) := probe_label_empty w label rfl
  have hroom : (asm_init s0).number_of_labels < MAX_LABELS := by
    show 0 < MAX_LABELS
    decide
  have hbuf : (entered w (asm_init s0) (string_hash w label % TABLE_OF_LABELS_SIZE) label
      (asm_init s0).instruction_pointer true).instruction_pointer + 1 < BUFFER_SIZE := by
    show 0 + 1 < BUFFER_SIZE
    decide
  have h1 := emit_hnnnl_fresh 0x1 hp0 hroom
  rw [emit_hnnni_room _ 0x1 0 (by omega) (by omega) hbuf] at h1
  refine ⟨_, h1, rfl, ?_, ?_, rfl, ?_⟩
  · simp [entered, asm_init]
    decide
  · simp [entered, asm_init]
    decide
  · exact probe_insert_vacant _ ⟨rfl, rfl⟩ _ _ hp0

/-- C10: after `asm_init`, `asm_emit_jp_label("loop")` returns `ASM_OK`; after
any one two-byte instruction that returns `ASM_OK` and does not itself name
`"loop"`, `asm_emit_label("loop")` returns `ASM_OK`; then the jump at offset 0
is the bytes `0x12 0x04` (address field `ASM_MIN_ADDRESS + 4`, the cursor of the
definition), the two bytes of the filler at offsets 2 and 3 are as the filler
left them, and the cursor is 4. -/
theorem forward_jump_scenario (w fuel fuel2 : Nat) (s0 : AsmState) (hfuel : 0 < fuel2) :
    ∃ s1, asm_emit_jp_label w (asm_init s0) "loop" = some (ASM_OK, s1) ∧
      ∀ (filler : Op) (s2 : AsmState), filler.two_byte = true →
        filler.label_arg ≠ some "loop" → exec w fuel s1 filler = some (ASM_OK, s2) →
        ∃ s3, asm_emit_label w fuel2 s2 "loop" = some (ASM_OK, s3) ∧
          s3.machine_code 0 = 0x12 ∧ s3.machine_code 1 = 0x04 ∧
          word_at s3 0 % 4096 = ASM_MIN_ADDRESS + s2.instruction_pointer ∧
          s3.machine_code 2 = s2.machine_code 2 ∧ s3.machine_code 3 = s2.machine_code 3 ∧
          s3.instruction_pointer = 4 := by
  obtain ⟨s1, h1, hip1, hb0, hb1, hnul, hp1⟩ := jp_label_first w s0 "loop"
  refine ⟨s1, h1, ?_⟩
  intro filler s2 h2b hname hx
  have hout := exec_two_byte_outcome h2b hx (by decide) (by decide)
  obtain ⟨hip2, hframe⟩ : s2.instruction_pointer = s1.instruction_pointer + 2 ∧
      ∀ k, k ≠ s1.instruction_pointer → k ≠ s1.instruction_pointer + 1 →
        s2.machine_code k = s1.machine_code k := by
    have := hout.2.2 (by decide)
    exact ⟨this.2.2.2.1, this.2.2.2.2⟩
  rw [hip1] at hip2 hframe
  have hc0 : s2.machine_code 0 = 0x10 := by rw [hframe 0 (by omega) (by omega), hb0]
  have hc1 : s2.machine_code 1 = 0x00 := by rw [hframe 1 (by omega) (by omega), hb1]
  have hp2 := exec_other hx hname hp1
  obtain ⟨k, rfl⟩ : ∃ k, fuel2 = k + 1 := ⟨fuel2 - 1, by omega⟩
  have hbp : backpatch (MIN_ADDRESS + s2.instruction_pointer) (k + 1) s2.machine_code 0 =
      some (Function.update (Function.update s2.machine_code 0 0x12) 1 0x04) := by
    simp only [backpatch, hc0, hc1, hip2]
    have e0 : ((16 &&& 15) <<< 8 ||| 0) = 0 := by decide
    have e1 : (16 &&& 240 ||| (MIN_ADDRESS + (2 + 2)) >>> 8 &&& 15) = 18 := by decide
    have e2 : ((MIN_ADDRESS + (2 + 2)) &&& 255) = 4 := by decide
    rw [if_neg (not_not.mpr e0), e1, e2]
  have h3 : asm_emit_label w (k + 1) s2 "loop" = _ := asm_emit_label_pending hp2 rfl
  rw [hbp] at h3
  simp only [Option.map_some'] at h3
  refine ⟨_, h3, ?_, ?_, ?_, ?_, ?_, ?_⟩
  · show Function.update (Function.update s2.machine_code 0 0x12) 1 0x04 0 = 0x12
    simp
  · show Function.update (Function.update s2.machine_code 0 0x12) 1 0x04 1 = 0x04
    simp
  · simp [word_at, hip2, ASM_MIN_ADDRESS]
  · show Function.update (Function.update s2.machine_code 0 0x12) 1 0x04 2 = _
    simp
  · show Function.update (Function.update s2.machine_code 0 0x12) 1 0x04 3 = _
    simp
  · exact hip2

/-- The statement of C10 on a fresh process, with a 32-bit hash. -/
theorem forward_jump_scenario_witness :
    ∃ s1, asm_emit_jp_label 32 (asm_init zero_state) "loop" = some (ASM_OK, s1) ∧
      ∀ (filler : Op) (s2 : AsmState), filler.two_byte = true →
        filler.label_arg ≠ some "loop" → exec 32 0 s1 filler = some (ASM_OK, s2) →
        ∃ s3, asm_emit_label 32 1 s2 "loop" = some (ASM_OK, s3) ∧
          s3.machine_code 0 = 0x12 ∧ s3.machine_code 1 = 0x04 ∧
          word_at s3 0 % 4096 = ASM_MIN_ADDRESS + s2.instruction_pointer ∧
          s3.machine_code 2 = s2.machine_code 2 ∧ s3.machine_code 3 = s2.machine_code 3 ∧
          s3.instruction_pointer = 4 :=
  forward_jump_scenario 32 0 1 zero_state (by decide)

/-- The statement of C6 for `asm_emit_cls` right after `asm_init`. -/
theorem two_byte_emission_capacity_witness :
    TwoByteOutcome (asm_init zero_state) ASM_OK (after 32 0 (asm_init zero_state) [Op.cls]) :=
  (two_byte_emission_capacity 32 0 (asm_init zero_state)).2 Op.cls ASM_OK
    (after 32 0 (asm_init zero_state) [Op.cls]) rfl (by rfl) (by decide) (by decide)

/-! ## The cursor stays in range -/

theorem emit_cursor (s : AsmState) (instruction : Nat) :
    s.instruction_pointer ≤ (emit s instruction).2.instruction_pointer ∧
    ((emit s instruction).2.instruction_pointer ≤ BUFFER_SIZE ∨
      (emit s instruction).2.instruction_pointer = s.instruction_pointer) := by
  unfold emit
  split_ifs with h
  · exact ⟨Nat.le_refl _, Or.inr rfl⟩
  · exact ⟨by simp, Or.inl (by simp only; omega)⟩

theorem emit_hnnni_cursor (s : AsmState) (h nnn : Nat) :
    s.instruction_pointer ≤ (emit_hnnni s h nnn).2.instruction_pointer ∧
    ((emit_hnnni s h nnn).2.instruction_pointer ≤ BUFFER_SIZE ∨
      (emit_hnnni s h nnn).2.instruction_pointer = s.instruction_pointer) := by
  unfold emit_hnnni
  split_ifs <;> first | exact emit_cursor _ _ | exact ⟨Nat.le_refl _, Or.inr rfl⟩

theorem emit_hxkk_cursor (s : AsmState) (h x kk : Nat) :
    s.instruction_pointer ≤ (emit_hxkk s h x kk).2.instruction_pointer ∧
    ((emit_hxkk s h x kk).2.instruction_pointer ≤ BUFFER_SIZE ∨
      (emit_hxkk s h x kk).2.instruction_pointer = s.instruction_pointer) := by
  unfold emit_hxkk
  split_ifs <;> first | exact emit_cursor _ _ | exact ⟨Nat.le_refl _, Or.inr rfl⟩

theorem emit_hxyn_cursor (s : AsmState) (h x y n : Nat) :
    s.instruction_pointer ≤ (emit_hxyn s h x y n).2.instruction_pointer ∧
    ((emit_hxyn s h x y n).2.instruction_pointer ≤ BUFFER_SIZE ∨
      (emit_hxyn s h x y n).2.instruction_pointer = s.instruction_pointer) := by
  unfold emit_hxyn
  split_ifs <;> first | exact emit_cursor _ _ | exact ⟨Nat.le_refl _, Or.inr rfl⟩

theorem asm_emit_data_cursor (s : AsmState) (data : Nat) :
    s.instruction_pointer ≤ (asm_emit_data s data).2.instruction_pointer ∧
    ((asm_emit_data s data).2.instruction_pointer ≤ BUFFER_SIZE + 1 ∨
      (asm_emit_data s data).2.instruction_pointer = s.instruction_pointer) := by
  unfold asm_emit_data
  split_ifs with h
  · exact ⟨Nat.le_refl _, Or.inr rfl⟩
  · exact ⟨by simp, Or.inl (by simp only; omega)⟩

theorem emit_hnnnl_cursor {w : Nat} {s t : AsmState} {h : Nat} {label : String} {e : AsmError}
    (hr : emit_hnnnl w s h label = some (e, t)) :
    s.instruction_pointer ≤ t.instruction_pointer ∧
    (t.instruction_pointer ≤ BUFFER_SIZE ∨ t.instruction_pointer = s.instruction_pointer) := by
  cases hp : probe_label w s label with
  | spin => rw [emit_hnnnl_spin h hp] at hr; simp at hr
  | vacant i =>
    by_cases hfull : MAX_LABELS ≤ s.number_of_labels
    · rw [emit_hnnnl_full h hp hfull] at hr
      simp only [Option.some.injEq, Prod.mk.injEq] at hr
      rw [← hr.2]
      exact ⟨Nat.le_refl _, Or.inr rfl⟩
    · rw [emit_hnnnl_fresh h hp (by omega)] at hr
      simp only [Option.some.injEq, Prod.mk.injEq] at hr
      rw [← hr.2]
      exact emit_hnnni_cursor (entered w s i label s.instruction_pointer true) h 0
  | found slot la =>
    cases hu : la.undefined with
    | false =>
      rw [emit_hnnnl_defined h hp hu] at hr
      simp only [Option.some.injEq] at hr
      have := emit_hnnni_cursor s h la.address
      rw [hr] at this
      exact this
    | true =>
      rw [emit_hnnnl_pending h hp hu] at hr
      simp only [Option.some.injEq] at hr
      have := emit_hnnni_cursor
        { s with labels := Function.update s.labels slot
                  (some { la with address := s.instruction_pointer }) } h la.address
      rw [hr] at this
      exact this

theorem asm_emit_label_cursor {w fuel : Nat} {s t : AsmState} {label : String} {e : AsmError}
    (hr : asm_emit_label w fuel s label = some (e, t)) :
    t.instruction_pointer = s.instruction_pointer := by
  cases hp : probe_label w s label with
  | spin => rw [asm_emit_label_spin hp] at hr; simp at hr
  | vacant i =>
    by_cases hfull : MAX_LABELS ≤ s.number_of_labels
    · rw [asm_emit_label_full hp hfull] at hr
      simp only [Option.some.injEq, Prod.mk.injEq] at hr
      rw [← hr.2]
    · rw [asm_emit_label_fresh hp (by omega)] at hr
      simp only [Option.some.injEq, Prod.mk.injEq] at hr
      rw [← hr.2]
      rfl
  | found slot la =>
    cases hu : la.undefined with
    | false =>
      rw [asm_emit_label_defined hp hu] at hr
      simp only [Option.some.injEq, Prod.mk.injEq] at hr
      rw [← hr.2]
    | true =>
      rw [asm_emit_label_pending hp hu] at hr
      cases hb : backpatch (MIN_ADDRESS + s.instruction_pointer) fuel s.machine_code la.address with
      | none => simp [hb] at hr
      | some mc =>
        simp only [hb, Option.map_some', Option.some.injEq, Prod.mk.injEq] at hr
        rw [← hr.2]

/-- No call moves the cursor back, and a call that moves it leaves it at most
one past the end of the buffer. -/
theorem exec_cursor {w fuel : Nat} {s t : AsmState} {op : Op} {e : AsmError}
    (hr : exec w fuel s op = some (e, t)) :
    s.instruction_pointer ≤ t.instruction_pointer ∧
    (t.instruction_pointer ≤ BUFFER_SIZE + 1 ∨ t.instruction_pointer = s.instruction_pointer) := by
  have weaken : ∀ {a b : Nat}, (a ≤ BUFFER_SIZE ∨ a = b) → (a ≤ BUFFER_SIZE + 1 ∨ a = b) :=
    fun h => h.imp (fun h => Nat.le_succ_of_le h) id
  rw [exec_layout] at hr
  cases hlay : op.layout with
  | define label =>
    rw [hlay] at hr
    have := asm_emit_label_cursor hr
    exact ⟨by omega, Or.inr this⟩
  | hnnnl h label =>
    rw [hlay] at hr
    exact ⟨(emit_hnnnl_cursor hr).1, weaken (emit_hnnnl_cursor hr).2⟩
  | plain instruction =>
    rw [hlay] at hr
    simp only [Layout.exec, Option.some.injEq] at hr
    have h3 := emit_cursor s instruction
    rw [hr] at h3
    exact ⟨h3.1, weaken h3.2⟩
  | hnnni h nnn =>
    rw [hlay] at hr
    simp only [Layout.exec, Option.some.injEq] at hr
    have h3 := emit_hnnni_cursor s h nnn
    rw [hr] at h3
    exact ⟨h3.1, weaken h3.2⟩
  | hxkk h x kk =>
    rw [hlay] at hr
    simp only [Layout.exec, Option.some.injEq] at hr
    have h3 := emit_hxkk_cursor s h x kk
    rw [hr] at h3
    exact ⟨h3.1, weaken h3.2⟩
  | hxyn h x y n =>
    rw [hlay] at hr
    simp only [Layout.exec, Option.some.injEq] at hr
    have h3 := emit_hxyn_cursor s h x y n
    rw [hr] at h3
    exact ⟨h3.1, weaken h3.2⟩
  | data byte =>
    rw [hlay] at hr
    simp only [Layout.exec, Option.some.injEq] at hr
    have h3 := asm_emit_data_cursor s byte
    rw [hr] at h3
    exact h3

/-- In every reachable state the cursor is at most `BUFFER_SIZE + 1`: the
natural-number arithmetic on the cursor never leaves the range of
`uint_fast16_t`. -/
theorem reachable_cursor_le {w : Nat} {s : AsmState} (hs : Reachable w s) :
    s.instruction_pointer ≤ BUFFER_SIZE + 1 := by
  obtain ⟨s0, _, h0⟩ := hs
  have hinit : (asm_init s0).instruction_pointer ≤ BUFFER_SIZE + 1 := Nat.zero_le _
  generalize asm_init s0 = a at h0 hinit
  induction h0 with
  | refl => exact hinit
  | tail fuel op e _ hx _ ih =>
    rcases (exec_cursor hx).2 with h | h
    · exact h
    · rw [h]; exact ih

/-! ## The count of undefined labels -/

theorem pending_congr {s t : AsmState} (h : ∀ i, slot_undefined t i = slot_undefined s i) :
    pending t = pending s := by
  unfold pending
  exact Finset.filter_congr (fun i _ => by rw [h i])

/-- One step of the table keeps the undefined-label counter equal to the number
of Undefined entries. -/
theorem pending_table_step {w : Nat} {s t : AsmState} (ht : TableStep w s t)
    (hc : s.number_of_undefined_labels = (pending s).card) :
    t.number_of_undefined_labels = (pending t).card := by
  cases ht with
  | same hl _ hn =>
    have hp : pending t = pending s :=
      pending_congr (fun i => by simp only [slot_undefined, hl])
    rw [hn, hc, hp]
  | insert i e hpe _ hl _ _ hn =>
    have hlt := probe_label_vacant_lt hpe
    have hnone : s.labels i = none := probe_vacant _ _ _ hpe
    have hnot : i ∉ pending s := by simp [pending, slot_undefined, hnone]
    rw [hn, hc]
    cases hu : e.undefined with
    | false =>
      simp only [Bool.false_eq_true, if_false, Nat.add_zero]
      refine congrArg Finset.card (pending_congr (fun j => ?_)).symm
      simp only [slot_undefined, hl]
      by_cases hji : j = i
      · subst hji; simp [hnone, hu]
      · rw [Function.update_noteq hji]
    | true =>
      simp only [if_true]
      have : pending t = insert i (pending s) := by
        ext j
        simp only [pending, Finset.mem_filter, Finset.mem_range, Finset.mem_insert,
          slot_undefined, hl]
        by_cases hji : j = i
        · subst hji; simp [hlt, hu]
        · simp [Function.update_noteq hji, hji]
      rw [this, Finset.card_insert_of_not_mem hnot]
  | modify slot la la2 hp hu hh hlab hl _ hn =>
    have hs := (probe_label_label hp).1
    have hlt := probe_label_found_lt hp
    have hmem : slot ∈ pending s := by simp [pending, slot_undefined, hs, hu, hlt]
    rw [hn, hc]
    cases hu2 : la2.undefined with
    | true =>
      simp only [if_true, Nat.sub_zero]
      refine congrArg Finset.card (pending_congr (fun j => ?_)).symm
      simp only [slot_undefined, hl]
      by_cases hjs : j = slot
      · subst hjs; simp [hs, hu, hu2]
      · rw [Function.update_noteq hjs]
    | false =>
      simp only [Bool.false_eq_true, if_false]
      have : pending t = (pending s).erase slot := by
        ext j
        simp only [pending, Finset.mem_filter, Finset.mem_range, Finset.mem_erase,
          slot_undefined, hl]
        by_cases hjs : j = slot
        · subst hjs; simp [hu2]
        · simp [Function.update_noteq hjs, hjs]
      rw [this, Finset.card_erase_of_mem hmem]

/-- In every reachable state the undefined-label counter is the number of
Undefined entries; in particular it is positive whenever `asm_emit_label`
decrements it. -/
theorem reachable_pending {w : Nat} {s : AsmState} (hs : Reachable w s) :
    s.number_of_undefined_labels = (pending s).card := by
  obtain ⟨s0, _, h0⟩ := hs
  have hinit : (asm_init s0).number_of_undefined_labels = (pending (asm_init s0)).card := by
    simp [asm_init, pending, slot_undefined]
  generalize asm_init s0 = a at h0 hinit
  induction h0 with
  | refl => exact hinit
  | tail fuel op e _ hx _ ih => exact pending_table_step (exec_table hx) ih

/-! ## One instruction short of full -/

theorem repeat_cls_short :
    (repeat_cls 1791 (asm_init zero_state)).instruction_pointer = ASM_BUFFER_SIZE - 2 ∧
    ∀ w, Reachable w (repeat_cls 1791 (asm_init zero_state)) := by
  have h := repeat_cls_spec (asm_init zero_state) 1791 (by decide)
  exact ⟨h.1.trans (by decide), fun w => reachable_steps (zero_state_reachable w) (h.2.2.2.2 w)⟩

theorem asm_emit_cls_short (s : AsmState) (h : s.instruction_pointer = ASM_BUFFER_SIZE - 2) :
    (asm_emit_cls s).1 = ASM_OK ∧ (asm_emit_cls s).1 ≠ ASM_TOO_MANY_INSTRUCTIONS ∧
    (asm_emit_cls s).2.instruction_pointer = ASM_BUFFER_SIZE := by
  have hb : ASM_BUFFER_SIZE = 3584 := rfl
  have hroom : s.instruction_pointer + 1 < BUFFER_SIZE := by
    rw [h, hb, BUFFER_SIZE_eq]; omega
  unfold asm_emit_cls
  rw [emit_room s _ hroom]
  refine ⟨rfl, ?_, ?_⟩
  · intro h; cases h
  show s.instruction_pointer + 2 = ASM_BUFFER_SIZE
  rw [h, hb]

/-- C12, as stated, fails: after `asm_init` and 1791 `asm_emit_cls` the cursor is
`ASM_BUFFER_SIZE - 2`, and one more `asm_emit_cls` returns `ASM_OK`, not
`ASM_TOO_MANY_INSTRUCTIONS`, and moves the cursor to `ASM_BUFFER_SIZE`. -/
theorem last_instruction_is_accepted :
    (repeat_cls 1791 (asm_init zero_state)).instruction_pointer = ASM_BUFFER_SIZE - 2 ∧
    (asm_emit_cls (repeat_cls 1791 (asm_init zero_state))).1 = ASM_OK ∧
    (asm_emit_cls (repeat_cls 1791 (asm_init zero_state))).1 ≠ ASM_TOO_MANY_INSTRUCTIONS ∧
    (asm_emit_cls (repeat_cls 1791 (asm_init zero_state))).2.instruction_pointer
      = ASM_BUFFER_SIZE :=
  ⟨repeat_cls_short.1, asm_emit_cls_short _ repeat_cls_short.1⟩

/-- C12, amended: in a state with room for exactly one more instruction (cursor
= `ASM_BUFFER_SIZE - 2`), a two-byte emission that gets as far as `emit` returns
`ASM_OK` and moves the cursor to `ASM_BUFFER_SIZE`; any two-byte emission after
that one returns `ASM_TOO_MANY_INSTRUCTIONS` and does not move the cursor. -/
theorem buffer_fills_then_rejects (w fuel : Nat) (s t : AsmState) (op : Op) (e : AsmError)
    (hs : s.instruction_pointer = ASM_BUFFER_SIZE - 2) (h2 : op.two_byte = true)
    (hx : exec w fuel s op = some (e, t))
    (hc : e ≠ ASM_TOO_BIG_ARGUMENT) (hl : e ≠ ASM_TOO_MANY_LABELS) :
    e = ASM_OK ∧ t.instruction_pointer = ASM_BUFFER_SIZE ∧
    ∀ (op2 : Op) (e2 : AsmError) (t2 : AsmState), op2.two_byte = true →
      exec w fuel t op2 = some (e2, t2) → e2 ≠ ASM_TOO_BIG_ARGUMENT →
      e2 ≠ ASM_TOO_MANY_LABELS →
      e2 = ASM_TOO_MANY_INSTRUCTIONS ∧ t2.instruction_pointer = t.instruction_pointer := by
  have hb : ASM_BUFFER_SIZE = 3584 := rfl
  obtain ⟨h1, _, h3⟩ := exec_two_byte_outcome h2 hx hc hl
  have hne : e ≠ ASM_TOO_MANY_INSTRUCTIONS := by
    intro h
    have := h1.mp h
    rw [hs, hb] at this
    omega
  obtain ⟨hok, _, _, hip, _⟩ := h3 hne
  have hip2 : t.instruction_pointer = ASM_BUFFER_SIZE := by rw [hip, hs, hb]
  refine ⟨hok, hip2, ?_⟩
  intro op2 e2 t2 h22 hx2 hc2 hl2
  obtain ⟨g1, g2, _⟩ := exec_two_byte_outcome h22 hx2 hc2 hl2
  have he2 : e2 = ASM_TOO_MANY_INSTRUCTIONS := g1.mpr (by rw [hip2, hb]; omega)
  exact ⟨he2, (g2 he2).2⟩

theorem exec_cls_pair (w fuel : Nat) (s : AsmState) :
    exec w fuel s Op.cls = some ((asm_emit_cls s).1, (asm_emit_cls s).2) := rfl

theorem emit_ne_big (s : AsmState) (instruction : Nat) :
    (emit s instruction).1 ≠ ASM_TOO_BIG_ARGUMENT ∧
    (emit s instruction).1 ≠ ASM_TOO_MANY_LABELS := by
  unfold emit
  split_ifs <;> simp

/-- The statement of C12 (amended) for `asm_emit_cls` after `asm_init` and 1791
`asm_emit_cls`. -/
theorem buffer_fills_then_rejects_witness :
    (asm_emit_cls (repeat_cls 1791 (asm_init zero_state))).1 = ASM_OK ∧
    (asm_emit_cls (repeat_cls 1791 (asm_init zero_state))).2.instruction_pointer
      = ASM_BUFFER_SIZE ∧
    ∀ (op2 : Op) (e2 : AsmError) (t2 : AsmState), op2.two_byte = true →
      exec 32 0 (asm_emit_cls (repeat_cls 1791 (asm_init zero_state))).2 op2 = some (e2, t2) →
      e2 ≠ ASM_TOO_BIG_ARGUMENT → e2 ≠ ASM_TOO_MANY_LABELS →
      e2 = ASM_TOO_MANY_INSTRUCTIONS ∧
      t2.instruction_pointer =
        (asm_emit_cls (repeat_cls 1791 (asm_init zero_state))).2.instruction_pointer :=
  buffer_fills_then_rejects 32 0 (repeat_cls 1791 (asm_init zero_state))
    (asm_emit_cls (repeat_cls 1791 (asm_init zero_state))).2 Op.cls
    (asm_emit_cls (repeat_cls 1791 (asm_init zero_state))).1
    repeat_cls_short.1 rfl (exec_cls_pair 32 0 _) (emit_ne_big _ _).1 (emit_ne_big _ _).2

/-! ## Entries stay, Defined entries stay as they are -/

theorem table_step_entry {w : Nat} {s t : AsmState} (ht : TableStep w s t) {i : Nat}
    {la : LabelAddress} (hl : s.labels i = some la) :
    ∃ lb, t.labels i = some lb ∧ lb.label = la.label ∧ (la.undefined = false → lb = la) := by
  cases ht with
  | same h _ _ => exact ⟨la, by rw [h]; exact hl, rfl, fun _ => rfl⟩
  | insert k e hpe _ h _ _ _ =>
    have hk : s.labels k = none := probe_vacant _ _ _ hpe
    have hik : i ≠ k := by rintro rfl; rw [hk] at hl; simp at hl
    exact ⟨la, by rw [h, Function.update_noteq hik]; exact hl, rfl, fun _ => rfl⟩
  | modify slot la1 la2 hp hu _ hlab h _ _ =>
    have hs := (probe_label_label hp).1
    by_cases his : i = slot
    · subst his
      rw [hs] at hl
      simp only [Option.some.injEq] at hl
      subst hl
      refine ⟨la2, by rw [h, Function.update_same], hlab, fun hf => ?_⟩
      rw [hu] at hf
      simp at hf
    · exact ⟨la, by rw [h, Function.update_noteq his]; exact hl, rfl, fun _ => rfl⟩

theorem steps_entry {w : Nat} {s t : AsmState} (hs : Steps w s t) {i : Nat}
    {la : LabelAddress} (hl : s.labels i = some la) :
    ∃ lb, t.labels i = some lb ∧ lb.label = la.label ∧ (la.undefined = false → lb = la) := by
  induction hs with
  | refl => exact ⟨la, hl, rfl, fun _ => rfl⟩
  | tail fuel op e _ hx _ ih =>
    obtain ⟨lb, h1, h2, h3⟩ := ih
    obtain ⟨lc, g1, g2, g3⟩ := table_step_entry (exec_table hx) h1
    refine ⟨lc, g1, g2.trans h2, fun hf => ?_⟩
    have hb := h3 hf
    subst hb
    exact g3 hf

theorem table_inv_unique {w : Nat} {s : AsmState} (hi : TableInv w s) {i j : Nat}
    {la lb : LabelAddress} (h1 : s.labels i = some la) (h2 : s.labels j = some lb)
    (h : la.label = lb.label) : i = j := by
  have g1 := hi.found i la h1
  have g2 := hi.found j lb h2
  rw [h, g2] at g1
  simp only [Probe.found.injEq] at g1
  exact g1.1.symm

/-- The states of an entry, in the states reached by calls that stay inside the
arrays: in such a state no two slots hold the same name; and through any later
run of public calls that stay inside the arrays every entry stays in its slot
under its name, an entry
that is Defined stays exactly as it is (same address, still Defined), so a name
Defined with address `a` remains Defined with address `a`. -/
theorem label_state_invariant (w : Nat) (s u : AsmState) (hs : Reachable w s)
    (hrun : Steps w s u) :
    (∀ i j la lb, s.labels i = some la → s.labels j = some lb → la.label = lb.label → i = j) ∧
    (∀ i la, s.labels i = some la →
      ∃ lb, u.labels i = some lb ∧ lb.label = la.label ∧ (la.undefined = false → lb = la)) ∧
    (∀ name a, DefinedAt w s name a → DefinedAt w u name a) :=
  ⟨fun _ _ _ _ h1 h2 h => table_inv_unique (reachable_table_inv hs) h1 h2 h,
    fun _ _ hl => steps_entry hrun hl,
    fun _ _ hd => defined_at_steps hd hrun⟩

/-- The two counters, in the states reached by calls that stay inside the
arrays (calls that return errors included): the value of
`asm_get_number_of_undefined_labels` is the number of table entries in the
Undefined state, and the label count is the number of occupied slots. -/
theorem undefined_count_invariant (w : Nat) (s : AsmState) (hs : Reachable w s) :
    asm_get_number_of_undefined_labels s = (pending s).card ∧
    s.number_of_labels = (occupied s).card :=
  ⟨reachable_pending hs, (reachable_table_inv hs).count⟩

theorem emit_hnnni_ne_second (s : AsmState) (h nnn : Nat) :
    (emit_hnnni s h nnn).1 ≠ ASM_SECOND_DEFINITION := by
  unfold emit_hnnni emit
  split_ifs <;> simp

theorem emit_hnnnl_ne_second {w : Nat} {s t : AsmState} {h : Nat} {label : String}
    {e : AsmError} (hr : emit_hnnnl w s h label = some (e, t)) :
    e ≠ ASM_SECOND_DEFINITION := by
  cases hp : probe_label w s label with
  | spin => rw [emit_hnnnl_spin h hp] at hr; simp at hr
  | vacant i =>
    by_cases hfull : MAX_LABELS ≤ s.number_of_labels
    · rw [emit_hnnnl_full h hp hfull] at hr
      simp only [Option.some.injEq, Prod.mk.injEq] at hr
      rw [← hr.1]; decide
    · rw [emit_hnnnl_fresh h hp (by omega)] at hr
      simp only [Option.some.injEq, Prod.mk.injEq] at hr
      rw [← hr.1]
      exact emit_hnnni_ne_second _ _ _
  | found slot la =>
    cases hu : la.undefined with
    | false =>
      rw [emit_hnnnl_defined h hp hu] at hr
      simp only [Option.some.injEq] at hr
      have := emit_hnnni_ne_second s h la.address
      rw [hr] at this
      exact this
    | true =>
      rw [emit_hnnnl_pending h hp hu] at hr
      simp only [Option.some.injEq] at hr
      have := emit_hnnni_ne_second
        { s with labels := Function.update s.labels slot
                  (some { la with address := s.instruction_pointer }) } h la.address
      rw [hr] at this
      exact this

theorem asm_emit_label_second {w fuel : Nat} {s t : AsmState} {label : String}
    (hr : asm_emit_label w fuel s label = some (ASM_SECOND_DEFINITION, t)) :
    ∃ a, DefinedAt w s label a := by
  cases hp : probe_label w s label with
  | spin => rw [asm_emit_label_spin hp] at hr; simp at hr
  | vacant i =>
    by_cases hfull : MAX_LABELS ≤ s.number_of_labels
    · rw [asm_emit_label_full hp hfull] at hr
      simp at hr
    · rw [asm_emit_label_fresh hp (by omega)] at hr
      simp at hr
  | found slot la =>
    cases hu : la.undefined with
    | false => exact ⟨la.address, slot, la, hp, hu, rfl⟩
    | true =>
      rw [asm_emit_label_pending hp hu] at hr
      cases hb : backpatch (MIN_ADDRESS + s.instruction_pointer) fuel s.machine_code la.address with
      | none => simp [hb] at hr
      | some mc => simp [hb] at hr

/-- C20: when `lookup_label` returns no entry for a name, `add_label` for that
name does not return `ASM_SECOND_DEFINITION`; no label-taking emitter returns
`ASM_SECOND_DEFINITION`; and `asm_emit_label` returns it only for a name that
has a Defined entry.  This holds in every state. -/
theorem duplicate_branch_unreachable (w fuel : Nat) (s : AsmState) (label : String) :
    (lookup_label w s label = some none →
      ∀ (address : Nat) (undefined : Bool) (t : AsmState),
        add_label w s { hash := 0, label := label, address := address, undefined := undefined }
          ≠ some (ASM_SECOND_DEFINITION, t)) ∧
    (∀ p ∈ label_emitters w, ∀ t, p.2.1 s label ≠ some (ASM_SECOND_DEFINITION, t)) ∧
    (∀ t, asm_emit_label w fuel s label = some (ASM_SECOND_DEFINITION, t) →
      ∃ a, DefinedAt w s label a) := by
  refine ⟨?_, ?_, fun t h => asm_emit_label_second h⟩
  · intro hl address undefined t
    cases hp : probe_label w s label with
    | spin => simp [lookup_label, hp] at hl
    | found i la => simp [lookup_label, hp] at hl
    | vacant i =>
      by_cases hfull : MAX_LABELS ≤ s.number_of_labels
      · rw [add_label_full _ hfull]; simp
      · have hp2 : probe_label w s
            (LabelAddress.mk 0 label address undefined).label = Probe.vacant i := hp
        rw [add_label_vacant _ hp2 (by omega)]; simp
  · intro p hmem t h
    simp only [label_emitters, List.mem_cons, List.mem_singleton, List.not_mem_nil,
      or_false] at hmem
    rcases hmem with rfl | rfl | rfl | rfl <;> exact emit_hnnnl_ne_second h rfl

/-- The same for the state after `asm_init` and `asm_emit_label("a")`, and the
run of one `asm_emit_cls` after it. -/
theorem label_state_invariant_witness :
    (∀ i j la lb, (after 32 1 (asm_init zero_state) [Op.emit_label "a"]).labels i = some la →
      (after 32 1 (asm_init zero_state) [Op.emit_label "a"]).labels j = some lb →
      la.label = lb.label → i = j) ∧
    (∀ i la, (after 32 1 (asm_init zero_state) [Op.emit_label "a"]).labels i = some la →
      ∃ lb, (after 32 1 (asm_init zero_state) [Op.emit_label "a", Op.cls]).labels i = some lb ∧
        lb.label = la.label ∧ (la.undefined = false → lb = la)) ∧
    (∀ name a, DefinedAt 32 (after 32 1 (asm_init zero_state) [Op.emit_label "a"]) name a →
      DefinedAt 32 (after 32 1 (asm_init zero_state) [Op.emit_label "a", Op.cls]) name a) :=
  label_state_invariant 32 (after 32 1 (asm_init zero_state) [Op.emit_label "a"])
    (after 32 1 (asm_init zero_state) [Op.emit_label "a", Op.cls])
    (reachable_steps (zero_state_reachable 32)
      (Steps.tail 1 (Op.emit_label "a") ASM_OK (Steps.refl _) (by rfl) (by rfl)))
    (Steps.tail 0 Op.cls ASM_OK (Steps.refl _) (by rfl) (by rfl))

/-- The same for the state after `asm_init` and `asm_emit_jp_label("a")`. -/
theorem undefined_count_invariant_witness :
    asm_get_number_of_undefined_labels (after 32 1 (asm_init zero_state) [Op.jp_label "a"]) =
      (pending (after 32 1 (asm_init zero_state) [Op.jp_label "a"])).card ∧
    (after 32 1 (asm_init zero_state) [Op.jp_label "a"]).number_of_labels =
      (occupied (after 32 1 (asm_init zero_state) [Op.jp_label "a"])).card :=
  undefined_count_invariant 32 (after 32 1 (asm_init zero_state) [Op.jp_label "a"])
    (reachable_steps (zero_state_reachable 32)
      (Steps.tail 1 (Op.jp_label "a") ASM_OK (Steps.refl _) (by rfl) (by rfl)))

/-! ## The cursor only grows -/

theorem advance_refl (n : Nat) (s : AsmState) {e : AsmError} (he : e ≠ ASM_OK) :
    Advance n s e s :=
  ⟨fun h => absurd h he, fun _ => rfl, fun _ _ => rfl⟩

theorem advance_congr {n : Nat} {s s2 t t2 : AsmState} {e : AsmError}
    (h : Advance n s e t) (hm : s2.machine_code = s.machine_code)
    (hi : s2.instruction_pointer = s.instruction_pointer)
    (hm2 : t2.machine_code = t.machine_code)
    (hi2 : t2.instruction_pointer = t.instruction_pointer) : Advance n s2 e t2 := by
  unfold Advance at h ⊢
  rw [hm, hi, hm2, hi2]
  exact h

theorem emit_advance (s : AsmState) (instruction : Nat) :
    Advance 2 s (emit s instruction).1 (emit s instruction).2 := by
  unfold emit
  split_ifs with h
  · exact advance_refl 2 s (by simp)
  · refine ⟨fun _ => rfl, fun h => absurd rfl h, fun k hk => ?_⟩
    show Function.update (Function.update s.machine_code _ _) _ _ k = _
    rw [Function.update_noteq (by omega), Function.update_noteq (by omega)]

theorem emit_hnnni_advance (s : AsmState) (h nnn : Nat) :
    Advance 2 s (emit_hnnni s h nnn).1 (emit_hnnni s h nnn).2 := by
  unfold emit_hnnni
  split_ifs <;> first | exact emit_advance _ _ | exact advance_refl 2 s (by simp)

theorem emit_hxkk_advance (s : AsmState) (h x kk : Nat) :
    Advance 2 s (emit_hxkk s h x kk).1 (emit_hxkk s h x kk).2 := by
  unfold emit_hxkk
  split_ifs <;> first | exact emit_advance _ _ | exact advance_refl 2 s (by simp)

theorem emit_hxyn_advance (s : AsmState) (h x y n : Nat) :
    Advance 2 s (emit_hxyn s h x y n).1 (emit_hxyn s h x y n).2 := by
  unfold emit_hxyn
  split_ifs <;> first | exact emit_advance _ _ | exact advance_refl 2 s (by simp)

theorem asm_emit_data_advance (s : AsmState) (data : Nat) :
    Advance 1 s (asm_emit_data s data).1 (asm_emit_data s data).2 := by
  unfold asm_emit_data
  split_ifs with h
  · exact advance_refl 1 s (by simp)
  · refine ⟨fun _ => rfl, fun h => absurd rfl h, fun k hk => ?_⟩
    show Function.update s.machine_code _ _ k = _
    rw [Function.update_noteq (by omega)]

theorem emit_hnnnl_advance {w : Nat} {s t : AsmState} {h : Nat} {label : String} {e : AsmError}
    (hr : emit_hnnnl w s h label = some (e, t)) : Advance 2 s e t := by
  cases hp : probe_label w s label with
  | spin => rw [emit_hnnnl_spin h hp] at hr; simp at hr
  | vacant i =>
    by_cases hfull : MAX_LABELS ≤ s.number_of_labels
    · rw [emit_hnnnl_full h hp hfull] at hr
      simp only [Option.some.injEq, Prod.mk.injEq] at hr
      rw [← hr.1, ← hr.2]
      exact advance_refl 2 s (by decide)
    · rw [emit_hnnnl_fresh h hp (by omega)] at hr
      simp only [Option.some.injEq, Prod.mk.injEq] at hr
      rw [← hr.1, ← hr.2]
      exact advance_congr
        (emit_hnnni_advance (entered w s i label s.instruction_pointer true) h 0)
        rfl rfl rfl rfl
  | found slot la =>
    cases hu : la.undefined with
    | false =>
      rw [emit_hnnnl_defined h hp hu] at hr
      simp only [Option.some.injEq] at hr
      have := emit_hnnni_advance s h la.address
      rw [hr] at this
      exact this
    | true =>
      rw [emit_hnnnl_pending h hp hu] at hr
      simp only [Option.some.injEq] at hr
      have := emit_hnnni_advance
        { s with labels := Function.update s.labels slot
                  (some { la with address := s.instruction_pointer }) } h la.address
      rw [hr] at this
      exact advance_congr this rfl rfl rfl rfl

theorem layout_data (op : Op) (byte : Nat) (h : op.layout = Layout.data byte) :
    op = Op.emit_data byte := by
  cases op <;> simp [Op.layout] at h
  rw [h]

theorem layout_define (op : Op) (label : String) (h : op.layout = Layout.define label) :
    op = Op.emit_label label := by
  cases op <;> simp [Op.layout] at h
  rw [h]

/-- The cursor only grows: a public call that stays inside the arrays does not
move the cursor back.  It moves by exactly 2 when an instruction emitter returns
`ASM_OK`, by exactly 1 when `asm_emit_data` returns `ASM_OK` (its byte is then
stored below `BUFFER_SIZE`), and not at all for `asm_emit_label` and for every
call that returns an error; and no emitter other than `asm_emit_label` changes a
byte below the old cursor. -/
theorem cursor_monotone (w fuel : Nat) (s t : AsmState) (op : Op) (e : AsmError)
    (hx : exec w fuel s op = some (e, t)) (hin : exec_within w fuel s op = true) :
    s.instruction_pointer ≤ t.instruction_pointer ∧
    (∀ data, op = Op.emit_data data → e = ASM_OK → s.instruction_pointer < BUFFER_SIZE) ∧
    (op.two_byte = true → e = ASM_OK → t.instruction_pointer = s.instruction_pointer + 2) ∧
    (∀ data, op = Op.emit_data data → e = ASM_OK →
      t.instruction_pointer = s.instruction_pointer + 1) ∧
    (∀ label, op = Op.emit_label label → t.instruction_pointer = s.instruction_pointer) ∧
    (e ≠ ASM_OK → t.instruction_pointer = s.instruction_pointer) ∧
    ((∀ label, op ≠ Op.emit_label label) →
      ∀ k, k < s.instruction_pointer → t.machine_code k = s.machine_code k) := by
  have two : Advance 2 s e t → op.two_byte = true →
      s.instruction_pointer ≤ t.instruction_pointer ∧
      (∀ data, op = Op.emit_data data → e = ASM_OK → s.instruction_pointer < BUFFER_SIZE) ∧
      (op.two_byte = true → e = ASM_OK → t.instruction_pointer = s.instruction_pointer + 2) ∧
      (∀ data, op = Op.emit_data data → e = ASM_OK →
        t.instruction_pointer = s.instruction_pointer + 1) ∧
      (∀ label, op = Op.emit_label label → t.instruction_pointer = s.instruction_pointer) ∧
      (e ≠ ASM_OK → t.instruction_pointer = s.instruction_pointer) ∧
      ((∀ label, op ≠ Op.emit_label label) →
        ∀ k, k < s.instruction_pointer → t.machine_code k = s.machine_code k) := by
    intro ha h2
    refine ⟨?_, ?_, fun _ => ha.1, ?_, ?_, ha.2.1, fun _ => ha.2.2⟩
    · by_cases he : e = ASM_OK
      · rw [ha.1 he]; omega
      · rw [ha.2.1 he]
    · intro data hd; rw [hd] at h2; simp [Op.two_byte] at h2
    · intro data hd; rw [hd] at h2; simp [Op.two_byte] at h2
    · intro label hd; rw [hd] at h2; simp [Op.two_byte] at h2
  have h2b := layout_two_byte op
  rw [exec_layout] at hx
  cases hlay : op.layout with
  | define label =>
    rw [hlay] at hx
    have hip := asm_emit_label_cursor hx
    have hop := layout_define op label hlay
    subst hop
    refine ⟨by omega, fun d h => by simp at h, fun h => by simp [Op.two_byte] at h,
      fun d h => by simp at h, fun _ _ => hip, fun _ => hip, fun h => absurd rfl (h label)⟩
  | data byte =>
    rw [hlay] at hx
    simp only [Layout.exec, Option.some.injEq] at hx
    have ha := asm_emit_data_advance s byte
    rw [hx] at ha
    have hop := layout_data op byte hlay
    subst hop
    simp only [exec_within, decide_eq_true_eq] at hin
    refine ⟨?_, ?_, fun h => by simp [Op.two_byte] at h, fun _ _ => ha.1, fun l h => by simp at h,
      ha.2.1, fun _ => ha.2.2⟩
    · by_cases he : e = ASM_OK
      · rw [ha.1 he]; omega
      · rw [ha.2.1 he]
    · intro _ _ he
      rcases hin with hgt | hlt
      · have hbig : asm_emit_data s byte = (ASM_TOO_MANY_INSTRUCTIONS, s) := by
          simp [asm_emit_data, hgt]
        rw [hbig] at hx
        simp only [Prod.mk.injEq] at hx
        rw [he] at hx
        exact absurd hx.1 (by decide)
      · exact hlt
  | hnnnl h label =>
    rw [hlay] at hx h2b
    exact two (emit_hnnnl_advance hx) h2b.symm
  | plain instruction =>
    rw [hlay] at hx h2b
    simp only [Layout.exec, Option.some.injEq] at hx
    have ha := emit_advance s instruction
    rw [hx] at ha
    exact two ha h2b.symm
  | hnnni h nnn =>
    rw [hlay] at hx h2b
    simp only [Layout.exec, Option.some.injEq] at hx
    have ha := emit_hnnni_advance s h nnn
    rw [hx] at ha
    exact two ha h2b.symm
  | hxkk h x kk =>
    rw [hlay] at hx h2b
    simp only [Layout.exec, Option.some.injEq] at hx
    have ha := emit_hxkk_advance s h x kk
    rw [hx] at ha
    exact two ha h2b.symm
  | hxyn h x y n =>
    rw [hlay] at hx h2b
    simp only [Layout.exec, Option.some.injEq] at hx
    have ha := emit_hxyn_advance s h x y n
    rw [hx] at ha
    exact two ha h2b.symm

/-- The same for `asm_emit_cls` right after `asm_init`. -/
theorem cursor_monotone_witness :
    (asm_init zero_state).instruction_pointer ≤
      (asm_emit_cls (asm_init zero_state)).2.instruction_pointer ∧
    (∀ data, Op.cls = Op.emit_data data → (asm_emit_cls (asm_init zero_state)).1 = ASM_OK →
      (asm_init zero_state).instruction_pointer < BUFFER_SIZE) ∧
    (Op.cls.two_byte = true → (asm_emit_cls (asm_init zero_state)).1 = ASM_OK →
      (asm_emit_cls (asm_init zero_state)).2.instruction_pointer =
        (asm_init zero_state).instruction_pointer + 2) ∧
    (∀ data, Op.cls = Op.emit_data data → (asm_emit_cls (asm_init zero_state)).1 = ASM_OK →
      (asm_emit_cls (asm_init zero_state)).2.instruction_pointer =
        (asm_init zero_state).instruction_pointer + 1) ∧
    (∀ label, Op.cls = Op.emit_label label →
      (asm_emit_cls (asm_init zero_state)).2.instruction_pointer =
        (asm_init zero_state).instruction_pointer) ∧
    ((asm_emit_cls (asm_init zero_state)).1 ≠ ASM_OK →
      (asm_emit_cls (asm_init zero_state)).2.instruction_pointer =
        (asm_init zero_state).instruction_pointer) ∧
    ((∀ label, Op.cls ≠ Op.emit_label label) →
      ∀ k, k < (asm_init zero_state).instruction_pointer →
        (asm_emit_cls (asm_init zero_state)).2.machine_code k =
          (asm_init zero_state).machine_code k) :=
  cursor_monotone 32 0 (asm_init zero_state) (asm_emit_cls (asm_init zero_state)).2 Op.cls
    (asm_emit_cls (asm_init zero_state)).1 (exec_cls_pair 32 0 _) rfl

/-! ## Bit layout -/

theorem land_255 (x : Nat) : x &&& 255 = x % 256 :=
  Nat.and_pow_two_sub_one_eq_mod x 8

theorem land_15 (x : Nat) : x &&& 15 = x % 16 :=
  Nat.and_pow_two_sub_one_eq_mod x 4

theorem pack_hnnn (h nnn : Nat) (hn : nnn < 4096) : (h <<< 12) ||| nnn = h * 4096 + nnn := by
  have := Nat.mul_add_lt_is_or (show nnn < 2 ^ 12 from hn) h
  rw [Nat.shiftLeft_eq, Nat.mul_comm h (2 ^ 12), ← this]

theorem pack_hxkk (h x kk : Nat) (hx : x < 16) (hkk : kk < 256) :
    ((h <<< 12) ||| (x <<< 8)) ||| kk = h * 4096 + x * 256 + kk := by
  have h1 : x <<< 8 < 4096 := by rw [Nat.shiftLeft_eq]; omega
  rw [pack_hnnn h _ h1, Nat.shiftLeft_eq]
  have h2 : h * 4096 + x * 2 ^ 8 = 2 ^ 8 * (h * 16 + x) := by omega
  rw [h2, ← Nat.mul_add_lt_is_or (show kk < 2 ^ 8 from hkk)]
  omega

theorem pack_hxyn (h x y n : Nat) (hx : x < 16) (hy : y < 16) (hn : n < 16) :
    (((h <<< 12) ||| (x <<< 8)) ||| (y <<< 4)) ||| n = h * 4096 + x * 256 + y * 16 + n := by
  have h1 : y <<< 4 < 256 := by rw [Nat.shiftLeft_eq]; omega
  rw [pack_hxkk h x _ hx h1, Nat.shiftLeft_eq]
  have h2 : h * 4096 + x * 256 + y * 2 ^ 4 = 2 ^ 4 * (h * 256 + x * 16 + y) := by omega
  rw [h2, ← Nat.mul_add_lt_is_or (show n < 2 ^ 4 from hn)]
  omega

theorem check_passes (argument size : Nat) (h : argument < 2 ^ size) :
    CHECK_ARGUMENT_SIZE argument size = false := by
  unfold CHECK_ARGUMENT_SIZE
  rw [Nat.shiftLeft_eq, Nat.one_mul]
  simp
  omega

/-- The two bytes of the word `word`, high byte first, appended at the cursor. -/
theorem emit_word (s : AsmState) (word : Nat) (hroom : s.instruction_pointer + 2 ≤ ASM_BUFFER_SIZE) :
    emit s word =
      (ASM_OK,
        { s with
          machine_code :=
            Function.update
              (Function.update s.machine_code s.instruction_pointer (word / 256 % 256))
              (s.instruction_pointer + 1) (word % 256)
          instruction_pointer := s.instruction_pointer + 2 }) := by
  have hb : ASM_BUFFER_SIZE = 3584 := rfl
  rw [emit_room s word (by rw [BUFFER_SIZE_eq]; omega)]
  have e1 : (word >>> 8) &&& 0xff = word / 256 % 256 := by
    rw [land_255, Nat.shiftRight_eq_div_pow]
  have e2 : word &&& 0xff = word % 256 := land_255 word
  rw [e1, e2]

/-- C16: with operands below their field limits and room for two bytes,
`emit_hnnni(h, nnn)` appends `16*h + nnn/256`, `nnn mod 256`;
`emit_hxkk(h, x, kk)` appends `16*h + x`, `kk`; `emit_hxyn(h, x, y, n)` appends
`16*h + x`, `16*y + n`; each returns `ASM_OK` and moves the cursor by 2.  With
room for one byte, `asm_emit_data(d)` appends `d mod 256`, whatever `d` is,
returns `ASM_OK` and moves the cursor by 1. -/
theorem bit_layout (s : AsmState) (h x y n kk nnn d : Nat)
    (hh : h < 16) (hx : x < 16) (hy : y < 16) (hn : n < 16) (hkk : kk < 256)
    (hnnn : nnn < 4096) :
    (s.instruction_pointer + 2 ≤ ASM_BUFFER_SIZE →
      emit_hnnni s h nnn =
        (ASM_OK,
          { s with
            machine_code :=
              Function.update
                (Function.update s.machine_code s.instruction_pointer (16 * h + nnn / 256))
                (s.instruction_pointer + 1) (nnn % 256)
            instruction_pointer := s.instruction_pointer + 2 }) ∧
      emit_hxkk s h x kk =
        (ASM_OK,
          { s with
            machine_code :=
              Function.update
                (Function.update s.machine_code s.instruction_pointer (16 * h + x))
                (s.instruction_pointer + 1) kk
            instruction_pointer := s.instruction_pointer + 2 }) ∧
      emit_hxyn s h x y n =
        (ASM_OK,
          { s with
            machine_code :=
              Function.update
                (Function.update s.machine_code s.instruction_pointer (16 * h + x))
                (s.instruction_pointer + 1) (16 * y + n)
            instruction_pointer := s.instruction_pointer + 2 })) ∧
    (s.instruction_pointer + 1 ≤ ASM_BUFFER_SIZE →
      asm_emit_data s d =
        (ASM_OK,
          { s with
            machine_code := Function.update s.machine_code s.instruction_pointer (d % 256)
            instruction_pointer := s.instruction_pointer + 1 })) := by
  have ch := check_passes h 4 hh
  have cx := check_passes x 4 hx
  have cy := check_passes y 4 hy
  have cn := check_passes n 4 hn
  have ckk := check_passes kk 8 hkk
  have cnnn := check_passes nnn 12 hnnn
  refine ⟨fun hroom => ⟨?_, ?_, ?_⟩, fun hroom => ?_⟩
  · simp only [emit_hnnni, ch, cnnn, Bool.false_eq_true, if_false]
    rw [pack_hnnn h nnn hnnn, emit_word s _ hroom]
    have e1 : (h * 4096 + nnn) / 256 % 256 = 16 * h + nnn / 256 := by omega
    have e2 : (h * 4096 + nnn) % 256 = nnn % 256 := by omega
    rw [e1, e2]
  · simp only [emit_hxkk, ch, cx, ckk, Bool.false_eq_true, if_false]
    rw [pack_hxkk h x kk hx hkk, emit_word s _ hroom]
    have e1 : (h * 4096 + x * 256 + kk) / 256 % 256 = 16 * h + x := by omega
    have e2 : (h * 4096 + x * 256 + kk) % 256 = kk := by omega
    rw [e1, e2]
  · simp only [emit_hxyn, ch, cx, cy, cn, Bool.false_eq_true, if_false]
    rw [pack_hxyn h x y n hx hy hn, emit_word s _ hroom]
    have e1 : (h * 4096 + x * 256 + y * 16 + n) / 256 % 256 = 16 * h + x := by omega
    have e2 : (h * 4096 + x * 256 + y * 16 + n) % 256 = 16 * y + n := by omega
    rw [e1, e2]
  · have hb : ASM_BUFFER_SIZE = 3584 := rfl
    have hnot : ¬ BUFFER_SIZE < s.instruction_pointer := by rw [BUFFER_SIZE_eq]; omega
    unfold asm_emit_data
    rw [if_neg hnot, land_255]

/-- The statement of C16 right after `asm_init`, for `h = 0xA`, `nnn = 0x234`,
`x = 3`, `kk = 0x45`, `y = 6`, `n = 7` and the out-of-range data word `0x1FF`. -/
theorem bit_layout_witness :
    ((asm_init zero_state).instruction_pointer + 2 ≤ ASM_BUFFER_SIZE →
      emit_hnnni (asm_init zero_state) 0xA 0x234 =
        (ASM_OK,
          { asm_init zero_state with
            machine_code :=
              Function.update
                (Function.update (asm_init zero_state).machine_code
                  (asm_init zero_state).instruction_pointer (16 * 0xA + 0x234 / 256))
                ((asm_init zero_state).instruction_pointer + 1) (0x234 % 256)
            instruction_pointer := (asm_init zero_state).instruction_pointer + 2 }) ∧
      emit_hxkk (asm_init zero_state) 0xA 3 0x45 =
        (ASM_OK,
          { asm_init zero_state with
            machine_code :=
              Function.update
                (Function.update (asm_init zero_state).machine_code
                  (asm_init zero_state).instruction_pointer (16 * 0xA + 3))
                ((asm_init zero_state).instruction_pointer + 1) 0x45
            instruction_pointer := (asm_init zero_state).instruction_pointer + 2 }) ∧
      emit_hxyn (asm_init zero_state) 0xA 3 6 7 =
        (ASM_OK,
          { asm_init zero_state with
            machine_code :=
              Function.update
                (Function.update (asm_init zero_state).machine_code
                  (asm_init zero_state).instruction_pointer (16 * 0xA + 3))
                ((asm_init zero_state).instruction_pointer + 1) (16 * 6 + 7)
            instruction_pointer := (asm_init zero_state).instruction_pointer + 2 })) ∧
    ((asm_init zero_state).instruction_pointer + 1 ≤ ASM_BUFFER_SIZE →
      asm_emit_data (asm_init zero_state) 0x1FF =
        (ASM_OK,
          { asm_init zero_state with
            machine_code :=
              Function.update (asm_init zero_state).machine_code
                (asm_init zero_state).instruction_pointer (0x1FF % 256)
            instruction_pointer := (asm_init zero_state).instruction_pointer + 1 })) :=
  bit_layout (asm_init zero_state) 0xA 3 6 7 0x45 0x234 0x1FF (by decide) (by decide)
    (by decide) (by decide) (by decide) (by decide)

/-! ## The number of probes -/

theorem layout_refers (op : Op) (name : String) (h2 : op.two_byte = true)
    (hn : op.label_arg = some name) : ∃ h, op.layout = Layout.hnnnl h name := by
  cases op <;> simp [Op.two_byte, Op.label_arg] at h2 hn <;> subst hn
  · exact ⟨0x1, rfl⟩
  · exact ⟨0x2, rfl⟩
  · exact ⟨0xA, rfl⟩
  · exact ⟨0xB, rfl⟩

theorem emit_hnnnl_keeps_pending {w : Nat} {s t : AsmState} {h : Nat} {label : String}
    {e : AsmError} (hr : emit_hnnnl w s h label = some (e, t)) (hp : PendingAt w s label) :
    PendingAt w t label ∧ t.number_of_undefined_labels = s.number_of_undefined_labels := by
  obtain ⟨slot, la, hp, hu⟩ := hp
  obtain ⟨hs, _, _⟩ := probe_label_label hp
  rw [emit_hnnnl_pending h hp hu] at hr
  simp only [Option.some.injEq] at hr
  obtain ⟨l1, _, l3⟩ := emit_hnnni_labels
    { s with labels := Function.update s.labels slot
              (some { la with address := s.instruction_pointer }) } h la.address
  rw [hr] at l1 l3
  have l1b : t.labels = Function.update s.labels slot
      (some { la with address := s.instruction_pointer }) := l1
  refine ⟨⟨slot, { la with address := s.instruction_pointer }, ?_, hu⟩, l3⟩
  simp only [probe_label, l1b]
  rw [probe_modify { la with address := s.instruction_pointer } hs rfl rfl]
  simp only [probe_label] at hp
  simp [hp]

theorem emit_hnnnl_defined_count {w : Nat} {s t : AsmState} {h : Nat} {label : String}
    {e : AsmError} {a : Nat} (hr : emit_hnnnl w s h label = some (e, t))
    (hd : DefinedAt w s label a) :
    t.number_of_undefined_labels = s.number_of_undefined_labels := by
  obtain ⟨slot, la, hp, hu, _⟩ := hd
  rw [emit_hnnnl_defined h hp hu] at hr
  simp only [Option.some.injEq] at hr
  have := (emit_hnnni_labels s h la.address).2.2
  rw [hr] at this
  exact this

theorem pending_not_defined {w : Nat} {s : AsmState} {label : String} {a : Nat}
    (hp : PendingAt w s label) (hd : DefinedAt w s label a) : False := by
  obtain ⟨slot, la, h1, hu⟩ := hp
  obtain ⟨slot2, lb, h2, hu2, _⟩ := hd
  rw [h1] at h2
  simp only [Probe.found.injEq] at h2
  rw [h2.2, hu2] at hu
  simp at hu

theorem pending_other {w fuel : Nat} {s t : AsmState} {op : Op} {label : String}
    {e : AsmError} (hr : exec w fuel s op = some (e, t)) (hne : op.label_arg ≠ some label)
    (hp : PendingAt w s label) : PendingAt w t label := by
  obtain ⟨slot, la, hp, hu⟩ := hp
  exact ⟨slot, la, exec_other hr hne hp, hu⟩

/-- A call that names no label, or a Defined one, leaves the undefined-label
counter as it is. -/
theorem exec_count_same {w fuel : Nat} {s t : AsmState} {op : Op} {e : AsmError}
    (hr : exec w fuel s op = some (e, t))
    (hq : op.label_arg = none ∨ ∃ other a, op.label_arg = some other ∧ DefinedAt w s other a) :
    t.number_of_undefined_labels = s.number_of_undefined_labels := by
  rw [exec_layout] at hr
  rw [← layout_label_arg] at hq
  cases hlay : op.layout with
  | define label =>
    rw [hlay] at hr hq
    rcases hq with hq | ⟨other, a, hq, hd⟩
    · simp [Layout.label_arg] at hq
    · simp only [Layout.label_arg, Option.some.injEq] at hq
      subst hq
      obtain ⟨slot, la, hp, hu, _⟩ := hd
      simp only [Layout.exec, asm_emit_label_defined hp hu, Option.some.injEq,
        Prod.mk.injEq] at hr
      rw [← hr.2]
  | hnnnl h label =>
    rw [hlay] at hr hq
    rcases hq with hq | ⟨other, a, hq, hd⟩
    · simp [Layout.label_arg] at hq
    · simp only [Layout.label_arg, Option.some.injEq] at hq
      subst hq
      exact emit_hnnnl_defined_count hr hd
  | plain instruction =>
    rw [hlay] at hr
    simp only [Layout.exec, Option.some.injEq] at hr
    have h3 := (emit_labels s instruction).2.2
    rw [hr] at h3
    exact h3
  | hnnni h nnn =>
    rw [hlay] at hr
    simp only [Layout.exec, Option.some.injEq] at hr
    have h3 := (emit_hnnni_labels s h nnn).2.2
    rw [hr] at h3
    exact h3
  | hxkk h x kk =>
    rw [hlay] at hr
    simp only [Layout.exec, Option.some.injEq] at hr
    have h3 := (emit_hxkk_labels s h x kk).2.2
    rw [hr] at h3
    exact h3
  | hxyn h x y n =>
    rw [hlay] at hr
    simp only [Layout.exec, Option.some.injEq] at hr
    have h3 := (emit_hxyn_labels s h x y n).2.2
    rw [hr] at h3
    exact h3
  | data byte =>
    rw [hlay] at hr
    simp only [Layout.exec, Option.some.injEq] at hr
    have h3 := (asm_emit_data_labels s byte).2.2
    rw [hr] at h3
    exact h3

theorem quiet_keeps {w : Nat} {name : String} {s t : AsmState} (hq : Quiet w name s t)
    (hp : PendingAt w s name) :
    PendingAt w t name ∧ t.number_of_undefined_labels = s.number_of_undefined_labels := by
  induction hq with
  | refl => exact ⟨hp, rfl⟩
  | tail fuel op e _ hx hk _ ih =>
    obtain ⟨hpt, hnt⟩ := ih
    rcases hk with ⟨h2, hn⟩ | hnone | ⟨other, a, hn, hd⟩
    · obtain ⟨h, hlay⟩ := layout_refers op name h2 hn
      rw [exec_layout, hlay] at hx
      obtain ⟨g1, g2⟩ := emit_hnnnl_keeps_pending hx hpt
      exact ⟨g1, g2.trans hnt⟩
    · exact ⟨pending_other hx (by rw [hnone]; simp) hpt,
        (exec_count_same hx (Or.inl hnone)).trans hnt⟩
    · have hne : op.label_arg ≠ some name := by
        rw [hn]
        intro h
        simp only [Option.some.injEq] at h
        subst h
        exact pending_not_defined hpt hd
      exact ⟨pending_other hx hne hpt,
        (exec_count_same hx (Or.inr ⟨other, a, hn, hd⟩)).trans hnt⟩

theorem first_reference {w : Nat} {s t : AsmState} {h : Nat} {name : String}
    (hi : TableInv w s) (hnew : name ∉ table_names s)
    (hr : emit_hnnnl w s h name = some (ASM_OK, t)) :
    PendingAt w t name ∧ t.number_of_undefined_labels = s.number_of_undefined_labels + 1 := by
  obtain ⟨i, hp⟩ := table_inv_vacant hi hnew
  by_cases hfull : MAX_LABELS ≤ s.number_of_labels
  · rw [emit_hnnnl_full h hp hfull] at hr
    simp at hr
  · rw [emit_hnnnl_fresh h hp (by omega)] at hr
    simp only [Option.some.injEq, Prod.mk.injEq] at hr
    obtain ⟨l1, _, l3⟩ := emit_hnnni_labels (entered w s i name s.instruction_pointer true) h 0
    rw [← hr.2]
    refine ⟨⟨i, { hash := string_hash w name, label := name,
                  address := s.instruction_pointer, undefined := true }, ?_, rfl⟩, ?_⟩
    · have l1b : (emit_hnnni (entered w s i name s.instruction_pointer true) h 0).2.labels =
          Function.update s.labels i
            (some { hash := string_hash w name, label := name,
                    address := s.instruction_pointer, undefined := true }) := l1
      simp only [probe_label, l1b]
      exact probe_insert_vacant
        { hash := string_hash w name, label := name,
          address := s.instruction_pointer, undefined := true } ⟨rfl, rfl⟩ _ _ hp
    · show (emit_hnnni (entered w s i name s.instruction_pointer true) h 0).2.number_of_undefined_labels
        + 1 = _
      rw [l3]
      rfl

theorem define_pending_count {w fuel : Nat} {s t : AsmState} {name : String} {e : AsmError}
    (hp : PendingAt w s name) (hr : asm_emit_label w fuel s name = some (e, t)) :
    e = ASM_OK ∧ t.number_of_undefined_labels = s.number_of_undefined_labels - 1 := by
  obtain ⟨slot, la, hp, hu⟩ := hp
  rw [asm_emit_label_pending hp hu] at hr
  cases hb : backpatch (MIN_ADDRESS + s.instruction_pointer) fuel s.machine_code la.address with
  | none => simp [hb] at hr
  | some mc =>
    simp only [hb, Option.map_some', Option.some.injEq, Prod.mk.injEq] at hr
    rw [← hr.1, ← hr.2]
    exact ⟨rfl, rfl⟩

/-- The counter across references and definition, as long as the calls stay
inside the arrays: in a state reached by such calls, for a name without entry,
the first successful reference by a label-taking emitter raises the value of
`asm_get_number_of_undefined_labels` by one; through any run of further
references to the name and of calls that name no label or a Defined one it stays
one higher; and the definition of the name, when its walk stays inside the
buffer, brings it back to the value it had before the first reference. -/
theorem undefined_count_returns (w fuel fuel2 : Nat) (s s1 s2 s3 : AsmState) (op : Op)
    (name : String) (hs : Reachable w s) (hnew : name ∉ table_names s)
    (h2 : op.two_byte = true) (hn : op.label_arg = some name)
    (hfirst : exec w fuel s op = some (ASM_OK, s1)) (hmid : Quiet w name s1 s2)
    (hdef : exec_within w fuel2 s2 (Op.emit_label name) = true ∧
      asm_emit_label w fuel2 s2 name = some (ASM_OK, s3)) :
    asm_get_number_of_undefined_labels s1 = asm_get_number_of_undefined_labels s + 1 ∧
    (∀ t, Quiet w name s1 t →
      asm_get_number_of_undefined_labels t = asm_get_number_of_undefined_labels s + 1) ∧
    asm_get_number_of_undefined_labels s3 = asm_get_number_of_undefined_labels s := by
  obtain ⟨h, hlay⟩ := layout_refers op name h2 hn
  rw [exec_layout, hlay] at hfirst
  obtain ⟨hp1, hc1⟩ := first_reference (reachable_table_inv hs) hnew hfirst
  obtain ⟨hp2, hc2⟩ := quiet_keeps hmid hp1
  obtain ⟨_, hc3⟩ := define_pending_count hp2 hdef.2
  refine ⟨hc1, fun t ht => (quiet_keeps ht hp1).2.trans hc1, ?_⟩
  show s3.number_of_undefined_labels = s.number_of_undefined_labels
  rw [hc3, hc2, hc1]
  omega

/-- The same for `asm_init`, `asm_emit_jp_label("a")`,
`asm_emit_cls`, `asm_emit_call_label("a")`, `asm_emit_label("a")`. -/
theorem undefined_count_returns_witness :
    asm_get_number_of_undefined_labels (after 32 1 (asm_init zero_state) [Op.jp_label "a"]) =
      asm_get_number_of_undefined_labels (asm_init zero_state) + 1 ∧
    (∀ t, Quiet 32 "a" (after 32 1 (asm_init zero_state) [Op.jp_label "a"]) t →
      asm_get_number_of_undefined_labels t =
        asm_get_number_of_undefined_labels (asm_init zero_state) + 1) ∧
    asm_get_number_of_undefined_labels
        (after 32 1 (asm_init zero_state)
          [Op.jp_label "a", Op.cls, Op.call_label "a", Op.emit_label "a"]) =
      asm_get_number_of_undefined_labels (asm_init zero_state) :=
  undefined_count_returns 32 1 1 (asm_init zero_state)
    (after 32 1 (asm_init zero_state) [Op.jp_label "a"])
    (after 32 1 (asm_init zero_state) [Op.jp_label "a", Op.cls, Op.call_label "a"])
    (after 32 1 (asm_init zero_state)
      [Op.jp_label "a", Op.cls, Op.call_label "a", Op.emit_label "a"])
    (Op.jp_label "a") "a" (zero_state_reachable 32) (by simp [table_names_init]) rfl rfl
    (by rfl)
    (Quiet.tail 1 (Op.call_label "a") ASM_OK
      (Quiet.tail 1 Op.cls ASM_OK (Quiet.refl _) (by rfl) (Or.inr (Or.inl rfl)) (by rfl))
      (by rfl) (Or.inl ⟨rfl, rfl⟩) (by rfl))
    ⟨by rfl, by rfl⟩

/-! ## A definition after a failed reference -/

theorem repeat_cls_bytes (s : AsmState) :
    ∀ k, s.instruction_pointer + 2 * k ≤ BUFFER_SIZE →
      ∀ j, s.instruction_pointer + 2 * k ≤ j →
        (repeat_cls k s).machine_code j = s.machine_code j := by
  intro k
  induction k with
  | zero => intro _ j _; rfl
  | succ k ih =>
    intro hk j hj
    have h1 := (repeat_cls_spec s k (by omega)).1
    have hroom : (repeat_cls k s).instruction_pointer + 1 < BUFFER_SIZE := by omega
    simp only [repeat_cls, asm_emit_cls, emit_room (repeat_cls k s) 0x00e0 hroom]
    rw [Function.update_noteq (by omega), Function.update_noteq (by omega)]
    exact ih (by omega) j (by omega)

theorem repeat_data_bytes (s : AsmState) :
    ∀ k, s.instruction_pointer + k ≤ BUFFER_SIZE + 1 →
      ∀ j, s.instruction_pointer + k ≤ j →
        (repeat_data k s).machine_code j = s.machine_code j := by
  intro k
  induction k with
  | zero => intro _ j _; rfl
  | succ k ih =>
    intro hk j hj
    have h1 := (repeat_data_spec s k (by omega)).1
    have hnot : ¬ BUFFER_SIZE < (repeat_data k s).instruction_pointer := by omega
    simp only [repeat_data, asm_emit_data, hnot, if_false]
    rw [Function.update_noteq (by omega)]
    exact ih (by omega) j (by omega)

/-- The state after `asm_init` on a fresh process, 1791 `asm_emit_cls` and one
`asm_emit_data(0)`: one byte is left. -/
theorem one_byte_left :
    (repeat_data 1 (repeat_cls 1791 (asm_init zero_state))).instruction_pointer = 3583 ∧
    (repeat_data 1 (repeat_cls 1791 (asm_init zero_state))).labels = (fun _ => none) ∧
    (repeat_data 1 (repeat_cls 1791 (asm_init zero_state))).number_of_labels = 0 ∧
    (repeat_data 1 (repeat_cls 1791 (asm_init zero_state))).machine_code 3583 = 0 ∧
    (repeat_data 1 (repeat_cls 1791 (asm_init zero_state))).machine_code 3584 = 0 ∧
    ∀ w, Reachable w (repeat_data 1 (repeat_cls 1791 (asm_init zero_state))) := by
  have hc := repeat_cls_spec (asm_init zero_state) 1791 (by decide)
  have hcip : (repeat_cls 1791 (asm_init zero_state)).instruction_pointer = 3582 :=
    hc.1.trans (by decide)
  have hd := repeat_data_spec (repeat_cls 1791 (asm_init zero_state)) 1
    (by rw [hcip, BUFFER_SIZE_eq]; omega)
  have hcb := repeat_cls_bytes (asm_init zero_state) 1791 (by decide)
  have hdb := repeat_data_bytes (repeat_cls 1791 (asm_init zero_state)) 1
    (by rw [hcip, BUFFER_SIZE_eq]; omega)
  refine ⟨by rw [hd.1, hcip], hd.2.1.trans hc.2.1, hd.2.2.1.trans hc.2.2.1, ?_, ?_, fun w => ?_⟩
  · rw [hdb 3583 (by rw [hcip]), hcb 3583 (by decide)]
    rfl
  · rw [hdb 3584 (by rw [hcip]; omega), hcb 3584 (by decide)]
    rfl
  · exact reachable_steps (reachable_steps (zero_state_reachable w) (hc.2.2.2.2 w))
      (hd.2.2.2.2 w)

theorem define_after_failed_reference (w : Nat) (s : AsmState) (name : String)
    (hip : s.instruction_pointer = 3583) (hlab : s.labels = fun _ => none)
    (hnol : s.number_of_labels = 0) (hb0 : s.machine_code 3583 = 0)
    (hb1 : s.machine_code 3584 = 0) :
    ∃ t u, asm_emit_jp_label w s name = some (ASM_TOO_MANY_INSTRUCTIONS, t) ∧
      t.instruction_pointer = 3583 ∧ t.machine_code 3583 = 0 ∧ t.machine_code 3584 = 0 ∧
      asm_emit_label w 1 t name = some (ASM_OK, u) ∧
      u.instruction_pointer = 3583 ∧ u.machine_code 3583 = 0x0F ∧ u.machine_code 3584 = 0xFF := by
  have hp := probe_label_empty w name hlab
  have h1 := emit_hnnnl_fresh_full 1 (by omega) hp (by rw [hnol, MAX_LABELS_eq]; omega)
    (by rw [hip, BUFFER_SIZE_eq])
  have hpt : probe_label w
      { entered w s (string_hash w name % TABLE_OF_LABELS_SIZE) name s.instruction_pointer true with
        number_of_undefined_labels := s.number_of_undefined_labels + 1 } name =
      Probe.found (string_hash w name % TABLE_OF_LABELS_SIZE)
        { hash := string_hash w name, label := name,
          address := s.instruction_pointer, undefined := true } :=
    probe_insert_vacant
      { hash := string_hash w name, label := name,
        address := s.instruction_pointer, undefined := true } ⟨rfl, rfl⟩ _ _ hp
  have h2 : asm_emit_label w 1 _ name = _ := asm_emit_label_pending hpt rfl
  have hbp : backpatch (MIN_ADDRESS + s.instruction_pointer) 1 s.machine_code
      s.instruction_pointer =
      some (Function.update (Function.update s.machine_code 3583 0x0F) 3584 0xFF) := by
    rw [hip]
    simp only [backpatch, hb0, hb1]
    have e0 : ((0 &&& 15) <<< 8 ||| 0) = 0 := by decide
    have e1 : (0 &&& 240 ||| (MIN_ADDRESS + 3583) >>> 8 &&& 15) = 15 := by decide
    have e2 : ((MIN_ADDRESS + 3583) &&& 255) = 255 := by decide
    rw [if_neg (not_not.mpr e0), e1, e2]
  have hbp2 : backpatch
      (MIN_ADDRESS +
        ({ entered w s (string_hash w name % TABLE_OF_LABELS_SIZE) name s.instruction_pointer true with
          number_of_undefined_labels := s.number_of_undefined_labels + 1 } :
            AsmState).instruction_pointer) 1
      ({ entered w s (string_hash w name % TABLE_OF_LABELS_SIZE) name s.instruction_pointer true with
          number_of_undefined_labels := s.number_of_undefined_labels + 1 } :
            AsmState).machine_code
      (LabelAddress.mk (string_hash w name) name s.instruction_pointer true).address =
      some (Function.update (Function.update s.machine_code 3583 0x0F) 3584 0xFF) := hbp
  rw [hbp2] at h2
  simp only [Option.map_some'] at h2
  refine ⟨_, _, h1, hip, hb0, hb1, h2, hip, ?_, ?_⟩
  · show Function.update (Function.update s.machine_code 3583 0x0F) 3584 0xFF 3583 = 0x0F
    simp
  · show Function.update (Function.update s.machine_code 3583 0x0F) 3584 0xFF 3584 = 0xFF
    simp

/-- C13: after a failed reference `asm_emit_label` writes at and beyond the
cursor.  After `asm_init`, 1791 `asm_emit_cls` and one `asm_emit_data(0)` the
cursor is 3583; `asm_emit_jp_label("a")` returns `ASM_TOO_MANY_INSTRUCTIONS`
and leaves an entry whose chain head is the cursor; `asm_emit_label("a")` then
returns `ASM_OK`, keeps the cursor at 3583, and changes the byte at offset 3583
from 0 to `0x0F` and the byte at offset 3584, which is outside the buffer, from
0 to `0xFF`. -/
theorem define_writes_at_cursor (w : Nat) :
    Reachable w (repeat_data 1 (repeat_cls 1791 (asm_init zero_state))) ∧
    (repeat_data 1 (repeat_cls 1791 (asm_init zero_state))).instruction_pointer = 3583 ∧
    ∃ t u, asm_emit_jp_label w (repeat_data 1 (repeat_cls 1791 (asm_init zero_state))) "a" =
        some (ASM_TOO_MANY_INSTRUCTIONS, t) ∧
      t.instruction_pointer = 3583 ∧ t.machine_code 3583 = 0 ∧ t.machine_code 3584 = 0 ∧
      asm_emit_label w 1 t "a" = some (ASM_OK, u) ∧
      u.instruction_pointer = 3583 ∧ u.machine_code 3583 = 0x0F ∧ u.machine_code 3584 = 0xFF :=
  ⟨one_byte_left.2.2.2.2.2 w, one_byte_left.1,
    define_after_failed_reference w _ "a" one_byte_left.1 one_byte_left.2.1
      one_byte_left.2.2.1 one_byte_left.2.2.2.1 one_byte_left.2.2.2.2.1⟩

/-! ## Chains through the buffer -/

theorem link_at_congr {mc2 mc : Nat → Nat} {i : Nat} (h0 : mc2 i = mc i)
    (h1 : mc2 (i + 1) = mc (i + 1)) : link_at mc2 i = link_at mc i := by
  unfold link_at
  rw [h0, h1]

theorem on_chain_trans {mc : Nat → Nat} {a b c : Nat} (h1 : OnChain mc a b)
    (h2 : OnChain mc b c) : OnChain mc a c := by
  induction h2 with
  | first => exact h1
  | next _ hne ih => exact OnChain.next ih hne

/-- A chain is its head followed by the chain from the head's link. -/
theorem on_chain_head {mc : Nat → Nat} {h i : Nat} (hc : OnChain mc h i) :
    i = h ∨ (link_at mc h ≠ 0 ∧ OnChain mc (link_at mc h) i) := by
  induction hc with
  | first => exact Or.inl rfl
  | next hprev hne ih =>
    rename_i k
    rcases ih with rfl | ⟨h0, hk⟩
    · exact Or.inr ⟨hne, OnChain.first⟩
    · exact Or.inr ⟨h0, OnChain.next hk hne⟩

theorem agree_on_chain {mc2 mc : Nat → Nat} {h : Nat} (ha : AgreeOn mc2 mc h) {i : Nat}
    (hc : OnChain mc h i) : OnChain mc2 h i := by
  induction hc with
  | first => exact OnChain.first
  | next hprev hne ih =>
    rename_i k
    have hl := link_at_congr (ha k hprev).1 (ha k hprev).2
    rw [← hl]
    exact OnChain.next ih (by rw [hl]; exact hne)

theorem agree_on_chain_back {mc2 mc : Nat → Nat} {h : Nat} (ha : AgreeOn mc2 mc h) {i : Nat}
    (hc : OnChain mc2 h i) : OnChain mc h i := by
  induction hc with
  | first => exact OnChain.first
  | next hprev hne ih =>
    rename_i k
    have hl := link_at_congr (ha k ih).1 (ha k ih).2
    rw [hl]
    exact OnChain.next ih (by rw [← hl]; exact hne)

theorem valid_from_agree {mc2 mc : Nat → Nat} {c c2 h : Nat} (hv : ValidFrom mc c h)
    (ha : AgreeOn mc2 mc h) (hc : c ≤ c2) : ValidFrom mc2 c2 h := by
  intro i hi
  have hi0 := agree_on_chain_back ha hi
  have hl := link_at_congr (ha i hi0).1 (ha i hi0).2
  obtain ⟨h1, h2⟩ := hv i hi0
  rw [hl]
  exact ⟨by omega, h2⟩

theorem apart_agree {mc2 mc : Nat → Nat} {h1 h2 : Nat} (hap : Apart mc h1 h2)
    (ha1 : AgreeOn mc2 mc h1) (ha2 : AgreeOn mc2 mc h2) : Apart mc2 h1 h2 :=
  fun i j hi hj => hap i j (agree_on_chain_back ha1 hi) (agree_on_chain_back ha2 hj)

/-- The offsets of a valid chain do not exceed its head. -/
theorem valid_from_le {mc : Nat → Nat} {c h : Nat} (hv : ValidFrom mc c h) {i : Nat}
    (hc : OnChain mc h i) : i ≤ h := by
  induction hc with
  | first => exact Nat.le_refl _
  | next hprev hne ih =>
    rename_i k
    rcases (hv k hprev).2 with h0 | h0
    · exact absurd h0 hne
    · omega

theorem valid_from_tail {mc : Nat → Nat} {c h : Nat} (hv : ValidFrom mc c h)
    (hne : link_at mc h ≠ 0) : ValidFrom mc c (link_at mc h) :=
  fun i hi => hv i (on_chain_trans (OnChain.next OnChain.first hne) hi)

theorem backpatch_step (address fuel : Nat) (mc : Nat → Nat) (i : Nat) :
    backpatch address (fuel + 1) mc i =
      if link_at mc i ≠ 0 then backpatch address fuel (patch address mc i) (link_at mc i)
      else some (patch address mc i) := rfl

theorem patch_other (address : Nat) (mc : Nat → Nat) (i k : Nat) (h0 : k ≠ i)
    (h1 : k ≠ i + 1) : patch address mc i k = mc k := by
  unfold patch
  rw [Function.update_noteq h1, Function.update_noteq h0]

theorem patch_first (address : Nat) (mc : Nat → Nat) (i : Nat) :
    patch address mc i i = (mc i &&& 0xf0) ||| ((address >>> 8) &&& 0x0f) := by
  unfold patch
  rw [Function.update_noteq (by omega), Function.update_same]

theorem patch_second (address : Nat) (mc : Nat → Nat) (i : Nat) :
    patch address mc i (i + 1) = address &&& 0xff := by
  unfold patch
  rw [Function.update_same]

/-- The walk over a valid chain: with fuel above the head it ends; it changes no
byte outside the instructions of the chain, and in each of them it keeps the
opcode nibble and stores the low 12 bits of `address`. -/
theorem backpatch_valid (address : Nat) :
    ∀ (fuel : Nat) (mc : Nat → Nat) (c h : Nat), ValidFrom mc c h → h < fuel →
      ∃ mc2, backpatch address fuel mc h = some mc2 ∧
        (∀ k, (∀ i, OnChain mc h i → k ≠ i ∧ k ≠ i + 1) → mc2 k = mc k) ∧
        (∀ i, OnChain mc h i →
          mc2 i = (mc i &&& 0xf0) ||| ((address >>> 8) &&& 0x0f) ∧
          mc2 (i + 1) = address &&& 0xff) := by
  intro fuel
  induction fuel with
  | zero => intro mc c h _ hf; omega
  | succ fuel ih =>
    intro mc c h hv hf
    rw [backpatch_step]
    by_cases hj : link_at mc h = 0
    · rw [if_neg (not_not.mpr hj)]
      refine ⟨_, rfl, ?_, ?_⟩
      · intro k hk
        obtain ⟨k0, k1⟩ := hk h OnChain.first
        exact patch_other address mc h k k0 k1
      · intro i hi
        rcases on_chain_head hi with rfl | ⟨hne, _⟩
        · exact ⟨patch_first address mc i, patch_second address mc i⟩
        · exact absurd hj hne
    · rw [if_pos hj]
      have hgap : link_at mc h + 1 < h := by
        rcases (hv h OnChain.first).2 with h0 | h0
        · exact absurd h0 hj
        · exact h0
      have hvt := valid_from_tail hv hj
      have hag : AgreeOn (patch address mc h) mc (link_at mc h) := by
        intro i hi
        have := valid_from_le hvt hi
        exact ⟨patch_other address mc h i (by omega) (by omega),
          patch_other address mc h (i + 1) (by omega) (by omega)⟩
      have hv2 : ValidFrom (patch address mc h) c (link_at mc h) :=
        valid_from_agree hvt hag (Nat.le_refl c)
      obtain ⟨mc2, hb, hframe, hval⟩ := ih (patch address mc h) c (link_at mc h) hv2 (by omega)
      refine ⟨mc2, hb, ?_, ?_⟩
      · intro k hk
        obtain ⟨k0, k1⟩ := hk h OnChain.first
        rw [hframe k (fun i hi => hk i
          (on_chain_trans (OnChain.next OnChain.first hj) (agree_on_chain_back hag hi)))]
        exact patch_other address mc h k k0 k1
      · intro i hi
        rcases on_chain_head hi with rfl | ⟨_, htail⟩
        · have out : ∀ k, (k = i ∨ k = i + 1) →
              ∀ m, OnChain (patch address mc i) (link_at mc i) m → k ≠ m ∧ k ≠ m + 1 := by
            intro k hk m hm
            have := valid_from_le hvt (agree_on_chain_back hag hm)
            omega
          rw [hframe i (out i (Or.inl rfl)), hframe (i + 1) (out (i + 1) (Or.inr rfl))]
          exact ⟨patch_first address mc i, patch_second address mc i⟩
        · have hi2 := agree_on_chain hag htail
          obtain ⟨e0, e1⟩ := hval i hi2
          rw [e0, e1, (hag i htail).1]
          exact ⟨rfl, rfl⟩

/-! ## The invariant of the chains -/

theorem backpatch_mono (address : Nat) :
    ∀ (fuel k : Nat) (mc r : Nat → Nat) (h : Nat), backpatch address fuel mc h = some r →
      backpatch address (fuel + k) mc h = some r := by
  intro fuel
  induction fuel with
  | zero => intro k mc r h hb; simp [backpatch] at hb
  | succ fuel ih =>
    intro k mc r h hb
    rw [show fuel + 1 + k = (fuel + k) + 1 by omega, backpatch_step]
    rw [backpatch_step] at hb
    by_cases hj : link_at mc h = 0
    · rw [if_neg (not_not.mpr hj)] at hb ⊢
      exact hb
    · rw [if_pos hj] at hb ⊢
      exact ih k _ r _ hb

/-- Whatever the fuel, a walk over a valid chain that ends has changed no byte
outside the instructions of the chain, and in each of them has kept the opcode
nibble and stored the low 12 bits of `address`. -/
theorem backpatch_result {address fuel : Nat} {mc r : Nat → Nat} {c h : Nat}
    (hv : ValidFrom mc c h) (hb : backpatch address fuel mc h = some r) :
    (∀ k, (∀ i, OnChain mc h i → k ≠ i ∧ k ≠ i + 1) → r k = mc k) ∧
    (∀ i, OnChain mc h i →
      r i = (mc i &&& 0xf0) ||| ((address >>> 8) &&& 0x0f) ∧ r (i + 1) = address &&& 0xff) := by
  obtain ⟨mc2, h2, hframe, hval⟩ := backpatch_valid address (fuel + (h + 1)) mc c h hv (by omega)
  rw [backpatch_mono address fuel (h + 1) mc r h hb] at h2
  simp only [Option.some.injEq] at h2
  subst h2
  exact ⟨hframe, hval⟩

theorem chain_inv_old {s t : AsmState} (hi : ChainInv s)
    (hip : s.instruction_pointer ≤ t.instruction_pointer)
    (hold : ∀ slot h, Head t slot h → Head s slot h ∧ AgreeOn t.machine_code s.machine_code h) :
    ChainInv t where
  valid := fun slot h hh =>
    valid_from_agree (hi.valid slot h (hold slot h hh).1) (hold slot h hh).2 hip
  apart := fun slot1 h1 slot2 h2 hne hh1 hh2 =>
    apart_agree (hi.apart slot1 h1 slot2 h2 hne (hold slot1 h1 hh1).1 (hold slot2 h2 hh2).1)
      (hold slot1 h1 hh1).2 (hold slot2 h2 hh2).2

theorem agree_below {s : AsmState} {mc2 : Nat → Nat} {h : Nat}
    (hv : ValidFrom s.machine_code s.instruction_pointer h)
    (hb : ∀ k, k < s.instruction_pointer → mc2 k = s.machine_code k) :
    AgreeOn mc2 s.machine_code h :=
  fun i hi => ⟨hb i (by have := (hv i hi).1; omega), hb (i + 1) (hv i hi).1⟩

/-- A call that keeps the table and the bytes below the cursor keeps the
invariant of the chains. -/
theorem chain_inv_frame {s t : AsmState} (hi : ChainInv s) (hl : t.labels = s.labels)
    (hip : s.instruction_pointer ≤ t.instruction_pointer)
    (hb : ∀ k, k < s.instruction_pointer → t.machine_code k = s.machine_code k) :
    ChainInv t := by
  refine chain_inv_old hi hip (fun slot h hh => ?_)
  have hs : Head s slot h := by
    obtain ⟨la, h1, h2, h3⟩ := hh
    exact ⟨la, by rw [← hl]; exact h1, h2, h3⟩
  exact ⟨hs, agree_below (hi.valid slot h hs) hb⟩

/-- A new reference at the cursor, whose link is 0 or the former head of the
entry it belongs to, keeps the invariant of the chains. -/
theorem chain_inv_new {s t : AsmState} (hi : ChainInv s) (f prev : Nat)
    (hip : t.instruction_pointer = s.instruction_pointer + 2)
    (hb : ∀ k, k < s.instruction_pointer → t.machine_code k = s.machine_code k)
    (hlink : link_at t.machine_code s.instruction_pointer = prev)
    (hprev : prev = 0 ∨ Head s f prev)
    (hheads : ∀ slot h, Head t slot h →
      (slot = f ∧ h = s.instruction_pointer) ∨ (slot ≠ f ∧ Head s slot h)) :
    ChainInv t := by
  have hold : ∀ slot h, Head s slot h →
      AgreeOn t.machine_code s.machine_code h ∧
      ValidFrom t.machine_code t.instruction_pointer h := by
    intro slot h hh
    have ha := agree_below (hi.valid slot h hh) hb
    exact ⟨ha, valid_from_agree (hi.valid slot h hh) ha (by omega)⟩
  have hnew : ∀ i, OnChain t.machine_code s.instruction_pointer i →
      i = s.instruction_pointer ∨
        (Head s f prev ∧ OnChain s.machine_code prev i) := by
    intro i hc
    rcases on_chain_head hc with h0 | ⟨hne, htail⟩
    · exact Or.inl h0
    · rw [hlink] at hne htail
      rcases hprev with h0 | hh
      · exact absurd h0 hne
      · exact Or.inr ⟨hh, agree_on_chain_back (hold f prev hh).1 htail⟩
  have hvnew : ValidFrom t.machine_code t.instruction_pointer s.instruction_pointer := by
    intro i hc
    rcases hnew i hc with rfl | ⟨hh, hci⟩
    · refine ⟨by omega, ?_⟩
      rw [hlink]
      rcases hprev with h0 | hh
      · exact Or.inl h0
      · exact Or.inr (hi.valid f prev hh prev OnChain.first).1
    · exact (hold f prev hh).2 i (agree_on_chain (hold f prev hh).1 hci)
  have hapnew : ∀ slot h, slot ≠ f → Head s slot h →
      ∀ i j, OnChain t.machine_code s.instruction_pointer i → OnChain t.machine_code h j →
        i + 1 < j ∨ j + 1 < i := by
    intro slot h hne hh i j hci hcj
    have hcj0 := agree_on_chain_back (hold slot h hh).1 hcj
    rcases hnew i hci with rfl | ⟨hhf, hci0⟩
    · exact Or.inr (hi.valid slot h hh j hcj0).1
    · exact hi.apart f prev slot h (Ne.symm hne) hhf hh i j hci0 hcj0
  refine ⟨?_, ?_⟩
  · intro slot h hh
    rcases hheads slot h hh with ⟨_, rfl⟩ | ⟨_, hs⟩
    · exact hvnew
    · exact (hold slot h hs).2
  · intro slot1 h1 slot2 h2 hne hh1 hh2
    rcases hheads slot1 h1 hh1 with ⟨rfl, rfl⟩ | ⟨hn1, hs1⟩
    · rcases hheads slot2 h2 hh2 with ⟨rfl, _⟩ | ⟨hn2, hs2⟩
      · exact absurd rfl hne
      · exact hapnew slot2 h2 hn2 hs2
    · rcases hheads slot2 h2 hh2 with ⟨rfl, rfl⟩ | ⟨hn2, hs2⟩
      · intro i j hci hcj
        rcases hapnew slot1 h1 hn1 hs1 j i hcj hci with h | h
        · exact Or.inr h
        · exact Or.inl h
      · exact apart_agree (hi.apart slot1 h1 slot2 h2 hne hs1 hs2) (hold slot1 h1 hs1).1
          (hold slot2 h2 hs2).1

/-! ## References keep the chains valid -/

/-- The address field read back from the two bytes of the word `h << 12 | nnn`. -/
theorem link_at_emitted (mc : Nat → Nat) (ip h nnn : Nat) (hn : nnn < 4096) :
    link_at
      (Function.update (Function.update mc ip ((((h <<< 12) ||| nnn) >>> 8) &&& 0xff))
        (ip + 1) (((h <<< 12) ||| nnn) &&& 0xff)) ip = nnn := by
  unfold link_at
  rw [Function.update_same, Function.update_noteq (by omega), Function.update_same,
    pack_hnnn h nnn hn, land_255, land_255, Nat.shiftRight_eq_div_pow]
  have e15 : ∀ x : Nat, x &&& 0x0f = x % 16 := land_15
  rw [e15, Nat.shiftLeft_eq]
  have e1 : (h * 4096 + nnn) / 2 ^ 8 % 256 % 16 * 2 ^ 8 = 2 ^ 8 * (nnn / 256) := by omega
  have e2 : (h * 4096 + nnn) % 256 = nnn % 256 := by omega
  rw [e1, e2, ← Nat.mul_add_lt_is_or (show nnn % 256 < 2 ^ 8 by omega)]
  omega

theorem emit_hnnni_ok {s t : AsmState} {h nnn : Nat}
    (hr : emit_hnnni s h nnn = (ASM_OK, t)) :
    nnn ≤ 4096 ∧ s.instruction_pointer + 1 < BUFFER_SIZE ∧
    t.labels = s.labels ∧
    t.machine_code =
      Function.update
        (Function.update s.machine_code s.instruction_pointer
          ((((h <<< 12) ||| nnn) >>> 8) &&& 0xff))
        (s.instruction_pointer + 1) (((h <<< 12) ||| nnn) &&& 0xff) := by
  unfold emit_hnnni at hr
  split_ifs at hr with h1 h2
  · simp at hr
  · simp at hr
  · have hn : nnn ≤ 4096 := by
      simp only [CHECK_ARGUMENT_SIZE, decide_eq_true_eq, Nat.shiftLeft_eq] at h2
      omega
    by_cases hfull : BUFFER_SIZE ≤ s.instruction_pointer + 1
    · rw [emit_full s _ hfull] at hr
      simp at hr
    · have hroom : s.instruction_pointer + 1 < BUFFER_SIZE := by omega
      rw [emit_room s _ hroom] at hr
      simp only [Prod.mk.injEq, true_and] at hr
      rw [← hr]
      exact ⟨hn, hroom, rfl, rfl⟩

theorem head_update_ne (s : AsmState) {labels2 : Nat → Option LabelAddress} {slot i h : Nat}
    {e : LabelAddress} (hl : labels2 = Function.update s.labels i (some e)) (hne : slot ≠ i)
    (la : LabelAddress) (h1 : labels2 slot = some la) (h2 : la.undefined = true)
    (h3 : la.address = h) : Head s slot h := by
  rw [hl, Function.update_noteq hne] at h1
  exact ⟨la, h1, h2, h3⟩

/-- A label-taking emitter that returns `ASM_OK` keeps the invariant of the
chains. -/
theorem emit_hnnnl_chain {w : Nat} {s t : AsmState} {h : Nat} {label : String}
    (hi : ChainInv s) (hr : emit_hnnnl w s h label = some (ASM_OK, t)) : ChainInv t := by
  have hadv := emit_hnnnl_advance hr
  have hip : t.instruction_pointer = s.instruction_pointer + 2 := hadv.1 rfl
  have hbelow := hadv.2.2
  cases hp : probe_label w s label with
  | spin => rw [emit_hnnnl_spin h hp] at hr; simp at hr
  | vacant i =>
    by_cases hfull : MAX_LABELS ≤ s.number_of_labels
    · rw [emit_hnnnl_full h hp hfull] at hr
      simp at hr
    · rw [emit_hnnnl_fresh h hp (by omega)] at hr
      simp only [Option.some.injEq, Prod.mk.injEq] at hr
      obtain ⟨he, ht⟩ := hr
      have hpair : emit_hnnni (entered w s i label s.instruction_pointer true) h 0 =
          (ASM_OK, (emit_hnnni (entered w s i label s.instruction_pointer true) h 0).2) := by
        rw [← he]
      obtain ⟨_, _, hl, hm⟩ := emit_hnnni_ok hpair
      have htl : t.labels = Function.update s.labels i
          (some { hash := string_hash w label, label := label,
                  address := s.instruction_pointer, undefined := true }) := by
        rw [← ht]; exact hl
      have htm : t.machine_code =
          Function.update
            (Function.update s.machine_code s.instruction_pointer
              ((((h <<< 12) ||| 0) >>> 8) &&& 0xff))
            (s.instruction_pointer + 1) (((h <<< 12) ||| 0) &&& 0xff) := by
        rw [← ht]; exact hm
      refine chain_inv_new hi i 0 hip hbelow ?_ (Or.inl rfl) ?_
      · rw [htm]
        exact link_at_emitted s.machine_code s.instruction_pointer h 0 (by omega)
      · intro slot h2 hh
        obtain ⟨la, h1, hu, ha⟩ := hh
        by_cases hsi : slot = i
        · subst hsi
          rw [htl, Function.update_same] at h1
          simp only [Option.some.injEq] at h1
          subst h1
          exact Or.inl ⟨rfl, ha.symm⟩
        · exact Or.inr ⟨hsi, head_update_ne s htl hsi la h1 hu ha⟩
  | found slot la =>
    obtain ⟨hs, _, _⟩ := probe_label_label hp
    cases hu : la.undefined with
    | false =>
      rw [emit_hnnnl_defined h hp hu] at hr
      simp only [Option.some.injEq] at hr
      exact chain_inv_frame hi (emit_hnnni_ok hr).2.2.1 (by omega) hbelow
    | true =>
      rw [emit_hnnnl_pending h hp hu] at hr
      simp only [Option.some.injEq] at hr
      obtain ⟨_, hroom, hl, hm⟩ := emit_hnnni_ok hr
      have htl : t.labels = Function.update s.labels slot
          (some { la with address := s.instruction_pointer }) := hl
      have htm : t.machine_code =
          Function.update
            (Function.update s.machine_code s.instruction_pointer
              ((((h <<< 12) ||| la.address) >>> 8) &&& 0xff))
            (s.instruction_pointer + 1) (((h <<< 12) ||| la.address) &&& 0xff) := hm
      have hhead : Head s slot la.address := ⟨la, hs, hu, rfl⟩
      have hlt : la.address < 4096 := by
        have := (hi.valid slot la.address hhead la.address OnChain.first).1
        have hroom2 : s.instruction_pointer + 1 < BUFFER_SIZE := hroom
        rw [BUFFER_SIZE_eq] at hroom2
        omega
      refine chain_inv_new hi slot la.address hip hbelow ?_ (Or.inr hhead) ?_
      · rw [htm]
        exact link_at_emitted s.machine_code s.instruction_pointer h la.address hlt
      · intro slot2 h2 hh
        obtain ⟨lb, h1, hu2, ha⟩ := hh
        by_cases hsi : slot2 = slot
        · subst hsi
          rw [htl, Function.update_same] at h1
          simp only [Option.some.injEq] at h1
          subst h1
          exact Or.inl ⟨rfl, ha.symm⟩
        · exact Or.inr ⟨hsi, head_update_ne s htl hsi lb h1 hu2 ha⟩

/-- A call of `asm_emit_label` keeps the invariant of the chains. -/
theorem asm_emit_label_chain {w fuel : Nat} {s t : AsmState} {label : String} {e : AsmError}
    (hi : ChainInv s) (hr : asm_emit_label w fuel s label = some (e, t)) : ChainInv t := by
  cases hp : probe_label w s label with
  | spin => rw [asm_emit_label_spin hp] at hr; simp at hr
  | vacant i =>
    by_cases hfull : MAX_LABELS ≤ s.number_of_labels
    · rw [asm_emit_label_full hp hfull] at hr
      simp only [Option.some.injEq, Prod.mk.injEq] at hr
      rw [← hr.2]; exact hi
    · rw [asm_emit_label_fresh hp (by omega)] at hr
      simp only [Option.some.injEq, Prod.mk.injEq] at hr
      rw [← hr.2]
      refine chain_inv_old hi (Nat.le_refl _) (fun slot h hh => ?_)
      obtain ⟨la, h1, hu, ha⟩ := hh
      have hsi : slot ≠ i := by
        rintro rfl
        simp only [entered, Function.update_same, Option.some.injEq] at h1
        rw [← h1] at hu
        simp at hu
      exact ⟨head_update_ne s rfl hsi la h1 hu ha, fun _ _ => ⟨rfl, rfl⟩⟩
  | found slot la =>
    obtain ⟨hs, _, _⟩ := probe_label_label hp
    cases hu : la.undefined with
    | false =>
      rw [asm_emit_label_defined hp hu] at hr
      simp only [Option.some.injEq, Prod.mk.injEq] at hr
      rw [← hr.2]; exact hi
    | true =>
      rw [asm_emit_label_pending hp hu] at hr
      cases hb : backpatch (MIN_ADDRESS + s.instruction_pointer) fuel s.machine_code la.address with
      | none => simp [hb] at hr
      | some mc =>
        simp only [hb, Option.map_some', Option.some.injEq, Prod.mk.injEq] at hr
        rw [← hr.2]
        have hhead : Head s slot la.address := ⟨la, hs, hu, rfl⟩
        obtain ⟨hframe, _⟩ := backpatch_result (hi.valid slot la.address hhead) hb
        refine chain_inv_old hi (Nat.le_refl _) (fun slot2 h2 hh => ?_)
        obtain ⟨lb, h1, hu2, ha⟩ := hh
        have hsi : slot2 ≠ slot := by
          rintro rfl
          simp only [Function.update_same, Option.some.injEq] at h1
          rw [← h1] at hu2
          simp at hu2
        have hh2 : Head s slot2 h2 := head_update_ne s rfl hsi lb h1 hu2 ha
        refine ⟨hh2, fun j hj => ?_⟩
        have hap := hi.apart slot la.address slot2 h2 (Ne.symm hsi) hhead hh2
        constructor
        · exact hframe j (fun i hci => by have := hap i j hci hj; omega)
        · exact hframe (j + 1) (fun i hci => by have := hap i j hci hj; omega)

theorem advance_le {n : Nat} {s t : AsmState} {e : AsmError} (h : Advance n s e t) :
    s.instruction_pointer ≤ t.instruction_pointer := by
  by_cases he : e = ASM_OK
  · rw [h.1 he]; omega
  · rw [h.2.1 he]

/-- A public call in which a label-taking emitter, if it is one, returns
`ASM_OK` keeps the invariant of the chains. -/
theorem exec_chain {w fuel : Nat} {s t : AsmState} {op : Op} {e : AsmError}
    (hi : ChainInv s) (hr : exec w fuel s op = some (e, t))
    (hclean : op.two_byte = true → op.label_arg ≠ none → e = ASM_OK) : ChainInv t := by
  rw [exec_layout] at hr
  rw [← layout_two_byte, ← layout_label_arg] at hclean
  cases hlay : op.layout with
  | define label => rw [hlay] at hr; exact asm_emit_label_chain hi hr
  | hnnnl h label =>
    rw [hlay] at hr hclean
    have he : e = ASM_OK := hclean rfl (by simp [Layout.label_arg])
    subst he
    exact emit_hnnnl_chain hi hr
  | plain instruction =>
    rw [hlay] at hr
    simp only [Layout.exec, Option.some.injEq] at hr
    have ha := emit_advance s instruction
    have hl := (emit_labels s instruction).1
    rw [hr] at ha hl
    exact chain_inv_frame hi hl (advance_le ha) ha.2.2
  | hnnni h nnn =>
    rw [hlay] at hr
    simp only [Layout.exec, Option.some.injEq] at hr
    have ha := emit_hnnni_advance s h nnn
    have hl := (emit_hnnni_labels s h nnn).1
    rw [hr] at ha hl
    exact chain_inv_frame hi hl (advance_le ha) ha.2.2
  | hxkk h x kk =>
    rw [hlay] at hr
    simp only [Layout.exec, Option.some.injEq] at hr
    have ha := emit_hxkk_advance s h x kk
    have hl := (emit_hxkk_labels s h x kk).1
    rw [hr] at ha hl
    exact chain_inv_frame hi hl (advance_le ha) ha.2.2
  | hxyn h x y n =>
    rw [hlay] at hr
    simp only [Layout.exec, Option.some.injEq] at hr
    have ha := emit_hxyn_advance s h x y n
    have hl := (emit_hxyn_labels s h x y n).1
    rw [hr] at ha hl
    exact chain_inv_frame hi hl (advance_le ha) ha.2.2
  | data byte =>
    rw [hlay] at hr
    simp only [Layout.exec, Option.some.injEq] at hr
    have ha := asm_emit_data_advance s byte
    have hl := (asm_emit_data_labels s byte).1
    rw [hr] at ha hl
    exact chain_inv_frame hi hl (advance_le ha) ha.2.2

theorem chain_inv_init (s0 : AsmState) : ChainInv (asm_init s0) where
  valid := by
    rintro slot h ⟨la, h1, _, _⟩
    simp [asm_init] at h1
  apart := by
    rintro slot1 h1 slot2 h2 _ ⟨la, g1, _, _⟩
    simp [asm_init] at g1

theorem clean_steps_chain {w : Nat} {s t : AsmState} (hi : ChainInv s)
    (hs : CleanSteps w s t) : ChainInv t := by
  induction hs with
  | refl => exact hi
  | tail fuel op e _ hx hc _ ih => exact exec_chain ih hx hc

theorem clean_steps_steps {w : Nat} {s t : AsmState} (hs : CleanSteps w s t) : Steps w s t := by
  induction hs with
  | refl => exact Steps.refl _
  | tail fuel op e _ hx _ hin ih => exact Steps.tail fuel op e ih hx hin

theorem clean_reachable_reachable {w : Nat} {s : AsmState} (hs : CleanReachable w s) :
    Reachable w s := by
  obtain ⟨s0, hb, h0⟩ := hs
  exact ⟨s0, hb, clean_steps_steps h0⟩

theorem clean_reachable_chain {w : Nat} {s : AsmState} (hs : CleanReachable w s) :
    ChainInv s := by
  obtain ⟨s0, _, h0⟩ := hs
  exact clean_steps_chain (chain_inv_init s0) h0

/-! ## Calls that stay inside the arrays -/

theorem walk_within_step (address fuel : Nat) (mc : Nat → Nat) (i : Nat) :
    walk_within address (fuel + 1) mc i =
      (decide (i + 1 < BUFFER_SIZE) &&
        (if link_at mc i ≠ 0 then walk_within address fuel (patch address mc i) (link_at mc i)
         else true)) := rfl

/-- A walk that visits an offset `i` with `BUFFER_SIZE ≤ i + 1` leaves the
buffer. -/
theorem walk_within_outside (address fuel : Nat) (mc : Nat → Nat) (i : Nat)
    (h : BUFFER_SIZE ≤ i + 1) : walk_within address fuel mc i = false := by
  cases fuel with
  | zero => rfl
  | succ fuel =>
    rw [walk_within_step]
    have : ¬ (i + 1 < BUFFER_SIZE) := by omega
    simp [this]

theorem exec_within_data (w fuel : Nat) (s : AsmState) (data : Nat) :
    exec_within w fuel s (Op.emit_data data) = true ↔ s.instruction_pointer ≠ BUFFER_SIZE := by
  simp only [exec_within, decide_eq_true_eq]
  omega

/-- At cursor `BUFFER_SIZE` the store of `asm_emit_data` is outside the buffer. -/
theorem exec_within_data_full (w fuel : Nat) (s : AsmState) (data : Nat)
    (h : s.instruction_pointer = BUFFER_SIZE) :
    exec_within w fuel s (Op.emit_data data) = false := by
  have := exec_within_data w fuel s data
  cases hb : exec_within w fuel s (Op.emit_data data) with
  | false => rfl
  | true => exact absurd h (this.mp hb)

theorem exec_within_define_pending {w : Nat} {s : AsmState} {label : String} {slot : Nat}
    {la : LabelAddress} (fuel : Nat) (hp : probe_label w s label = Probe.found slot la)
    (hu : la.undefined = true) :
    exec_within w fuel s (Op.emit_label label) =
      walk_within (MIN_ADDRESS + s.instruction_pointer) fuel s.machine_code la.address := by
  simp only [exec_within, hp, hu, if_true]

/-- The two-byte emitters never leave the buffer. -/
theorem exec_within_two_byte (w fuel : Nat) (s : AsmState) (op : Op) (h : op.two_byte = true) :
    exec_within w fuel s op = true := by
  cases op <;> first | rfl | simp [Op.two_byte] at h

/-- A call that stays inside the buffer leaves the cursor inside the buffer or
at its end. -/
theorem exec_cursor_within {w fuel : Nat} {s t : AsmState} {op : Op} {e : AsmError}
    (hr : exec w fuel s op = some (e, t)) (hin : exec_within w fuel s op = true)
    (hs : s.instruction_pointer ≤ BUFFER_SIZE) : t.instruction_pointer ≤ BUFFER_SIZE := by
  have h2b := layout_two_byte op
  cases hlay : op.layout with
  | data byte =>
    have hop := layout_data op byte hlay
    subst hop
    have hne := (exec_within_data w fuel s byte).mp hin
    simp only [exec, Option.some.injEq] at hr
    have ha := asm_emit_data_advance s byte
    rw [hr] at ha
    by_cases he : e = ASM_OK
    · rw [ha.1 he]; omega
    · rw [ha.2.1 he]; exact hs
  | define label =>
    have hop := layout_define op label hlay
    subst hop
    rw [asm_emit_label_cursor hr]
    exact hs
  | hnnnl h label =>
    rw [exec_layout, hlay] at hr
    rcases (emit_hnnnl_cursor hr).2 with h3 | h3
    · exact h3
    · rw [h3]; exact hs
  | plain instruction =>
    rw [exec_layout, hlay] at hr
    simp only [Layout.exec, Option.some.injEq] at hr
    have h3 := (emit_cursor s instruction).2
    rw [hr] at h3
    rcases h3 with h3 | h3
    · exact h3
    · rw [h3]; exact hs
  | hnnni h nnn =>
    rw [exec_layout, hlay] at hr
    simp only [Layout.exec, Option.some.injEq] at hr
    have h3 := (emit_hnnni_cursor s h nnn).2
    rw [hr] at h3
    rcases h3 with h3 | h3
    · exact h3
    · rw [h3]; exact hs
  | hxkk h x kk =>
    rw [exec_layout, hlay] at hr
    simp only [Layout.exec, Option.some.injEq] at hr
    have h3 := (emit_hxkk_cursor s h x kk).2
    rw [hr] at h3
    rcases h3 with h3 | h3
    · exact h3
    · rw [h3]; exact hs
  | hxyn h x y n =>
    rw [exec_layout, hlay] at hr
    simp only [Layout.exec, Option.some.injEq] at hr
    have h3 := (emit_hxyn_cursor s h x y n).2
    rw [hr] at h3
    rcases h3 with h3 | h3
    · exact h3
    · rw [h3]; exact hs

/-- In every reachable state the cursor is inside the buffer or at its end. -/
theorem reachable_cursor_inside {w : Nat} {s : AsmState} (hs : Reachable w s) :
    s.instruction_pointer ≤ BUFFER_SIZE := by
  obtain ⟨s0, _, h0⟩ := hs
  have hinit : (asm_init s0).instruction_pointer ≤ BUFFER_SIZE := Nat.zero_le _
  generalize asm_init s0 = a at h0 hinit
  induction h0 with
  | refl => exact hinit
  | tail fuel op e _ hx hin ih => exact exec_cursor_within hx hin ih

/-- A walk over a valid chain below a cursor inside the buffer that ends, stays
inside the buffer. -/
theorem walk_within_of_backpatch (address : Nat) :
    ∀ (fuel : Nat) (mc r : Nat → Nat) (c h : Nat), ValidFrom mc c h → c ≤ BUFFER_SIZE →
      backpatch address fuel mc h = some r → walk_within address fuel mc h = true := by
  intro fuel
  induction fuel with
  | zero => intro mc r c h _ _ hb; simp [backpatch] at hb
  | succ fuel ih =>
    intro mc r c h hv hc hb
    rw [walk_within_step]
    rw [backpatch_step] at hb
    have hin : h + 1 < BUFFER_SIZE := by
      have := (hv h OnChain.first).1
      omega
    by_cases hj : link_at mc h = 0
    · simp [hin, hj]
    · rw [if_pos hj] at hb
      rw [if_pos hj]
      have hgap : link_at mc h + 1 < h := by
        rcases (hv h OnChain.first).2 with h0 | h0
        · exact absurd h0 hj
        · exact h0
      have hvt := valid_from_tail hv hj
      have hag : AgreeOn (patch address mc h) mc (link_at mc h) := by
        intro i hi
        have := valid_from_le hvt hi
        exact ⟨patch_other address mc h i (by omega) (by omega),
          patch_other address mc h (i + 1) (by omega) (by omega)⟩
      have hv2 : ValidFrom (patch address mc h) c (link_at mc h) :=
        valid_from_agree hvt hag (Nat.le_refl c)
      rw [ih (patch address mc h) r c (link_at mc h) hv2 hc hb]
      simp [hin]

/-- After a run in which every label-taking emitter returned `ASM_OK` and every
call stayed inside the arrays, the only call that can leave the arrays is
`asm_emit_data` at cursor `BUFFER_SIZE`. -/
theorem clean_call_within {w fuel : Nat} {s t : AsmState} {op : Op} {e : AsmError}
    (hs : CleanReachable w s) (hx : exec w fuel s op = some (e, t))
    (hd : ∀ data, op = Op.emit_data data → s.instruction_pointer ≠ BUFFER_SIZE) :
    exec_within w fuel s op = true := by
  cases hlay : op.layout with
  | data byte =>
    have hop := layout_data op byte hlay
    subst hop
    exact (exec_within_data w fuel s byte).mpr (hd byte rfl)
  | define label =>
    have hop := layout_define op label hlay
    subst hop
    cases hp : probe_label w s label with
    | spin => simp only [exec_within, hp]
    | vacant i => simp only [exec_within, hp]
    | found slot la =>
      cases hu : la.undefined with
      | false => simp [exec_within, hp, hu]
      | true =>
        rw [exec_within_define_pending fuel hp hu]
        have hv := (clean_reachable_chain hs).valid slot la.address
          ⟨la, (probe_label_label hp).1, hu, rfl⟩
        have hc := reachable_cursor_inside (clean_reachable_reachable hs)
        have hx2 : asm_emit_label w fuel s label = some (e, t) := hx
        rw [asm_emit_label_pending hp hu] at hx2
        cases hb : backpatch (MIN_ADDRESS + s.instruction_pointer) fuel s.machine_code
            la.address with
        | none => simp [hb] at hx2
        | some r => exact walk_within_of_backpatch _ fuel _ r _ _ hv hc hb
  | hnnnl h label =>
    exact exec_within_two_byte w fuel s op (by rw [← layout_two_byte, hlay]; rfl)
  | plain instruction =>
    exact exec_within_two_byte w fuel s op (by rw [← layout_two_byte, hlay]; rfl)
  | hnnni h nnn =>
    exact exec_within_two_byte w fuel s op (by rw [← layout_two_byte, hlay]; rfl)
  | hxkk h x kk =>
    exact exec_within_two_byte w fuel s op (by rw [← layout_two_byte, hlay]; rfl)
  | hxyn h x y n =>
    exact exec_within_two_byte w fuel s op (by rw [← layout_two_byte, hlay]; rfl)

theorem run_define_fresh (w : Nat) (name : String) :
    run w 0 (asm_init zero_state) [Op.emit_label name] =
      some ([ASM_OK],
        entered w (asm_init zero_state) (string_hash w name % TABLE_OF_LABELS_SIZE) name
          MIN_ADDRESS false) := by
  have hp := probe_label_empty w name (rfl : (asm_init zero_state).labels = fun _ => none)
  have h : asm_emit_label w 0 (asm_init zero_state) name = _ :=
    asm_emit_label_fresh hp (by decide)
  simp only [run, exec, h]
  rfl

theorem run_refer_fresh (w : Nat) (name : String) :
    ∃ s1, run w 0 (asm_init zero_state) [Op.jp_label name] = some ([ASM_OK], s1) ∧
      s1.instruction_pointer = 2 ∧ s1.number_of_labels = 1 ∧
      s1.number_of_undefined_labels = 1 ∧
      s1.labels = Function.update (fun _ => none) (string_hash w name % TABLE_OF_LABELS_SIZE)
        (some { hash := string_hash w name, label := name, address := 0, undefined := true }) := by
  have hp0 : probe_label w (asm_init zero_state) name =
      Probe.vacant (string_hash w name % TABLE_OF_LABELS_SIZE) := probe_label_empty w name rfl
  have hroom : (asm_init zero_state).number_of_labels < MAX_LABELS := by
    show 0 < MAX_LABELS
    decide
  have hbuf : (entered w (asm_init zero_state) (string_hash w name % TABLE_OF_LABELS_SIZE) name
      (asm_init zero_state).instruction_pointer true).instruction_pointer + 1 < BUFFER_SIZE := by
    show 0 + 1 < BUFFER_SIZE
    decide
  have h1 := emit_hnnnl_fresh 0x1 hp0 hroom
  rw [emit_hnnni_room _ 0x1 0 (by omega) (by omega) hbuf] at h1
  have h2 : ∃ s1, emit_hnnnl w (asm_init zero_state) 0x1 name = some (ASM_OK, s1) ∧
      s1.instruction_pointer = 2 ∧ s1.number_of_labels = 1 ∧
      s1.number_of_undefined_labels = 1 ∧
      s1.labels = Function.update (fun _ => none) (string_hash w name % TABLE_OF_LABELS_SIZE)
        (some { hash := string_hash w name, label := name, address := 0, undefined := true }) :=
    ⟨_, h1, rfl, rfl, rfl, rfl⟩
  obtain ⟨s1, g1, g2⟩ := h2
  refine ⟨s1, ?_, g2⟩
  simp only [run, exec, asm_emit_jp_label, g1]

/-- Filling with data bytes up to the end of the buffer keeps the table and its
counters and stays inside the buffer. -/
theorem data_fill (w : Nat) (s : AsmState) (k : Nat) (hs : Reachable w s)
    (hk : s.instruction_pointer + k ≤ BUFFER_SIZE) :
    Reachable w (repeat_data k s) ∧
    (repeat_data k s).instruction_pointer = s.instruction_pointer + k ∧
    (repeat_data k s).labels = s.labels ∧
    (repeat_data k s).number_of_labels = s.number_of_labels ∧
    (repeat_data k s).number_of_undefined_labels = s.number_of_undefined_labels := by
  obtain ⟨h1, h2, h3, h4, h5⟩ := repeat_data_spec s k hk
  exact ⟨reachable_steps hs (h5 w), h1, h2, h3, h4⟩

/-- With the cursor at `BUFFER_SIZE`, `asm_emit_data` returns `ASM_OK` and its
store is outside the buffer. -/
theorem data_overrun (w fuel : Nat) (s : AsmState) (data : Nat)
    (h : s.instruction_pointer = ASM_BUFFER_SIZE) :
    (asm_emit_data s data).1 = ASM_OK ∧ exec_within w fuel s (Op.emit_data data) = false :=
  ⟨(asm_emit_data_at_capacity s data h).1, exec_within_data_full w fuel s data h⟩

theorem defined_then_data_spec (w : Nat) (name : String) (k : Nat) (hk : k ≤ BUFFER_SIZE) :
    run w 0 (asm_init zero_state) [Op.emit_label name] =
      some ([ASM_OK], defined_then_data w name 0) ∧
    Reachable w (defined_then_data w name k) ∧
    (defined_then_data w name k).instruction_pointer = k ∧
    (defined_then_data w name k).number_of_labels = 1 ∧
    (defined_then_data w name k).number_of_undefined_labels = 0 ∧
    (defined_then_data w name k).labels =
      Function.update (fun _ => none) (string_hash w name % TABLE_OF_LABELS_SIZE)
        (some { hash := string_hash w name, label := name, address := MIN_ADDRESS,
                undefined := false }) ∧
    probe_label w (defined_then_data w name k) name =
      Probe.found (string_hash w name % TABLE_OF_LABELS_SIZE)
        { hash := string_hash w name, label := name, address := MIN_ADDRESS,
          undefined := false } := by
  have hrun := run_define_fresh w name
  have hafter : after w 0 (asm_init zero_state) [Op.emit_label name] =
      entered w (asm_init zero_state) (string_hash w name % TABLE_OF_LABELS_SIZE) name
        MIN_ADDRESS false := by
    simp only [after, hrun]
  have hp0 := probe_label_empty w name (rfl : (asm_init zero_state).labels = fun _ => none)
  have hx : exec w 0 (asm_init zero_state) (Op.emit_label name) =
      some (ASM_OK, entered w (asm_init zero_state) (string_hash w name % TABLE_OF_LABELS_SIZE)
        name MIN_ADDRESS false) := by
    show asm_emit_label w 0 (asm_init zero_state) name = _
    exact asm_emit_label_fresh hp0 (by decide)
  have hin : exec_within w 0 (asm_init zero_state) (Op.emit_label name) = true := by
    simp only [exec_within, hp0]
  have hr1 : Reachable w (entered w (asm_init zero_state)
      (string_hash w name % TABLE_OF_LABELS_SIZE) name MIN_ADDRESS false) :=
    reachable_steps (zero_state_reachable w) (Steps.tail 0 _ _ (Steps.refl _) hx hin)
  obtain ⟨g1, g2, g3, g4, g5⟩ := data_fill w _ k hr1 (by show 0 + k ≤ BUFFER_SIZE; omega)
  have hlab : (defined_then_data w name k).labels =
      Function.update (fun _ => none) (string_hash w name % TABLE_OF_LABELS_SIZE)
        (some { hash := string_hash w name, label := name, address := MIN_ADDRESS,
                undefined := false }) := by
    rw [defined_then_data, hafter, g3]
    rfl
  have hreach : Reachable w (defined_then_data w name k) := by
    rw [defined_then_data, hafter]
    exact g1
  refine ⟨?_, hreach, ?_, ?_, ?_, hlab, ?_⟩
  · rw [hrun, defined_then_data, hafter]
    rfl
  · rw [defined_then_data, hafter, g2]
    exact Nat.zero_add k
  · rw [defined_then_data, hafter, g4]
    rfl
  · rw [defined_then_data, hafter, g5]
    rfl
  · have := (reachable_table_inv hreach).found (string_hash w name % TABLE_OF_LABELS_SIZE)
      { hash := string_hash w name, label := name, address := MIN_ADDRESS, undefined := false }
      (by rw [hlab, Function.update_same])
    exact this

theorem referred_then_data_spec (w : Nat) (name : String) (k : Nat)
    (hk : 2 + k ≤ BUFFER_SIZE) :
    run w 0 (asm_init zero_state) [Op.jp_label name] =
      some ([ASM_OK], referred_then_data w name 0) ∧
    Reachable w (referred_then_data w name k) ∧
    (referred_then_data w name k).instruction_pointer = 2 + k ∧
    (referred_then_data w name k).number_of_labels = 1 ∧
    (referred_then_data w name k).number_of_undefined_labels = 1 ∧
    (referred_then_data w name k).labels =
      Function.update (fun _ => none) (string_hash w name % TABLE_OF_LABELS_SIZE)
        (some { hash := string_hash w name, label := name, address := 0, undefined := true }) ∧
    probe_label w (referred_then_data w name k) name =
      Probe.found (string_hash w name % TABLE_OF_LABELS_SIZE)
        { hash := string_hash w name, label := name, address := 0, undefined := true } := by
  obtain ⟨s1, hrun, hip, hnl, hnu, hl⟩ := run_refer_fresh w name
  have hafter : after w 0 (asm_init zero_state) [Op.jp_label name] = s1 := by
    simp only [after, hrun]
  have hx : exec w 0 (asm_init zero_state) (Op.jp_label name) = some (ASM_OK, s1) := by
    simp only [run] at hrun
    cases he : exec w 0 (asm_init zero_state) (Op.jp_label name) with
    | none => simp [he] at hrun
    | some r =>
      obtain ⟨e, t⟩ := r
      simp only [he, Option.some.injEq, Prod.mk.injEq, List.cons.injEq, and_true] at hrun
      rw [hrun.1, hrun.2]
  have hr1 : Reachable w s1 :=
    reachable_steps (zero_state_reachable w) (Steps.tail 0 _ _ (Steps.refl _) hx rfl)
  obtain ⟨g1, g2, g3, g4, g5⟩ := data_fill w s1 k hr1 (by rw [hip]; exact hk)
  have hlab : (referred_then_data w name k).labels =
      Function.update (fun _ => none) (string_hash w name % TABLE_OF_LABELS_SIZE)
        (some { hash := string_hash w name, label := name, address := 0, undefined := true }) := by
    rw [referred_then_data, hafter, g3, hl]
  have hreach : Reachable w (referred_then_data w name k) := by
    rw [referred_then_data, hafter]
    exact g1
  refine ⟨?_, hreach, ?_, ?_, ?_, hlab, ?_⟩
  · rw [hrun, referred_then_data, hafter]
    rfl
  · rw [referred_then_data, hafter, g2, hip]
  · rw [referred_then_data, hafter, g4, hnl]
  · rw [referred_then_data, hafter, g5, hnu]
  · exact (reachable_table_inv hreach).found (string_hash w name % TABLE_OF_LABELS_SIZE)
      { hash := string_hash w name, label := name, address := 0, undefined := true }
      (by rw [hlab, Function.update_same])

theorem referred_then_cls_spec (w : Nat) (name : String) (k : Nat)
    (hk : 2 + 2 * k ≤ BUFFER_SIZE) :
    run w 0 (asm_init zero_state) [Op.jp_label name] =
      some ([ASM_OK], referred_then_cls w name 0) ∧
    Reachable w (referred_then_cls w name k) ∧
    (referred_then_cls w name k).instruction_pointer = 2 + 2 * k ∧
    (referred_then_cls w name k).number_of_labels = 1 ∧
    (referred_then_cls w name k).number_of_undefined_labels = 1 ∧
    (referred_then_cls w name k).labels =
      Function.update (fun _ => none) (string_hash w name % TABLE_OF_LABELS_SIZE)
        (some { hash := string_hash w name, label := name, address := 0, undefined := true }) := by
  obtain ⟨s1, hrun, hip, hnl, hnu, hl⟩ := run_refer_fresh w name
  have hafter : after w 0 (asm_init zero_state) [Op.jp_label name] = s1 := by
    simp only [after, hrun]
  have hx : exec w 0 (asm_init zero_state) (Op.jp_label name) = some (ASM_OK, s1) := by
    simp only [run] at hrun
    cases he : exec w 0 (asm_init zero_state) (Op.jp_label name) with
    | none => simp [he] at hrun
    | some r =>
      obtain ⟨e, t⟩ := r
      simp only [he, Option.some.injEq, Prod.mk.injEq, List.cons.injEq, and_true] at hrun
      rw [hrun.1, hrun.2]
  have hr1 : Reachable w s1 :=
    reachable_steps (zero_state_reachable w) (Steps.tail 0 _ _ (Steps.refl _) hx rfl)
  obtain ⟨g2, g3, g4, g5, g1⟩ := repeat_cls_spec s1 k (by rw [hip]; exact hk)
  refine ⟨?_, ?_, ?_, ?_, ?_, ?_⟩
  · rw [hrun, referred_then_cls, hafter]
    rfl
  · rw [referred_then_cls, hafter]
    exact reachable_steps hr1 (g1 w)
  · rw [referred_then_cls, hafter, g2, hip]
  · rw [referred_then_cls, hafter, g4, hnl]
  · rw [referred_then_cls, hafter, g5, hnu]
  · rw [referred_then_cls, hafter, g3, hl]

/-- A reference to a new name made when fewer than two bytes are left: the call
returns `ASM_TOO_MANY_INSTRUCTIONS`, the name is left Undefined with the cursor
as the head of its chain, and the walk that `asm_emit_label` then makes for the
name starts outside the emitted region, at an offset `i` with
`BUFFER_SIZE ≤ i + 1`: it leaves the buffer. -/
theorem failed_reference_walk (w : Nat) (s : AsmState) (name : String) (hs : Reachable w s)
    (hnew : name ∉ table_names s) (hroom : s.number_of_labels < MAX_LABELS)
    (hfull : BUFFER_SIZE ≤ s.instruction_pointer + 1) :
    ∃ t, exec w 0 s (Op.jp_label name) = some (ASM_TOO_MANY_INSTRUCTIONS, t) ∧
      Reachable w t ∧
      t.number_of_undefined_labels = s.number_of_undefined_labels + 1 ∧
      (∃ slot la, probe_label w t name = Probe.found slot la ∧ la.undefined = true ∧
        la.address = s.instruction_pointer) ∧
      ∀ fuel, exec_within w fuel t (Op.emit_label name) = false := by
  obtain ⟨i, hp⟩ := table_inv_vacant (reachable_table_inv hs) hnew
  have h1 := emit_hnnnl_fresh_full 1 (by omega) hp hroom hfull
  have hx : exec w 0 s (Op.jp_label name) = _ := h1
  have ht := reachable_steps hs (Steps.tail 0 _ _ (Steps.refl _) hx rfl)
  have hpt := (reachable_table_inv ht).found i
    { hash := string_hash w name, label := name, address := s.instruction_pointer,
      undefined := true }
    (by show Function.update s.labels i _ i = _; rw [Function.update_same])
  refine ⟨_, hx, ht, rfl, ⟨i, _, hpt, rfl, rfl⟩, fun fuel => ?_⟩
  rw [exec_within_define_pending fuel hpt rfl]
  exact walk_within_outside _ fuel _ _ hfull

theorem not_mem_table_names_single {s : AsmState} {i : Nat} {e : LabelAddress} {name : String}
    (hl : s.labels = Function.update (fun _ => none) i (some e)) (hne : e.label ≠ name) :
    name ∉ table_names s := by
  rw [mem_table_names]
  rintro ⟨j, la, _, hj, hn⟩
  rw [hl] at hj
  by_cases hij : j = i
  · rw [hij, Function.update_same] at hj
    simp only [Option.some.injEq] at hj
    rw [← hj] at hn
    exact hne hn
  · rw [Function.update_noteq hij] at hj
    simp at hj

/-- The four label-taking emitters at a Defined name. -/
theorem defined_emitters_at {w : Nat} {s : AsmState} {name : String} {slot a : Nat}
    {la : LabelAddress} (hp : probe_label w s name = Probe.found slot la)
    (hu : la.undefined = false) (ha : la.address = a) :
    DefinedAt w s name a ∧
    asm_emit_jp_label w s name = some (asm_emit_jp_addr s a) ∧
    asm_emit_call_label w s name = some (asm_emit_call_addr s a) ∧
    asm_emit_ld_i_label w s name = some (asm_emit_ld_i_addr s a) ∧
    asm_emit_jp_v0_label w s name = some (asm_emit_jp_v0_addr s a) := by
  subst ha
  exact ⟨⟨slot, la, hp, hu, rfl⟩, emit_hnnnl_defined 0x1 hp hu, emit_hnnnl_defined 0x2 hp hu,
    emit_hnnnl_defined 0xA hp hu, emit_hnnnl_defined 0xB hp hu⟩

theorem undefined_count_eq {s : AsmState} {n : Nat} (h : s.number_of_undefined_labels = n) :
    asm_get_number_of_undefined_labels s = n := h

/-- C2: the run `asm_init`, `asm_emit_label("ayx")`, `ASM_BUFFER_SIZE` calls of
`asm_emit_data(0)` stays inside the arrays and leaves `"ayx"` Defined with address
`ASM_MIN_ADDRESS`; in the state it reaches each label-taking emitter called with
`"ayx"` does what its literal-address twin does with `ASM_MIN_ADDRESS`.  The
cursor is then `ASM_BUFFER_SIZE`, and the next call, `asm_emit_data(0xAB)`,
returns `ASM_OK` with its store at offset `ASM_BUFFER_SIZE`, outside
`machine_code`: from that call on the behaviour of the program is undefined, and
so is what a label-taking emitter called with `"ayx"` does afterwards. -/
theorem defined_label_then_overrun (w : Nat) :
    run w 0 (asm_init zero_state) [Op.emit_label "ayx"] =
      some ([ASM_OK], defined_then_data w "ayx" 0) ∧
    Reachable w (defined_then_data w "ayx" ASM_BUFFER_SIZE) ∧
    DefinedAt w (defined_then_data w "ayx" ASM_BUFFER_SIZE) "ayx" ASM_MIN_ADDRESS ∧
    asm_emit_jp_label w (defined_then_data w "ayx" ASM_BUFFER_SIZE) "ayx" =
      some (asm_emit_jp_addr (defined_then_data w "ayx" ASM_BUFFER_SIZE) ASM_MIN_ADDRESS) ∧
    asm_emit_call_label w (defined_then_data w "ayx" ASM_BUFFER_SIZE) "ayx" =
      some (asm_emit_call_addr (defined_then_data w "ayx" ASM_BUFFER_SIZE) ASM_MIN_ADDRESS) ∧
    asm_emit_ld_i_label w (defined_then_data w "ayx" ASM_BUFFER_SIZE) "ayx" =
      some (asm_emit_ld_i_addr (defined_then_data w "ayx" ASM_BUFFER_SIZE) ASM_MIN_ADDRESS) ∧
    asm_emit_jp_v0_label w (defined_then_data w "ayx" ASM_BUFFER_SIZE) "ayx" =
      some (asm_emit_jp_v0_addr (defined_then_data w "ayx" ASM_BUFFER_SIZE) ASM_MIN_ADDRESS) ∧
    (defined_then_data w "ayx" ASM_BUFFER_SIZE).instruction_pointer = ASM_BUFFER_SIZE ∧
    (asm_emit_data (defined_then_data w "ayx" ASM_BUFFER_SIZE) 0xAB).1 = ASM_OK ∧
    exec_within w 0 (defined_then_data w "ayx" ASM_BUFFER_SIZE) (Op.emit_data 0xAB) = false := by
  obtain ⟨h1, h2, h3, _, _, _, hp⟩ :=
    defined_then_data_spec w "ayx" ASM_BUFFER_SIZE (Nat.le_refl _)
  obtain ⟨g1, g2⟩ := data_overrun w 0 _ 0xAB h3
  obtain ⟨d0, d1, d2, d3, d4⟩ := defined_emitters_at hp rfl (rfl : _ = ASM_MIN_ADDRESS)
  exact ⟨h1, h2, d0, d1, d2, d3, d4, h3, g1, g2⟩

/-- C3: the run `asm_init`, `asm_emit_label("ayx")`, `ASM_BUFFER_SIZE` calls of
`asm_emit_data(0)` stays inside the arrays; in the state it reaches a second
`asm_emit_label("ayx")` returns `ASM_SECOND_DEFINITION` and changes nothing.  The
cursor is then `ASM_BUFFER_SIZE`, and the next call, `asm_emit_data(0xAB)`,
returns `ASM_OK` with its store at offset `ASM_BUFFER_SIZE`, outside
`machine_code`: from that call on the behaviour of the program is undefined, and
so is what a second `asm_emit_label("ayx")` returns afterwards. -/
theorem second_definition_then_overrun (w : Nat) :
    run w 0 (asm_init zero_state) [Op.emit_label "ayx"] =
      some ([ASM_OK], defined_then_data w "ayx" 0) ∧
    Reachable w (defined_then_data w "ayx" ASM_BUFFER_SIZE) ∧
    asm_emit_label w 0 (defined_then_data w "ayx" ASM_BUFFER_SIZE) "ayx" =
      some (ASM_SECOND_DEFINITION, defined_then_data w "ayx" ASM_BUFFER_SIZE) ∧
    (defined_then_data w "ayx" ASM_BUFFER_SIZE).instruction_pointer = ASM_BUFFER_SIZE ∧
    (asm_emit_data (defined_then_data w "ayx" ASM_BUFFER_SIZE) 0xAB).1 = ASM_OK ∧
    exec_within w 0 (defined_then_data w "ayx" ASM_BUFFER_SIZE) (Op.emit_data 0xAB) = false := by
  obtain ⟨h1, h2, h3, _, _, _, hp⟩ :=
    defined_then_data_spec w "ayx" ASM_BUFFER_SIZE (Nat.le_refl _)
  obtain ⟨g1, g2⟩ := data_overrun w 0 _ 0xAB h3
  exact ⟨h1, h2, asm_emit_label_defined hp rfl, h3, g1, g2⟩

/-- C9: the run `asm_init`, `asm_emit_label("ayx")`, `ASM_BUFFER_SIZE` calls of
`asm_emit_data(0)` stays inside the arrays and leaves a table that holds the one
name `"ayx"`, with label count 1.  The cursor is then `ASM_BUFFER_SIZE`, and the
next call, `asm_emit_data(0xAB)`, returns `ASM_OK` with its store at offset
`ASM_BUFFER_SIZE`, outside `machine_code`: from that call on the behaviour of the
program is undefined, and so is the relation between the label count and the
names in the table on which `ASM_TOO_MANY_LABELS` depends. -/
theorem label_count_then_overrun (w : Nat) :
    run w 0 (asm_init zero_state) [Op.emit_label "ayx"] =
      some ([ASM_OK], defined_then_data w "ayx" 0) ∧
    Reachable w (defined_then_data w "ayx" ASM_BUFFER_SIZE) ∧
    (defined_then_data w "ayx" ASM_BUFFER_SIZE).number_of_labels = 1 ∧
    (table_names (defined_then_data w "ayx" ASM_BUFFER_SIZE)).card = 1 ∧
    "ayx" ∈ table_names (defined_then_data w "ayx" ASM_BUFFER_SIZE) ∧
    (defined_then_data w "ayx" ASM_BUFFER_SIZE).instruction_pointer = ASM_BUFFER_SIZE ∧
    (asm_emit_data (defined_then_data w "ayx" ASM_BUFFER_SIZE) 0xAB).1 = ASM_OK ∧
    exec_within w 0 (defined_then_data w "ayx" ASM_BUFFER_SIZE) (Op.emit_data 0xAB) = false := by
  obtain ⟨h1, h2, h3, h4, _, _, hp⟩ :=
    defined_then_data_spec w "ayx" ASM_BUFFER_SIZE (Nat.le_refl _)
  obtain ⟨g1, g2⟩ := data_overrun w 0 _ 0xAB h3
  refine ⟨h1, h2, h4, ?_, ?_, h3, g1, g2⟩
  · rw [table_inv_card_names (reachable_table_inv h2), h4]
  · exact mem_table_names.mpr ⟨_, _, probe_label_found_lt hp, (probe_label_label hp).1, rfl⟩

/-- C11: the run `asm_init`, `asm_emit_jp_label("ayx")`, 3582 calls of
`asm_emit_data(0)` stays inside the arrays: the reference returns `ASM_OK`,
`"ayx"` is Undefined and `asm_get_number_of_undefined_labels` is 1, one more
than the 0 before the reference.  The cursor is then `ASM_BUFFER_SIZE`, and the next
call, `asm_emit_data(0xAB)`, which names no label, returns `ASM_OK` with its
store at offset `ASM_BUFFER_SIZE`, outside `machine_code`: from that call on the
behaviour of the program is undefined, and so is the value of the counter after
the definition of `"ayx"`. -/
theorem pending_reference_then_overrun (w : Nat) :
    run w 0 (asm_init zero_state) [Op.jp_label "ayx"] =
      some ([ASM_OK], referred_then_data w "ayx" 0) ∧
    Reachable w (referred_then_data w "ayx" 3582) ∧
    PendingAt w (referred_then_data w "ayx" 3582) "ayx" ∧
    asm_get_number_of_undefined_labels (asm_init zero_state) = 0 ∧
    asm_get_number_of_undefined_labels (referred_then_data w "ayx" 3582) = 1 ∧
    (referred_then_data w "ayx" 3582).instruction_pointer = ASM_BUFFER_SIZE ∧
    (asm_emit_data (referred_then_data w "ayx" 3582) 0xAB).1 = ASM_OK ∧
    exec_within w 0 (referred_then_data w "ayx" 3582) (Op.emit_data 0xAB) = false := by
  obtain ⟨h1, h2, h3, _, h5, _, hp⟩ := referred_then_data_spec w "ayx" 3582 (by decide)
  have hip : (referred_then_data w "ayx" 3582).instruction_pointer = ASM_BUFFER_SIZE :=
    h3.trans (by decide)
  obtain ⟨g1, g2⟩ := data_overrun w 0 _ 0xAB hip
  exact ⟨h1, h2, ⟨_, _, hp, rfl⟩, rfl, undefined_count_eq h5, hip, g1, g2⟩

/-- C14: the run `asm_init`, `asm_emit_label("ayx")`, `ASM_BUFFER_SIZE` calls of
`asm_emit_data(0)` stays inside the arrays and leaves `"ayx"` Defined with address
`ASM_MIN_ADDRESS` in one slot, every other slot being empty.  The cursor is then
`ASM_BUFFER_SIZE`, and the next call, `asm_emit_data(0xAB)`, returns `ASM_OK`
with its store at offset `ASM_BUFFER_SIZE`, outside `machine_code`: from that
call on the behaviour of the program is undefined, and so is in how many slots
a later `asm_emit_label("ayx")` leaves the name. -/
theorem single_slot_then_overrun (w : Nat) :
    run w 0 (asm_init zero_state) [Op.emit_label "ayx"] =
      some ([ASM_OK], defined_then_data w "ayx" 0) ∧
    Reachable w (defined_then_data w "ayx" ASM_BUFFER_SIZE) ∧
    (defined_then_data w "ayx" ASM_BUFFER_SIZE).labels
        (string_hash w "ayx" % TABLE_OF_LABELS_SIZE) =
      some { hash := string_hash w "ayx", label := "ayx", address := ASM_MIN_ADDRESS,
             undefined := false } ∧
    (∀ j, j ≠ string_hash w "ayx" % TABLE_OF_LABELS_SIZE →
      (defined_then_data w "ayx" ASM_BUFFER_SIZE).labels j = none) ∧
    (defined_then_data w "ayx" ASM_BUFFER_SIZE).instruction_pointer = ASM_BUFFER_SIZE ∧
    (asm_emit_data (defined_then_data w "ayx" ASM_BUFFER_SIZE) 0xAB).1 = ASM_OK ∧
    exec_within w 0 (defined_then_data w "ayx" ASM_BUFFER_SIZE) (Op.emit_data 0xAB) = false := by
  obtain ⟨h1, h2, h3, _, _, hl, _⟩ :=
    defined_then_data_spec w "ayx" ASM_BUFFER_SIZE (Nat.le_refl _)
  obtain ⟨g1, g2⟩ := data_overrun w 0 _ 0xAB h3
  refine ⟨h1, h2, ?_, fun j hj => ?_, h3, g1, g2⟩
  · rw [hl, Function.update_same]
    rfl
  · rw [hl, Function.update_noteq hj]

/-- C15: two calls that return after an access outside `machine_code`, so that
the cursor and the bytes the program has after them are undefined.  With the
cursor at `ASM_BUFFER_SIZE` (after `asm_init` and `ASM_BUFFER_SIZE` calls of
`asm_emit_data(0)`), `asm_emit_data(0xAB)` returns `ASM_OK` and stores at offset
`ASM_BUFFER_SIZE`.  After `asm_init`, 1792 calls of `asm_emit_cls` and
`asm_emit_jp_label("a")`, which returns `ASM_TOO_MANY_INSTRUCTIONS` and leaves
`"a"` Undefined with chain head `ASM_BUFFER_SIZE`, the walk of
`asm_emit_label("a")` starts at offset `ASM_BUFFER_SIZE`, whatever the fuel. -/
theorem cursor_after_access_outside_buffer (w : Nat) :
    Reachable w (repeat_data ASM_BUFFER_SIZE (asm_init zero_state)) ∧
    (repeat_data ASM_BUFFER_SIZE (asm_init zero_state)).instruction_pointer = ASM_BUFFER_SIZE ∧
    (asm_emit_data (repeat_data ASM_BUFFER_SIZE (asm_init zero_state)) 0xAB).1 = ASM_OK ∧
    exec_within w 0 (repeat_data ASM_BUFFER_SIZE (asm_init zero_state)) (Op.emit_data 0xAB)
      = false ∧
    ∃ t, exec w 0 (repeat_cls 1792 (asm_init zero_state)) (Op.jp_label "a") =
        some (ASM_TOO_MANY_INSTRUCTIONS, t) ∧
      Reachable w t ∧
      (∃ slot la, probe_label w t "a" = Probe.found slot la ∧ la.undefined = true ∧
        la.address = ASM_BUFFER_SIZE) ∧
      ∀ fuel, exec_within w fuel t (Op.emit_label "a") = false := by
  obtain ⟨g1, g2⟩ := data_overrun w 0 _ 0xAB repeat_data_full.1
  obtain ⟨c1, c2, c3, _, c5⟩ := repeat_cls_full
  have hnew : "a" ∉ table_names (repeat_cls 1792 (asm_init zero_state)) := by
    rw [mem_table_names]
    rintro ⟨j, la, _, hj, _⟩
    rw [c2] at hj
    simp at hj
  obtain ⟨t, t1, t2, _, ⟨slot, la, p1, p2, p3⟩, t4⟩ :=
    failed_reference_walk w _ "a" (c5 w) hnew (by rw [c3]; decide)
      (by rw [c1]; decide)
  exact ⟨repeat_data_full.2 w, repeat_data_full.1, g1, g2, t, t1, t2,
    ⟨slot, la, p1, p2, p3.trans c1⟩, t4⟩

/-- C17: the run `asm_init`, `asm_emit_jp_label("ayswvo")`, 1791 calls of
`asm_emit_cls`, `asm_emit_jp_label("a")` stays inside the arrays; its last call
returns `ASM_TOO_MANY_INSTRUCTIONS` and leaves `"a"` Undefined with chain head
`ASM_BUFFER_SIZE`; the counter of undefined labels is 2 and two entries are
Undefined.  The walk that `asm_emit_label("a")` then makes starts at offset
`ASM_BUFFER_SIZE`, outside `machine_code`, whatever the fuel: it reads its link
from, and writes to, what follows the buffer in memory, so that from that call
on the behaviour of the program is undefined, and with it the relation between
the counter and the entries of the table. -/
theorem definition_walk_leaves_buffer (w : Nat) :
    run w 0 (asm_init zero_state) [Op.jp_label "ayswvo"] =
      some ([ASM_OK], referred_then_cls w "ayswvo" 0) ∧
    Reachable w (referred_then_cls w "ayswvo" 1791) ∧
    (referred_then_cls w "ayswvo" 1791).instruction_pointer = ASM_BUFFER_SIZE ∧
    ∃ t, exec w 0 (referred_then_cls w "ayswvo" 1791) (Op.jp_label "a") =
        some (ASM_TOO_MANY_INSTRUCTIONS, t) ∧
      Reachable w t ∧
      asm_get_number_of_undefined_labels t = 2 ∧ (pending t).card = 2 ∧
      (∃ slot la, probe_label w t "a" = Probe.found slot la ∧ la.undefined = true ∧
        la.address = ASM_BUFFER_SIZE) ∧
      ∀ fuel, exec_within w fuel t (Op.emit_label "a") = false := by
  obtain ⟨h1, h2, h3, h4, h5, hl⟩ := referred_then_cls_spec w "ayswvo" 1791 (by decide)
  have hip : (referred_then_cls w "ayswvo" 1791).instruction_pointer = ASM_BUFFER_SIZE :=
    h3.trans (by decide)
  have hnew : "a" ∉ table_names (referred_then_cls w "ayswvo" 1791) :=
    not_mem_table_names_single hl (by show ("ayswvo" : String) ≠ "a"; decide)
  obtain ⟨t, t1, t2, t3, ⟨slot, la, p1, p2, p3⟩, t4⟩ :=
    failed_reference_walk w _ "a" h2 hnew (by rw [h4]; decide) (by rw [hip]; decide)
  have hcount : asm_get_number_of_undefined_labels t = 2 :=
    undefined_count_eq (by rw [t3, h5])
  refine ⟨h1, h2, hip, t, t1, t2, hcount, ?_, ⟨slot, la, p1, p2, p3.trans hip⟩, t4⟩
  rw [← reachable_pending t2]
  exact hcount

end C8asm
